import Mathlib

/-!
# Hack assembler: shallow embedding and verified properties

The development follows the C sources of the two-pass Hack assembler
(`util.c`, `code.c`, `symbol.c`, `parser.c`, `main.c`).

Modelling conventions.

* A C string is a `String`; a character stands for one byte and a string never
  contains the terminator `NUL`.  `strcmp (a, b) == 0` is `a = b`, a `NULL`
  string pointer is `none`.
* A character buffer (`char[]`) is a `List Char` in which `NUL` may occur; a
  pointer into a buffer is the buffer together with an offset.
* `int` return codes are kept as `Int` (`0`, `1`, `-1`) where the callers test
  them; functions that only succeed or fail and whose error value is not
  inspected further return an `Option`.
* Allocation failures (`calloc`, `strdup`, `reallocarray`) and stream errors do
  not occur.  The counters of type `size_t` are natural numbers; where such a
  counter is passed for an `int` parameter (`instruction_counter` and
  `next_variable_address` in the calls of `SymbolTable_addEntry`) the value is
  kept, as it is for every input of fewer than `2 ^ 31` instructions.
* `errno` is not represented: where it is read (`... == -1 && errno == 0` after
  `SymbolTable_getValueIndex`) it holds the value `0` that the search has just
  stored together with the result `-1`.
* Undefined behaviour (`strdup` of a `NULL` token) is a result of its own,
  `Res.undefined`.
* `generateCode` has no `return` statement behind its loop.  The model gives it
  no return value there (`none`); the value that `main` then compares with 0 is
  not fixed by the source and is an argument of `main`, over which the
  statements about `main` quantify.  The records are written inside the loop
  and do not depend on it.
-/

namespace HackAssembler

/-! ## libc -/

/-- The string terminator. -/
def NUL : Char := Char.ofNat 0

/-- The function `isspace` of the C locale: space, `\t`, `\n`, `\v`, `\f`, `\r`. -/
def isspace (c : Char) : Bool := c.toNat = 32 || (9 ≤ c.toNat && c.toNat ≤ 13)

/-- The function `isdigit` of the C locale. -/
def isdigit (c : Char) : Bool := 48 ≤ c.toNat && c.toNat ≤ 57

/-- A character buffer. -/
abbrev Buffer := List Char

/-- The byte at index `i` of a buffer. -/
def Buffer.at (buf : Buffer) (i : Nat) : Char := buf.getD i NUL

/-- The C string that starts at offset `off` of a buffer (what `strdup` copies). -/
def cstrAt (buf : Buffer) (off : Nat) : String :=
  String.mk ((buf.drop off).takeWhile (fun c => c != NUL))

/-- Store the bytes `src` into the buffer from offset `off` on. -/
def writeAt : Buffer → Nat → List Char → Buffer
  | buf, _, [] => buf
  | buf, off, c :: cs => writeAt (buf.set off c) (off + 1) cs

/-- The function `strcpy (buf + off, src)`: the characters of `src` and the terminator. -/
def strcpy (buf : Buffer) (off : Nat) (src : String) : Buffer :=
  writeAt buf off (src.toList ++ [NUL])

/-- The value of a run of decimal digits, most significant first. -/
def digitsValue (ds : List Char) : Nat :=
  ds.foldl (fun acc c => 10 * acc + (c.toNat - 48)) 0

/-- The largest `long` (64 bit). -/
def LONG_MAX : Int := 2 ^ 63 - 1

/-- Conversion of an integer to `int` (32 bit, two's complement). -/
def toInt32 (n : Int) : Int := (n + 2 ^ 31) % 2 ^ 32 - 2 ^ 31

/-- The optional sign that `strtol` reads: whether it is `-`, and what follows it. -/
def strtolSign : List Char → Bool × List Char
  | '-' :: r => (true, r)
  | '+' :: r => (false, r)
  | r => (false, r)

/-- The function `atoi`, as `(int) strtol (s, NULL, 10)`: leading white space, an
optional sign, then the longest run of digits; `strtol` saturates at the bounds
of `long` and the result is converted to `int`. -/
def atoi (s : String) : Int :=
  let signed := strtolSign (s.toList.dropWhile isspace)
  let v : Int := (digitsValue (signed.2.takeWhile isdigit) : Nat)
  toInt32 (if signed.1 then max (-v) (-LONG_MAX - 1) else min v LONG_MAX)

/-- The decimal digits that `sprintf (buf, "%ld", n)` prints. -/
def sprintf_ld (n : Int) : String :=
  if n < 0 then String.mk ('-' :: Nat.toDigits 10 n.natAbs) else String.mk (Nat.toDigits 10 n.toNat)

/-! ## util.c -/

/-- The kinds of command (`enum Command`). -/
inductive Command
  | A_COMMAND
  | C_COMMAND
  | L_COMMAND
  | NONE_COMMAND
  deriving DecidableEq, Repr

open Command

/-- The function `strtrim`: copy every character for which `isspace` is `0`. -/
def strtrim (str : String) : String :=
  String.mk (str.toList.filter (fun c => !isspace c))

/-- The copying loop of `strtrim` over the characters of `str` that are left,
with the buffer `trimmed_str` and the index `trimmed_str_index`. -/
def strtrimLoop : List Char → Buffer → Nat → Buffer
  | [], trimmed_str, _ => trimmed_str
  | c :: rest, trimmed_str, trimmed_str_index =>
    if isspace c = false then
      strtrimLoop rest (trimmed_str.set trimmed_str_index c) (trimmed_str_index + 1)
    else strtrimLoop rest trimmed_str trimmed_str_index

/-- The function `strtrim` on its buffer: `calloc` returns `length + 1` zero
bytes, the loop stores the characters that are kept, and the zero byte behind
them ends the string that is returned. -/
def strtrimBuffer (str : String) : String :=
  cstrAt (strtrimLoop str.toList (List.replicate (str.toList.length + 1) NUL) 0) 0

/-- The function `findCommandType`. -/
def findCommandType (instruction : String) : Command :=
  if instruction.toList.head? = some '@' then A_COMMAND
  else if instruction.toList.head? = some '(' ∧ ')' ∈ instruction.toList then L_COMMAND
  else if '=' ∈ instruction.toList ∨ ';' ∈ instruction.toList then C_COMMAND
  else NONE_COMMAND

/-- The function `isNum`: `0` at the first character that is not a digit, `1` after the loop. -/
def isNum (num_str : String) : Int :=
  if num_str.toList.all isdigit then 1 else 0

/-! ## code.h, code.c -/

def COMP_0 : String := "0101010"
def COMP_1 : String := "0111111"
def COMP_NEG_1 : String := "0111010"
def COMP_D : String := "0001100"
def COMP_NOT_D : String := "0001101"
def COMP_NEG_D : String := "0001111"
def COMP_D_PLUS_1 : String := "0011111"
def COMP_D_MINUS_1 : String := "0001110"

def COMP_A : String := "0110000"
def COMP_NOT_A : String := "0110001"
def COMP_NEG_A : String := "0110011"
def COMP_A_PLUS_1 : String := "0110111"
def COMP_A_MINUS_1 : String := "0110010"
def COMP_D_PLUS_A : String := "0000010"
def COMP_D_MINUS_A : String := "0010011"
def COMP_A_MINUS_D : String := "0000111"
def COMP_D_AND_A : String := "0000000"
def COMP_D_OR_A : String := "0010101"

def COMP_M : String := "1110000"
def COMP_NOT_M : String := "1110001"
def COMP_NEG_M : String := "1110011"
def COMP_M_PLUS_1 : String := "1110111"
def COMP_M_MINUS_1 : String := "1110010"
def COMP_D_PLUS_M : String := "1000010"
def COMP_D_MINUS_M : String := "1010011"
def COMP_M_MINUS_D : String := "1000111"
def COMP_D_AND_M : String := "1000000"
def COMP_D_OR_M : String := "1010101"

def DEST_NULL : String := "000"
def DEST_M : String := "001"
def DEST_D : String := "010"
def DEST_MD : String := "011"
def DEST_A : String := "100"
def DEST_AM : String := "101"
def DEST_AD : String := "110"
def DEST_AMD : String := "111"

def JUMP_NULL : String := "000"
def JUMP_JGT : String := "001"
def JUMP_JEQ : String := "010"
def JUMP_JGE : String := "011"
def JUMP_JLT : String := "100"
def JUMP_JNE : String := "101"
def JUMP_JLE : String := "110"
def JUMP_JMP : String := "111"

def COMPUTATION_MNEUMONICS : List String :=
  [ "0", "1", "-1", "D", "!D", "-D", "D+1", "D-1",
    "A", "!A", "-A", "A+1", "A-1", "D+A", "D-A", "A-D", "D&A", "D|A",
    "M", "!M", "-M", "M+1", "M-1", "D+M", "D-M", "M-D", "D&M", "D|M" ]

def COMPUTATION_BINARY : List String :=
  [ COMP_0, COMP_1, COMP_NEG_1, COMP_D, COMP_NOT_D, COMP_NEG_D, COMP_D_PLUS_1, COMP_D_MINUS_1,
    COMP_A, COMP_NOT_A, COMP_NEG_A, COMP_A_PLUS_1, COMP_A_MINUS_1, COMP_D_PLUS_A, COMP_D_MINUS_A,
    COMP_A_MINUS_D, COMP_D_AND_A, COMP_D_OR_A,
    COMP_M, COMP_NOT_M, COMP_NEG_M, COMP_M_PLUS_1, COMP_M_MINUS_1, COMP_D_PLUS_M, COMP_D_MINUS_M,
    COMP_M_MINUS_D, COMP_D_AND_M, COMP_D_OR_M ]

def DESTINATION_MNEUMONICS : List String := [ "M", "D", "MD", "A", "AM", "AD", "AMD", "" ]

def DESTINATION_BINARY : List String :=
  [ DEST_M, DEST_D, DEST_MD, DEST_A, DEST_AM, DEST_AD, DEST_AMD, DEST_NULL ]

def JUMP_MNEUMONICS : List String := [ "JGT", "JEQ", "JGE", "JLT", "JNE", "JLE", "JMP", "" ]

def JUMP_BINARY : List String :=
  [ JUMP_JGT, JUMP_JEQ, JUMP_JGE, JUMP_JLT, JUMP_JNE, JUMP_JLE, JUMP_JMP, JUMP_NULL ]

/-- The function `isMneumonic`: the three search loops over the mnemonic tables. -/
def isMneumonic (mneumonic : String) : Int :=
  if mneumonic ∈ COMPUTATION_MNEUMONICS then 1
  else if mneumonic ∈ DESTINATION_MNEUMONICS then 1
  else if mneumonic ∈ JUMP_MNEUMONICS then 1
  else 0

/-- The search loop of `dest`, `comp` and `jump`: the binary counterpart of the
first table entry that `strcmp` finds equal to the mnemonic. -/
def lookupBinary : List String → List String → String → Option String
  | m :: ms, b :: bs, mneumonic =>
    if mneumonic = m then some b else lookupBinary ms bs mneumonic
  | _, _, _ => none

/-- The function `dest`, writing at `binary_out + off`; `none` is the return value `-1`. -/
def dest (mneumonic : String) (binary_out : Buffer) (off : Nat) : Option Buffer :=
  (lookupBinary DESTINATION_MNEUMONICS DESTINATION_BINARY mneumonic).map (strcpy binary_out off)

/-- The function `comp`, writing at `binary_out + off`; `none` is the return value `-1`. -/
def comp (mneumonic : String) (binary_out : Buffer) (off : Nat) : Option Buffer :=
  (lookupBinary COMPUTATION_MNEUMONICS COMPUTATION_BINARY mneumonic).map (strcpy binary_out off)

/-- The function `jump`, writing at `binary_out + off`; `none` is the return value `-1`. -/
def jump (mneumonic : String) (binary_out : Buffer) (off : Nat) : Option Buffer :=
  (lookupBinary JUMP_MNEUMONICS JUMP_BINARY mneumonic).map (strcpy binary_out off)

/-- The digit that the loop of `numToBinary` stores for `binary_index`. -/
def binary_digit (decimal_num binary_index : Nat) : Char :=
  if (decimal_num >>> binary_index) &&& 1 ≠ 0 then '1' else '0'

/-- The function `numToBinary`, writing at `binary_out + off`.  The value of `atoi`
is converted to `uint16_t` before it is compared with `max_value`. -/
def numToBinary (num_str : String) (binary_out : Buffer) (off : Nat) : Option Buffer :=
  if isNum num_str = 1 then
    let max_value : Nat := 32767
    let decimal_num : Nat := (atoi num_str % 65536).toNat
    if decimal_num > max_value then none
    else
      let bits := (List.range 15).reverse.foldl
        (fun (b : Buffer) binary_index =>
          b.set (off + (14 - binary_index)) (binary_digit decimal_num binary_index))
        binary_out
      some (bits.set (off + 15) NUL)
  else none

/-- The function `generateAInstruction`; `none` is the return value `-1`. -/
def generateAInstruction (symbol : String) (binary_out : Buffer) : Option Buffer := do
  let b ← numToBinary symbol binary_out 1
  pure ((b.set 0 '0').set 16 NUL)

/-- The function `generateCInstruction`; an absent field is a `NULL` pointer and
`none` is the return value `-1`. -/
def generateCInstruction (destination computation jmp : Option String) (binary_out : Buffer) :
    Option Buffer :=
  match computation with
  | none => none
  | some computation =>
    if destination.isSome ∨ jmp.isSome then do
      let b := ((binary_out.set 0 '1').set 1 '1').set 2 '1'
      let b ← comp computation b 3
      let b ← match destination with
        | some destination => dest destination b 10
        | none => some (strcpy b 10 DEST_NULL)
      let b ← match jmp with
        | some jmp => jump jmp b 13
        | none => some (strcpy b 13 JUMP_NULL)
      pure (b.set 16 NUL)
    else none

/-! ## symbol.h, symbol.c -/

def SYMBOL_SP : Int := 0
def SYMBOL_LCL : Int := 1
def SYMBOL_ARG : Int := 2
def SYMBOL_THIS : Int := 3
def SYMBOL_THAT : Int := 4
def SYMBOL_R0 : Int := 0
def SYMBOL_R1 : Int := 1
def SYMBOL_R2 : Int := 2
def SYMBOL_R3 : Int := 3
def SYMBOL_R4 : Int := 4
def SYMBOL_R5 : Int := 5
def SYMBOL_R6 : Int := 6
def SYMBOL_R7 : Int := 7
def SYMBOL_R8 : Int := 8
def SYMBOL_R9 : Int := 9
def SYMBOL_R10 : Int := 10
def SYMBOL_R11 : Int := 11
def SYMBOL_R12 : Int := 12
def SYMBOL_R13 : Int := 13
def SYMBOL_R14 : Int := 14
def SYMBOL_R15 : Int := 15
def SYMBOL_SCREEN : Int := 16384
def SYMBOL_KBD : Int := 24576

/-- An entry of the symbol table (`struct StructTuple`).  The entries below
`size` always hold a copied, non-`NULL` symbol. -/
structure StructTuple where
  symbol : String
  address : Int
  deriving DecidableEq, Repr

/-- The symbol table (`struct StructSymbolTable`): `values` lists the `size`
entries in use, in array order; the slots from `size` up to `capacity` are
never read. -/
structure SymbolTable where
  capacity : Nat
  values : List StructTuple
  deriving DecidableEq, Repr

/-- The field `size`: the number of entries in use. -/
def SymbolTable.size (st : SymbolTable) : Nat := st.values.length

def PREDEFINED_SYMBOLS : List String :=
  [ "SP", "LCL", "ARG", "THIS", "THAT", "R0", "R1", "R2", "R3", "R4", "R5", "R6", "R7", "R8",
    "R9", "R10", "R11", "R12", "R13", "R14", "R15", "SCREEN", "KBD" ]

def PREDEFINED_SYMBOL_VALUES : List Int :=
  [ SYMBOL_SP, SYMBOL_LCL, SYMBOL_ARG, SYMBOL_THIS, SYMBOL_THAT, SYMBOL_R0, SYMBOL_R1, SYMBOL_R2,
    SYMBOL_R3, SYMBOL_R4, SYMBOL_R5, SYMBOL_R6, SYMBOL_R7, SYMBOL_R8, SYMBOL_R9, SYMBOL_R10,
    SYMBOL_R11, SYMBOL_R12, SYMBOL_R13, SYMBOL_R14, SYMBOL_R15, SYMBOL_SCREEN, SYMBOL_KBD ]

def TOTAL_PREDEFINED_SYMBOLS : Nat := 23

/-- The function `SymbolTable_resize`: `-1` unless the capacity grows. -/
def SymbolTable_resize (st : SymbolTable) (new_size : Nat) : Int × SymbolTable :=
  if st.capacity < new_size then (0, { st with capacity := new_size }) else (-1, st)

/-- The search loop of `SymbolTable_getValueIndex` from position `index` on. -/
def getValueIndexFrom (symbol : String) : List StructTuple → Nat → Int
  | [], _ => -1
  | t :: ts, index => if t.symbol = symbol then (index : Int) else getValueIndexFrom symbol ts (index + 1)

/-- The function `SymbolTable_getValueIndex`: the index of the first entry with
the symbol, `-1` (with `errno = 0`) when there is none. -/
def SymbolTable_getValueIndex (st : SymbolTable) (symbol : String) : Int :=
  getValueIndexFrom symbol st.values 0

/-- The function `SymbolTable_addEntry`: the return value and the table afterwards. -/
def SymbolTable_addEntry (st : SymbolTable) (symbol : String) (address : Int) :
    Int × SymbolTable :=
  let expansion_value : Nat := 10
  if address < 32766 then
    let error := SymbolTable_getValueIndex st symbol
    if error = -1 then
      let resized :=
        if st.capacity = st.size then SymbolTable_resize st (st.capacity + expansion_value)
        else (0, st)
      if resized.1 < 0 then (-1, st)
      else (0, { resized.2 with values := resized.2.values ++ [⟨symbol, address⟩] })
    else if error > 0 ∧ error < st.size then
      (0, { st with values := st.values.modify (fun t => { t with address := address }) error.toNat })
    else (-1, st)
  else (-1, st)

/-- The loop of `SymbolTable_addPredefinedSymbols` over the two parallel arrays. -/
def addPredefinedLoop : List String → List Int → SymbolTable → Int × SymbolTable
  | s :: ss, v :: vs, st =>
    let r := SymbolTable_addEntry st s v
    if r.1 = -1 then (-1, r.2) else addPredefinedLoop ss vs r.2
  | _, _, st => (0, st)

/-- The function `SymbolTable_addPredefinedSymbols`. -/
def SymbolTable_addPredefinedSymbols (st : SymbolTable) : Int × SymbolTable :=
  addPredefinedLoop PREDEFINED_SYMBOLS PREDEFINED_SYMBOL_VALUES st

/-- The function `SymbolTable_create`; `none` is the return value `-1`. -/
def SymbolTable_create (capacity : Nat) : Option SymbolTable :=
  if capacity > 0 then
    let r := SymbolTable_resize ⟨0, []⟩ (capacity + TOTAL_PREDEFINED_SYMBOLS)
    if r.1 < 0 then none
    else
      let p := SymbolTable_addPredefinedSymbols r.2
      if p.1 < 0 then none else some p.2
  else none

/-- The function `SymbolTable_contains`: `1` for an index above `0`, `0` for the
index `-1`, and `-1` otherwise. -/
def SymbolTable_contains (st : SymbolTable) (symbol : String) : Int :=
  let index := SymbolTable_getValueIndex st symbol
  if index > 0 then 1
  else if index = -1 then 0
  else -1

/-- The function `SymbolTable_getAddress`. -/
def SymbolTable_getAddress (st : SymbolTable) (symbol : String) : Int :=
  if st.size > 0 then
    let index := SymbolTable_getValueIndex st symbol
    if index > 0 ∧ index < st.size then (st.values.getD index.toNat ⟨"", 0⟩).address
    else -1
  else -1

/-! ## parser.h, parser.c -/

/-- The result of a function that can run into undefined behaviour: either it
returns `code` and leaves `state`, or it dereferences a `NULL` pointer. -/
inductive Res (σ : Type) where
  | ret (code : Int) (state : σ)
  | undefined
  deriving DecidableEq, Repr

/-- The fields of a parsed command (`struct ParsedCommand`); `none` is `NULL`. -/
structure ParsedCommand where
  symbol : Option String
  destination : Option String
  computation : Option String
  jump : Option String
  type : Command
  deriving DecidableEq, Repr

/-- The source stream: the lines that the successive calls
`fgets (buffer, 128, file)` are going to return (a line of the file that is
longer than 127 characters comes in several pieces), and the end-of-file
indicator.  The indicator is set when `fgets` finds nothing to read; a last
line without line break sets it one call earlier in C, in which case the loop
of `parseCommands` ends by its condition instead of by the `break`, with the
same result. -/
structure FILE where
  lines : List String
  eof : Bool
  deriving DecidableEq, Repr

/-- The parser (`struct ParserStruct`). -/
structure Parser where
  source_file : FILE
  current_command : ParsedCommand
  deriving DecidableEq, Repr

/-- A command with every field `NULL`, as `ParsedCommand_free` leaves it. -/
def ParsedCommand_free : ParsedCommand := ⟨none, none, none, none, NONE_COMMAND⟩

/-- The function `Parser_create`. -/
def Parser_create (file : FILE) : Parser := ⟨file, ⟨none, none, none, none, NONE_COMMAND⟩⟩

/-- The function `Parser_hasMoreCommands`. -/
def Parser_hasMoreCommands (parser : Parser) : Int :=
  if parser.source_file.eof = false then 1 else 0

/-- The function `strtok` on the buffer `buf`, scanning from offset `s` (offset
`0` for a call with the buffer, the saved offset for a call with `NULL`): the
offset of the token if there is one, the buffer afterwards (the delimiter that
ends the token is overwritten with `NUL`) and the saved offset. -/
def strtok (buf : Buffer) (s : Nat) (delim : List Char) : Option Nat × Buffer × Nat :=
  let s1 := s + ((buf.drop s).takeWhile (fun c => c != NUL && decide (c ∈ delim))).length
  if buf.at s1 = NUL then (none, buf, s1)
  else
    let e := s1 + ((buf.drop s1).takeWhile (fun c => c != NUL && !decide (c ∈ delim))).length
    if buf.at e = NUL then (some s1, buf, e)
    else (some s1, buf.set e NUL, e + 1)

/-- The body of `Parser_parseCommand`: the value that `current_command`
receives and the return value; `command` is the trimmed line, held in a buffer
that `strtok` modifies.  Tokens are copied (`strdup`) from the buffer as it is
after all calls of `strtok`; copying the `NULL` token is undefined. -/
def parseCommandFields (command : String) : Res ParsedCommand :=
  let buf : Buffer := command.toList ++ [NUL]
  let type := findCommandType command
  let cur : ParsedCommand := { ParsedCommand_free with type := type }
  match type with
  | A_COMMAND =>
    match strtok buf 0 ['@'] with
    | (none, _, _) => Res.ret (-1) cur
    | (some token, buf, _) => Res.ret 0 { cur with symbol := some (cstrAt buf token) }
  | C_COMMAND =>
    let t1 := strtok buf 0 ['=']
    let c_dest_token := t1.1
    let t2 := strtok t1.2.1 t1.2.2 ['=']
    let c_comp_token := t2.1
    let t3 := strtok t2.2.1 0 [';']
    let j_comp_token := t3.1
    let t4 := strtok t3.2.1 t3.2.2 [';']
    let j_jump_token := t4.1
    let buf := t4.2.1
    match c_dest_token, c_comp_token, j_comp_token, j_jump_token with
    | some _, some _, some _, some _ => Res.ret (-1) cur
    | some d, some c, _, _ =>
      Res.ret 0 { cur with destination := some (cstrAt buf d), computation := some (cstrAt buf c) }
    | _, _, some c, some j =>
      Res.ret 0 { cur with computation := some (cstrAt buf c), jump := some (cstrAt buf j) }
    | _, _, _, _ => Res.ret (-1) cur
  | L_COMMAND =>
    match strtok buf 0 ['(', ')'] with
    | (none, _, _) => Res.undefined
    | (some token, buf, _) => Res.ret 0 { cur with symbol := some (cstrAt buf token) }
  | NONE_COMMAND => Res.ret (-1) cur

/-- The function `Parser_parseCommand`: the previous command is freed and
`current_command` is filled from the line. -/
def Parser_parseCommand (parser : Parser) (command : String) : Res Parser :=
  match parseCommandFields command with
  | Res.ret code cur => Res.ret code { parser with current_command := cur }
  | Res.undefined => Res.undefined

/-- The reading loop of `Parser_advance` over the lines that `fgets` returns:
lines that are empty after trimming are skipped, the first other line is
parsed; at the end of the stream the end-of-file indicator is set and the
return value is `1`. -/
def advanceLoop (current_command : ParsedCommand) (eof : Bool) : List String → Res Parser
  | [] => Res.ret 1 ⟨⟨[], true⟩, current_command⟩
  | line :: rest =>
    let trimmed_command := strtrim line
    if trimmed_command.toList.head? = none then advanceLoop current_command eof rest
    else Parser_parseCommand ⟨⟨rest, eof⟩, current_command⟩ trimmed_command

/-- The function `Parser_advance`. -/
def Parser_advance (parser : Parser) : Res Parser :=
  advanceLoop parser.current_command parser.source_file.eof parser.source_file.lines

/-- The function `Parser_commandType`. -/
def Parser_commandType (parser : Parser) : Command := parser.current_command.type

/-- The function `Parser_symbol`. -/
def Parser_symbol (parser : Parser) : Option String := parser.current_command.symbol

/-- The function `Parser_dest`. -/
def Parser_dest (parser : Parser) : Option String := parser.current_command.destination

/-- The function `Parser_comp`. -/
def Parser_comp (parser : Parser) : Option String := parser.current_command.computation

/-- The function `Parser_jump`. -/
def Parser_jump (parser : Parser) : Option String := parser.current_command.jump

/-! ## util.c: the command array -/

/-- The command array (`struct StructCommandArray`): `commands` lists the
`size` entries in use; the other slots are never read. -/
structure CommandArray where
  capacity : Nat
  commands : List ParsedCommand
  deriving DecidableEq, Repr

/-- The field `size`. -/
def CommandArray.size (command_array : CommandArray) : Nat := command_array.commands.length

/-- The function `CommandArray_create`; `none` is the return value `-1`. -/
def CommandArray_create (capacity : Nat) : Option CommandArray :=
  if 0 < capacity then some ⟨capacity, []⟩ else none

/-- The function `CommandArray_copyCommand`: the slot at index `size`, all of
whose fields are `NULL`, receives copies of the fields of the current command. -/
def CommandArray_copyCommand (command_array : CommandArray) (parser : Parser) :
    Res CommandArray :=
  let expansion_value : Nat := 10
  let capacity :=
    if command_array.size = command_array.capacity then command_array.capacity + expansion_value
    else command_array.capacity
  let slot : ParsedCommand := ⟨none, none, none, none, NONE_COMMAND⟩
  let command_type := Parser_commandType parser
  let append (c : ParsedCommand) : Res CommandArray :=
    Res.ret 0 ⟨capacity, command_array.commands ++ [{ c with type := command_type }]⟩
  match command_type with
  | NONE_COMMAND => Res.ret (-1) { command_array with capacity := capacity }
  | C_COMMAND =>
    match Parser_comp parser with
    | none => Res.undefined
    | some computation =>
      let slot := { slot with computation := some computation }
      match Parser_jump parser, Parser_dest parser with
      | some jmp, _ => append { slot with jump := some jmp }
      | none, some destination => append { slot with destination := some destination }
      | none, none => append slot
  | _ =>
    match Parser_symbol parser with
    | none => Res.undefined
    | some symbol => append { slot with symbol := some symbol }

/-! ## main.c -/

/-- The objects that `parseCommands` works on. -/
structure PassOne where
  parser : Parser
  symbol_table : SymbolTable
  command_array : CommandArray
  deriving DecidableEq, Repr

/-- The loop of `parseCommands`, with `fuel` bounding the number of iterations
(`none`: the bound was too small).  The state carries `instruction_counter`. -/
def parseCommandsLoop : Nat → PassOne → Nat → Option (Res PassOne)
  | 0, _, _ => none
  | fuel + 1, s, instruction_counter =>
    if Parser_hasMoreCommands s.parser = 1 then
      match Parser_advance s.parser with
      | Res.undefined => some Res.undefined
      | Res.ret error parser =>
        if error < 0 then some (Res.ret (-1) { s with parser := parser })
        else if error = 1 then some (Res.ret 0 { s with parser := parser })
        else
          let command_type := Parser_commandType parser
          if command_type = L_COMMAND then
            match Parser_symbol parser with
            | none => some (Res.ret (-1) { s with parser := parser })
            | some symbol =>
              if SymbolTable_contains s.symbol_table symbol = 0 then
                let r := SymbolTable_addEntry s.symbol_table symbol instruction_counter
                if r.1 < 0 then some (Res.ret (-1) { s with parser := parser, symbol_table := r.2 })
                else parseCommandsLoop fuel { s with parser := parser, symbol_table := r.2 }
                  instruction_counter
              else some (Res.ret (-1) { s with parser := parser })
          else
            match CommandArray_copyCommand s.command_array parser with
            | Res.undefined => some Res.undefined
            | Res.ret error command_array =>
              if error < 0 then
                some (Res.ret (-1) { s with parser := parser, command_array := command_array })
              else parseCommandsLoop fuel { s with parser := parser, command_array := command_array }
                (instruction_counter + 1)
    else some (Res.ret 0 s)

/-- The function `parseCommands`: every iteration but the last consumes a line,
so one iteration more than there are lines, plus one, is enough. -/
def parseCommands (parser : Parser) (symbol_table : SymbolTable) (command_array : CommandArray) :
    Option (Res PassOne) :=
  parseCommandsLoop (parser.source_file.lines.length + 2) ⟨parser, symbol_table, command_array⟩ 0

/-- The state of `generateCode`: the symbol table, `next_variable_address` and
the records written to the output file so far. -/
structure PassTwo where
  symbol_table : SymbolTable
  next_variable_address : Nat
  output_file : List String
  deriving DecidableEq, Repr

/-- The initial contents `"0000000000000000\n\0"` of `binary_instruction`. -/
def binary_instruction_init : Buffer := "0000000000000000".toList ++ ['\n', NUL]

/-- The record that the end of an iteration of `generateCode` writes: the line
break is stored at index 16 and the first 17 bytes of the buffer are written. -/
def record (binary_instruction : Buffer) : String :=
  String.mk (((binary_instruction.set 16 '\n').set 17 NUL).take 17)

/-- The end of an iteration of `generateCode`: `fwrite` appends the record to
the output file. -/
def writeInstruction (binary_instruction : Buffer) (s : PassTwo) : PassTwo :=
  { s with output_file := s.output_file ++ [record binary_instruction] }

/-- One iteration of the loop of `generateCode` for `current_command`; `none`
is the `return -1` of the iteration, otherwise the state after the record has
been written. -/
def generateCommand (s : PassTwo) (current_command : ParsedCommand) : Option PassTwo :=
  let binary_instruction := binary_instruction_init
  match current_command.type with
  | A_COMMAND =>
    match current_command.symbol with
    | none => none
    | some symbol =>
      if isMneumonic symbol = 1 then
        match generateAInstruction symbol binary_instruction with
        | none => none
        | some b => some (writeInstruction b s)
      else if SymbolTable_contains s.symbol_table symbol = 1 then
        let symbol_address := SymbolTable_getAddress s.symbol_table symbol
        let num_str := sprintf_ld symbol_address
        match generateAInstruction num_str binary_instruction with
        | none => none
        | some b => some (writeInstruction b s)
      else
        let r := SymbolTable_addEntry s.symbol_table symbol s.next_variable_address
        if r.1 < 0 then none
        else
          let num_str := sprintf_ld s.next_variable_address
          match generateAInstruction num_str binary_instruction with
          | none => none
          | some b =>
            some (writeInstruction b
              { s with symbol_table := r.2, next_variable_address := s.next_variable_address + 1 })
  | C_COMMAND =>
    match generateCInstruction current_command.destination current_command.computation
        current_command.jump binary_instruction with
    | none => none
    | some b => some (writeInstruction b s)
  | _ => some (writeInstruction binary_instruction s)

/-- The loop of `generateCode` over the entries of the command array.  The
first component is the value of the `return` statement that ends the function:
`some (-1)` at the first failing iteration, and `none` when the loop has run
through, since the source has no `return` statement behind the loop.  The state
is the one reached, with all records written so far. -/
def generateCodeLoop : List ParsedCommand → PassTwo → Option Int × PassTwo
  | [], s => (none, s)
  | current_command :: rest, s =>
    match generateCommand s current_command with
    | none => (some (-1), s)
    | some s => generateCodeLoop rest s

/-- The function `generateCode`. -/
def generateCode (symbol_table : SymbolTable) (command_array : CommandArray) :
    Option Int × PassTwo :=
  generateCodeLoop command_array.commands ⟨symbol_table, 16, []⟩

/-- An iteration of `generateCode` that finds the table `st` writes the record
`line` for the command `cmd` and leaves the table and the variable counter as
they are: the iteration succeeds without allocating a variable. -/
def Emits (st : SymbolTable) (cmd : ParsedCommand) (line : String) : Prop :=
  ∀ (next_variable_address : Nat) (output_file : List String),
    generateCommand ⟨st, next_variable_address, output_file⟩ cmd
      = some ⟨st, next_variable_address, output_file ++ [line]⟩

/-- The function `main` on the lines of `test.asm`: the return value and the
records written to `test.hack`.  When `generateCode` has ended without a
`return` statement, the value that `main` compares with 0 is not determined by
the source; it is the argument `indeterminate`, which may be any value.  The
records are written and the file is closed on both paths of that comparison. -/
def main (indeterminate : Int) (test_asm : List String) : Option (Res (List String)) :=
  let parser := Parser_create ⟨test_asm, false⟩
  match CommandArray_create 128 with
  | none => some (Res.ret (-1) [])
  | some command_array =>
    match SymbolTable_create 128 with
    | none => some (Res.ret (-1) [])
    | some symbol_table =>
      match parseCommands parser symbol_table command_array with
      | none => none
      | some Res.undefined => some Res.undefined
      | some (Res.ret error s) =>
        if error < 0 then some (Res.ret (-1) [])
        else
          let r := generateCode s.symbol_table s.command_array
          let error := r.1.getD indeterminate
          if error < 0 then some (Res.ret (-1) r.2.output_file)
          else some (Res.ret 0 r.2.output_file)

/-! ## Specification-side vocabulary -/

/-- The number that a string of binary digits denotes, most significant digit first. -/
def binaryValue (bits : List Char) : Nat :=
  bits.foldl (fun acc c => 2 * acc + (if c = '1' then 1 else 0)) 0

/-- A string of binary digits. -/
def IsBinary (s : List Char) : Prop := ∀ c ∈ s, c = '0' ∨ c = '1'

/-- The code that a destination or jump field contributes: the table entry of a
present mnemonic, `000` for an absent field. -/
def fieldCode (mneumonics binary : List String) (field : Option String) : Option String :=
  match field with
  | none => some "000"
  | some m => lookupBinary mneumonics binary m

/-- A line of which nothing is left after trimming; `Parser_advance` skips it. -/
def isBlank (line : String) : Bool := (strtrim line).toList.head? = none

/-- The kind of a source line: the classification of the trimmed line, none for
a blank line. -/
def lineKind (line : String) : Option Command :=
  if isBlank line then none else some (findCommandType (strtrim line))

/-- An address or compute instruction. -/
def isInstructionLine (line : String) : Bool :=
  lineKind line = some A_COMMAND || lineKind line = some C_COMMAND

/-- A label declaration. -/
def isLabelLine (line : String) : Bool := lineKind line = some L_COMMAND

/-- The number of address and compute instructions among the lines. -/
def instructionCount (lines : List String) : Nat := (lines.filter isInstructionLine).length

/-- The fields that the parser extracts from a line, when it accepts the line. -/
def lineFields (line : String) : Option ParsedCommand :=
  match parseCommandFields (strtrim line) with
  | Res.ret 0 cur => some cur
  | _ => none

/-- The name that a label declaration declares. -/
def labelName (line : String) : Option String := (lineFields line).bind (fun cur => cur.symbol)

/-- The parsed address and compute instructions of the input, in input order. -/
def instructionCommands (lines : List String) : List ParsedCommand :=
  (lines.filter isInstructionLine).filterMap lineFields

/-- The label declarations of the input, each with the number of address and
compute instructions that precede it, counted from `k`. -/
def labelCounts : Nat → List String → List (String × Nat)
  | _, [] => []
  | k, l :: rest =>
    if isInstructionLine l then labelCounts (k + 1) rest
    else if isLabelLine l then (l, k) :: labelCounts k rest
    else labelCounts k rest

/-- The entries for the predefined symbols, in table order. -/
def predefinedEntries : List StructTuple :=
  List.zipWith StructTuple.mk PREDEFINED_SYMBOLS PREDEFINED_SYMBOL_VALUES

/-- The name is stored with the address at a position other than the first,
and at no earlier position. -/
def Bound (st : SymbolTable) (name : String) (address : Int) : Prop :=
  ∃ front back, st.values = front ++ ⟨name, address⟩ :: back ∧ front ≠ [] ∧
    ∀ t ∈ front, t.symbol ≠ name

/-- The fields of a well-formed compute instruction: the computation is
present, and of destination and jump exactly one is present. -/
def ComputeFields (cmd : ParsedCommand) : Prop :=
  cmd.computation ≠ none ∧
    ((cmd.destination ≠ none ∧ cmd.jump = none) ∨ (cmd.destination = none ∧ cmd.jump ≠ none))

/-- The tables that the functions of symbol.c can build: the result of
`SymbolTable_create`, and the table after any further call of
`SymbolTable_addEntry`, whatever the call returns. -/
inductive Reachable : SymbolTable → Prop
  | create (capacity : Nat) (st : SymbolTable) (h : SymbolTable_create capacity = some st) :
    Reachable st
  | addEntry (st : SymbolTable) (symbol : String) (address : Int) (h : Reachable st) :
    Reachable (SymbolTable_addEntry st symbol address).2

/-- The names stored in the table, in table order. -/
def SymbolTable.names (st : SymbolTable) : List String := st.values.map StructTuple.symbol

/-- The entries that the label declarations of the input stand for, in input
order: the declared name with the number of address and compute instructions
that precede the declaration, counted from `k`. -/
def labelEntries (k : Nat) (lines : List String) : List StructTuple :=
  (labelCounts k lines).filterMap (fun p => (labelName p.1).map (fun name => ⟨name, p.2⟩))

/-! ## Buffers -/

theorem exists_cons_of_succ_le_length {α : Type} (l : List α) (n : Nat) (h : n + 1 ≤ l.length) :
    ∃ a t, l = a :: t ∧ n ≤ t.length := by
  cases l with
  | nil => simp at h
  | cons a t => exact ⟨a, t, rfl, by simpa using h⟩

theorem exists_seventeen (buf : Buffer) (h : 17 ≤ buf.length) :
    ∃ b0 b1 b2 b3 b4 b5 b6 b7 b8 b9 b10 b11 b12 b13 b14 b15 b16 rest,
      buf = b0 :: b1 :: b2 :: b3 :: b4 :: b5 :: b6 :: b7 :: b8 :: b9 :: b10 :: b11 :: b12 ::
        b13 :: b14 :: b15 :: b16 :: rest := by
  obtain ⟨b0, t0, rfl, h0⟩ := exists_cons_of_succ_le_length buf 16 h
  obtain ⟨b1, t1, rfl, h1⟩ := exists_cons_of_succ_le_length t0 15 h0
  obtain ⟨b2, t2, rfl, h2⟩ := exists_cons_of_succ_le_length t1 14 h1
  obtain ⟨b3, t3, rfl, h3⟩ := exists_cons_of_succ_le_length t2 13 h2
  obtain ⟨b4, t4, rfl, h4⟩ := exists_cons_of_succ_le_length t3 12 h3
  obtain ⟨b5, t5, rfl, h5⟩ := exists_cons_of_succ_le_length t4 11 h4
  obtain ⟨b6, t6, rfl, h6⟩ := exists_cons_of_succ_le_length t5 10 h5
  obtain ⟨b7, t7, rfl, h7⟩ := exists_cons_of_succ_le_length t6 9 h6
  obtain ⟨b8, t8, rfl, h8⟩ := exists_cons_of_succ_le_length t7 8 h7
  obtain ⟨b9, t9, rfl, h9⟩ := exists_cons_of_succ_le_length t8 7 h8
  obtain ⟨b10, t10, rfl, h10⟩ := exists_cons_of_succ_le_length t9 6 h9
  obtain ⟨b11, t11, rfl, h11⟩ := exists_cons_of_succ_le_length t10 5 h10
  obtain ⟨b12, t12, rfl, h12⟩ := exists_cons_of_succ_le_length t11 4 h11
  obtain ⟨b13, t13, rfl, h13⟩ := exists_cons_of_succ_le_length t12 3 h12
  obtain ⟨b14, t14, rfl, h14⟩ := exists_cons_of_succ_le_length t13 2 h13
  obtain ⟨b15, t15, rfl, h15⟩ := exists_cons_of_succ_le_length t14 1 h14
  obtain ⟨b16, t16, rfl, h16⟩ := exists_cons_of_succ_le_length t15 0 h15
  exact ⟨b0, b1, b2, b3, b4, b5, b6, b7, b8, b9, b10, b11, b12, b13, b14, b15, b16, t16, rfl⟩

theorem exists_three (l : List Char) (h : l.length = 3) : ∃ a b c, l = [a, b, c] := by
  obtain ⟨a, t, rfl, h1⟩ := exists_cons_of_succ_le_length l 2 (by omega)
  obtain ⟨b, t, rfl, h2⟩ := exists_cons_of_succ_le_length t 1 h1
  obtain ⟨c, t, rfl, _⟩ := exists_cons_of_succ_le_length t 0 h2
  cases t with
  | nil => exact ⟨a, b, c, rfl⟩
  | cons x t => simp at h

theorem exists_seven (l : List Char) (h : l.length = 7) :
    ∃ a b c d e f g, l = [a, b, c, d, e, f, g] := by
  obtain ⟨a, t, rfl, h1⟩ := exists_cons_of_succ_le_length l 6 (by omega)
  obtain ⟨b, t, rfl, h2⟩ := exists_cons_of_succ_le_length t 5 h1
  obtain ⟨c, t, rfl, h3⟩ := exists_cons_of_succ_le_length t 4 h2
  obtain ⟨d, t, rfl, h4⟩ := exists_cons_of_succ_le_length t 3 h3
  obtain ⟨e, t, rfl, h5⟩ := exists_cons_of_succ_le_length t 2 h4
  obtain ⟨f, t, rfl, h6⟩ := exists_cons_of_succ_le_length t 1 h5
  obtain ⟨g, t, rfl, _⟩ := exists_cons_of_succ_le_length t 0 h6
  cases t with
  | nil => exact ⟨a, b, c, d, e, f, g, rfl⟩
  | cons x t => simp at h

/-- The three `strcpy` calls of `generateCInstruction` lay the fields out one
after the other behind the leading `111`. -/
theorem cinstruction_layout (buf : Buffer) (h : 17 ≤ buf.length) (cb db jb : String)
    (hc : cb.length = 7) (hd : db.length = 3) (hj : jb.length = 3) :
    (strcpy (strcpy (strcpy (((buf.set 0 '1').set 1 '1').set 2 '1') 3 cb) 10 db) 13 jb).set 16 NUL
      = ("111" ++ cb ++ db ++ jb).toList ++ NUL :: buf.drop 17 := by
  obtain ⟨b0, b1, b2, b3, b4, b5, b6, b7, b8, b9, b10, b11, b12, b13, b14, b15, b16, rest, hb⟩ :=
    exists_seventeen buf h
  obtain ⟨cl⟩ := cb
  obtain ⟨dl⟩ := db
  obtain ⟨jl⟩ := jb
  have hc1 : cl.length = 7 := hc
  have hd1 : dl.length = 3 := hd
  have hj1 : jl.length = 3 := hj
  obtain ⟨c0, c1, c2, c3, c4, c5, c6, hcl⟩ := exists_seven cl hc1
  obtain ⟨d0, d1, d2, hdl⟩ := exists_three dl hd1
  obtain ⟨j0, j1, j2, hjl⟩ := exists_three jl hj1
  subst hb hcl hdl hjl
  simp [strcpy, writeAt]

/-- Reading a C string back from a buffer that holds it, terminated. -/
theorem cstrAt_append_nul (l rest : List Char) (h : ∀ c ∈ l, c ≠ NUL) :
    cstrAt (l ++ NUL :: rest) 0 = String.mk l := by
  unfold cstrAt
  congr 1
  induction l with
  | nil => simp [List.takeWhile]
  | cons a t ih =>
    have ha : a ≠ NUL := h a (List.mem_cons_self a t)
    have ht : ∀ c ∈ t, c ≠ NUL := fun c hc => h c (List.mem_cons_of_mem a hc)
    have hne : (a != NUL) = true := by simpa using ha
    have ih1 := ih ht
    simp only [List.drop] at ih1
    simp [List.takeWhile_cons, hne, ih1]

theorem isBinary_ne_nul {l : List Char} (h : IsBinary l) : ∀ c ∈ l, c ≠ NUL := by
  intro c hc
  rcases h c hc with rfl | rfl <;> decide

theorem isBinary_append {l r : List Char} (hl : IsBinary l) (hr : IsBinary r) :
    IsBinary (l ++ r) := by
  intro c hc
  rcases List.mem_append.mp hc with h | h
  · exact hl c h
  · exact hr c h

/-! ## The encoding tables -/

theorem lookupBinary_mem : ∀ (ms bs : List String) (m b : String),
    lookupBinary ms bs m = some b → b ∈ bs
  | [], _, _, _, h => by simp [lookupBinary] at h
  | _ :: _, [], _, _, h => by simp [lookupBinary] at h
  | x :: ms, y :: bs, m, b, h => by
    unfold lookupBinary at h
    by_cases hx : m = x
    · simp [hx] at h
      simp [h]
    · simp [hx] at h
      exact List.mem_cons_of_mem y (lookupBinary_mem ms bs m b h)

theorem computation_found :
    ∀ c ∈ COMPUTATION_MNEUMONICS,
      (lookupBinary COMPUTATION_MNEUMONICS COMPUTATION_BINARY c).isSome = true := by
  decide

theorem destination_found :
    ∀ d ∈ DESTINATION_MNEUMONICS,
      (lookupBinary DESTINATION_MNEUMONICS DESTINATION_BINARY d).isSome = true := by
  decide

theorem jump_found :
    ∀ j ∈ JUMP_MNEUMONICS, (lookupBinary JUMP_MNEUMONICS JUMP_BINARY j).isSome = true := by
  decide

theorem computation_binary_shape :
    ∀ b ∈ COMPUTATION_BINARY, b.length = 7 ∧ ∀ c ∈ b.toList, c = '0' ∨ c = '1' := by
  decide

theorem destination_binary_shape :
    ∀ b ∈ DESTINATION_BINARY, b.length = 3 ∧ ∀ c ∈ b.toList, c = '0' ∨ c = '1' := by
  decide

theorem jump_binary_shape :
    ∀ b ∈ JUMP_BINARY, b.length = 3 ∧ ∀ c ∈ b.toList, c = '0' ∨ c = '1' := by
  decide

/-- A successful destination or jump field lookup yields three binary digits. -/
theorem fieldCode_shape (ms bs : List String) (field : Option String) (b : String)
    (hbs : ∀ b ∈ bs, b.length = 3 ∧ ∀ c ∈ b.toList, c = '0' ∨ c = '1')
    (h : fieldCode ms bs field = some b) :
    b.length = 3 ∧ IsBinary b.toList := by
  cases field with
  | none =>
    simp only [fieldCode, Option.some.injEq] at h
    subst h
    exact ⟨by decide, by unfold IsBinary; decide⟩
  | some m => exact hbs b (lookupBinary_mem ms bs m b h)

/-! ## C1: the compute encoder -/

/-- C1. For every computation mnemonic `c` of the table and all destination and
jump fields that are absent or in their tables, not both absent,
`generateCInstruction` succeeds and leaves in `binary_out` the 16-character
string `111`, the code of `c`, the code of the destination and the code of the
jump, an absent field contributing `000`. -/
theorem generateCInstruction_encodes (c : String) (d j : Option String) (buf : Buffer)
    (hc : c ∈ COMPUTATION_MNEUMONICS)
    (hd : ∀ m, d = some m → m ∈ DESTINATION_MNEUMONICS)
    (hj : ∀ m, j = some m → m ∈ JUMP_MNEUMONICS)
    (hp : d.isSome ∨ j.isSome) (hbuf : 17 ≤ buf.length) :
    ∃ cb db jb out,
      lookupBinary COMPUTATION_MNEUMONICS COMPUTATION_BINARY c = some cb ∧
      fieldCode DESTINATION_MNEUMONICS DESTINATION_BINARY d = some db ∧
      fieldCode JUMP_MNEUMONICS JUMP_BINARY j = some jb ∧
      generateCInstruction d (some c) j buf = some out ∧
      cstrAt out 0 = "111" ++ cb ++ db ++ jb ∧
      (cstrAt out 0).length = 16 ∧ IsBinary (cstrAt out 0).toList := by
  obtain ⟨cb, hcb⟩ := Option.isSome_iff_exists.mp (computation_found c hc)
  have hdb : ∃ db, fieldCode DESTINATION_MNEUMONICS DESTINATION_BINARY d = some db := by
    cases d with
    | none => exact ⟨"000", rfl⟩
    | some m => exact Option.isSome_iff_exists.mp (destination_found m (hd m rfl))
  have hjb : ∃ jb, fieldCode JUMP_MNEUMONICS JUMP_BINARY j = some jb := by
    cases j with
    | none => exact ⟨"000", rfl⟩
    | some m => exact Option.isSome_iff_exists.mp (jump_found m (hj m rfl))
  obtain ⟨db, hdb⟩ := hdb
  obtain ⟨jb, hjb⟩ := hjb
  have hcs := computation_binary_shape cb (lookupBinary_mem _ _ _ _ hcb)
  have hds := fieldCode_shape _ _ d db destination_binary_shape hdb
  have hjs := fieldCode_shape _ _ j jb jump_binary_shape hjb
  have hbin : IsBinary ("111" ++ cb ++ db ++ jb).toList := by
    have h1 : IsBinary "111".toList := by unfold IsBinary; decide
    simp only [String.toList, String.data_append]
    exact isBinary_append (isBinary_append (isBinary_append h1 hcs.2) hds.2) hjs.2
  have hout : generateCInstruction d (some c) j buf
      = some (("111" ++ cb ++ db ++ jb).toList ++ NUL :: buf.drop 17) := by
    rw [← cinstruction_layout buf hbuf cb db jb hcs.1 hds.1 hjs.1]
    have hp1 : (d.isSome = true ∨ j.isSome = true) := hp
    cases d <;> cases j <;>
      simp_all [generateCInstruction, comp, dest, jump, fieldCode, DEST_NULL, JUMP_NULL]
  have hstr : cstrAt (("111" ++ cb ++ db ++ jb).toList ++ NUL :: buf.drop 17) 0
      = "111" ++ cb ++ db ++ jb := cstrAt_append_nul _ _ (isBinary_ne_nul hbin)
  refine ⟨cb, db, jb, _, hcb, hdb, hjb, hout, hstr, ?_, ?_⟩
  · have h3 : "111".length = 3 := by decide
    rw [hstr]
    simp [String.length_append, hcs.1, hds.1, hjs.1, h3]
  · rw [hstr]
    exact hbin

/-- Witness for C1 at `D=A`, with the two instances named in the claim evaluated. -/
theorem generateCInstruction_encodes_witness :
    ("A" ∈ COMPUTATION_MNEUMONICS ∧ "D" ∈ DESTINATION_MNEUMONICS) ∧
    (∃ cb db jb out,
      lookupBinary COMPUTATION_MNEUMONICS COMPUTATION_BINARY "A" = some cb ∧
      fieldCode DESTINATION_MNEUMONICS DESTINATION_BINARY (some "D") = some db ∧
      fieldCode JUMP_MNEUMONICS JUMP_BINARY none = some jb ∧
      generateCInstruction (some "D") (some "A") none binary_instruction_init = some out ∧
      cstrAt out 0 = "111" ++ cb ++ db ++ jb ∧
      (cstrAt out 0).length = 16 ∧ IsBinary (cstrAt out 0).toList) ∧
    (generateCInstruction (some "D") (some "A") none binary_instruction_init).map
      (fun out => cstrAt out 0) = some "1110110000010000" ∧
    (generateCInstruction none (some "0") (some "JMP") binary_instruction_init).map
      (fun out => cstrAt out 0) = some "1110101010000111" :=
  ⟨⟨by decide, by decide⟩,
   generateCInstruction_encodes "A" (some "D") none binary_instruction_init (by decide)
     (fun m h => by cases h; decide) (fun m h => by cases h) (Or.inl rfl) (by decide),
   by decide, by decide⟩

/-! ## C2: the address encoder -/

theorem isspace_of_isdigit {c : Char} (h : isdigit c = true) : isspace c = false := by
  simp only [isdigit, isspace, Bool.and_eq_true, decide_eq_true_eq, Bool.or_eq_false_iff,
    decide_eq_false_iff_not, Bool.and_eq_false_imp] at *
  omega

theorem toInt32_of_small (v : Nat) (h : v ≤ 2147483647) :
    toInt32 (min (v : Int) LONG_MAX) = v := by
  unfold toInt32 LONG_MAX
  omega

theorem strtolSign_of_digits (l : List Char) (hs : ∀ c ∈ l, isdigit c = true) :
    strtolSign l = (false, l) := by
  unfold strtolSign
  revert hs
  split
  · intro hs
    exact absurd (hs '-' (List.mem_cons_self _ _)) (by decide)
  · intro hs
    exact absurd (hs '+' (List.mem_cons_self _ _)) (by decide)
  · intro _
    rfl

/-- On a string of digits whose value fits an `int`, `atoi` returns the value. -/
theorem atoi_of_digits (s : String) (hs : ∀ c ∈ s.toList, isdigit c = true)
    (hv : digitsValue s.toList ≤ 2147483647) : atoi s = digitsValue s.toList := by
  obtain ⟨l⟩ := s
  simp only [String.toList] at hs hv ⊢
  have hdrop : l.dropWhile isspace = l := by
    cases l with
    | nil => rfl
    | cons a t => simp [List.dropWhile, isspace_of_isdigit (hs a (List.mem_cons_self a t))]
  have htake : l.takeWhile isdigit = l := List.takeWhile_eq_self_iff.mpr hs
  unfold atoi
  simp only [String.toList, hdrop, strtolSign_of_digits l hs, htake, Bool.false_eq_true, if_false]
  exact toInt32_of_small _ hv

theorem isNum_of_digits (s : String) (hs : ∀ c ∈ s.toList, isdigit c = true) : isNum s = 1 := by
  unfold isNum
  rw [if_pos (List.all_eq_true.mpr hs)]

theorem range_fifteen_reverse :
    (List.range 15).reverse = [14, 13, 12, 11, 10, 9, 8, 7, 6, 5, 4, 3, 2, 1, 0] := by
  decide

theorem binary_digit_eq (n i : Nat) :
    binary_digit n i = if n / 2 ^ i % 2 = 1 then '1' else '0' := by
  unfold binary_digit
  rw [Nat.shiftRight_eq_div_pow, Nat.and_one_is_mod]
  rcases Nat.mod_two_eq_zero_or_one (n / 2 ^ i) with h | h <;> simp [h]

theorem binary_digit_isBinary (n i : Nat) : binary_digit n i = '0' ∨ binary_digit n i = '1' := by
  rw [binary_digit_eq]
  split
  · exact Or.inr rfl
  · exact Or.inl rfl

theorem binary_digit_value (n i : Nat) :
    (if binary_digit n i = '1' then 1 else 0) = n / 2 ^ i % 2 := by
  rw [binary_digit_eq]
  rcases Nat.mod_two_eq_zero_or_one (n / 2 ^ i) with h | h <;> simp [h]

theorem binaryValue_foldl (l : List Char) (a : Nat) :
    l.foldl (fun acc c => 2 * acc + (if c = '1' then 1 else 0)) a
      = a * 2 ^ l.length + binaryValue l := by
  induction l generalizing a with
  | nil => simp [binaryValue]
  | cons c t ih =>
    simp only [binaryValue, List.foldl_cons, List.length_cons]
    rw [ih, ih (2 * 0 + _)]
    ring

theorem binaryValue_cons (c : Char) (l : List Char) :
    binaryValue (c :: l) = (if c = '1' then 1 else 0) * 2 ^ l.length + binaryValue l := by
  show List.foldl _ (2 * 0 + _) l = _
  rw [binaryValue_foldl]
  simp

/-- Reading back the digits that the loop of `numToBinary` stores. -/
theorem binaryValue_map_digits (n k : Nat) :
    binaryValue ((List.range k).reverse.map (binary_digit n)) = n % 2 ^ k := by
  induction k with
  | zero => simp [binaryValue, Nat.mod_one]
  | succ k ih =>
    rw [List.range_succ, List.reverse_append, List.reverse_singleton, List.singleton_append,
      List.map_cons, binaryValue_cons, ih, binary_digit_value, List.length_map,
      List.length_reverse, List.length_range, Nat.mod_pow_succ]
    ring

/-- The stores of `numToBinary` and `generateAInstruction` into a buffer of at
least 17 bytes. -/
theorem ainstruction_layout (n : Nat) (buf : Buffer) (h : 17 ≤ buf.length) :
    ((((List.range 15).reverse.foldl
        (fun (b : Buffer) binary_index =>
          b.set (1 + (14 - binary_index)) (binary_digit n binary_index)) buf).set (1 + 15)
            NUL).set 0 '0').set 16 NUL
      = '0' :: (List.range 15).reverse.map (binary_digit n) ++ NUL :: buf.drop 17 := by
  obtain ⟨b0, b1, b2, b3, b4, b5, b6, b7, b8, b9, b10, b11, b12, b13, b14, b15, b16, rest, hb⟩ :=
    exists_seventeen buf h
  subst hb
  rw [range_fifteen_reverse]
  simp

/-- The encoder on a numeric string whose value, reduced to `uint16_t`, is at
most 32767. -/
theorem generateAInstruction_of_value (s : String) (n : Nat) (buf : Buffer)
    (hnum : isNum s = 1) (hval : (atoi s % 65536).toNat = n) (hn : n ≤ 32767)
    (hbuf : 17 ≤ buf.length) :
    generateAInstruction s buf
      = some ('0' :: (List.range 15).reverse.map (binary_digit n) ++ NUL :: buf.drop 17) := by
  have hle : ¬ n > 32767 := by omega
  simp only [generateAInstruction, numToBinary, hnum, hval, if_true, hle, if_false,
    Option.bind_eq_bind, Option.some_bind, Option.pure_def, ainstruction_layout n buf hbuf]

theorem digits_isBinary (n k : Nat) : IsBinary ((List.range k).reverse.map (binary_digit n)) := by
  intro c hc
  obtain ⟨i, _, rfl⟩ := List.mem_map.mp hc
  exact binary_digit_isBinary n i

/-- C2. For every string of decimal digits whose value `n` is at most 32767,
leading zeros allowed, `generateAInstruction` succeeds and leaves in
`binary_out` a string of 16 characters: `0` followed by the 15 binary digits
of `n`, most significant first. -/
theorem generateAInstruction_encodes (s : String) (buf : Buffer)
    (hs : ∀ c ∈ s.toList, isdigit c = true) (hv : digitsValue s.toList ≤ 32767)
    (hbuf : 17 ≤ buf.length) :
    ∃ bits out,
      generateAInstruction s buf = some out ∧
      cstrAt out 0 = String.mk ('0' :: bits) ∧
      (cstrAt out 0).length = 16 ∧
      bits.length = 15 ∧ IsBinary bits ∧ binaryValue bits = digitsValue s.toList := by
  have hat := atoi_of_digits s hs (by omega)
  have hval : (atoi s % 65536).toNat = digitsValue s.toList := by
    rw [hat]
    omega
  have hbits := digits_isBinary (digitsValue s.toList) 15
  have hlen : ((List.range 15).reverse.map (binary_digit (digitsValue s.toList))).length = 15 := by
    simp
  have hall : IsBinary ('0' :: (List.range 15).reverse.map (binary_digit (digitsValue s.toList))) := by
    intro c hc
    rcases List.mem_cons.mp hc with h | h
    · exact Or.inl h
    · exact hbits c h
  have hstr := cstrAt_append_nul _ (buf.drop 17) (isBinary_ne_nul hall)
  refine ⟨_, _, generateAInstruction_of_value s _ buf (isNum_of_digits s hs) hval hv hbuf,
    hstr, ?_, hlen, hbits, ?_⟩
  · rw [hstr]
    simp only [String.length, List.length_cons, hlen]
  · rw [binaryValue_map_digits]
    exact Nat.mod_eq_of_lt (by omega)

/-- Witness for C2 at the string `00005`. -/
theorem generateAInstruction_encodes_witness :
    (∀ c ∈ "00005".toList, isdigit c = true) ∧ digitsValue "00005".toList ≤ 32767 ∧
    (∃ bits out,
      generateAInstruction "00005" binary_instruction_init = some out ∧
      cstrAt out 0 = String.mk ('0' :: bits) ∧
      (cstrAt out 0).length = 16 ∧
      bits.length = 15 ∧ IsBinary bits ∧ binaryValue bits = digitsValue "00005".toList) ∧
    (generateAInstruction "00005" binary_instruction_init).map (fun out => cstrAt out 0)
      = some "0000000000000101" :=
  ⟨by decide, by decide,
   generateAInstruction_encodes "00005" binary_instruction_init (by decide) (by decide)
     (by decide),
   by decide⟩

/-! ## C3: values above 32767 -/

/-- C3 (the code at the failing input). `numToBinary` converts the value to
`uint16_t` before the range check: `32768` is rejected, but `65536` is reduced
to `0` and encoded. -/
theorem generateAInstruction_accepts_65536 :
    generateAInstruction "32768" binary_instruction_init = none ∧
    (generateAInstruction "65536" binary_instruction_init).map (fun out => cstrAt out 0)
      = some "0000000000000000" := by
  decide

/-! ## The value that `main` reads after pass 2 -/

/-- The function `main` depends on the value it reads for the missing `return`
of `generateCode` only through the test `< 0`. -/
theorem main_sign (indeterminate : Int) (test_asm : List String) :
    main indeterminate test_asm = main (if indeterminate < 0 then -1 else 0) test_asm := by
  have key : ∀ o : Option Int,
      (o.getD indeterminate < 0) = (o.getD (if indeterminate < 0 then -1 else 0) < 0) := by
    intro o
    cases o with
    | none =>
      by_cases hv : indeterminate < 0
      · simp [hv]
      · simp [hv]
    | some c => rfl
  unfold main
  simp only [key]

/-! ## C4, C6, C7, C10: numeric targets and the first predefined symbol -/

/-- C4 (the code at the failing input). Pass 2 tests `isMneumonic`, not
`isNum`: the target `5` is entered into the symbol table as a variable and the
line `@5` is emitted with the address 16, whatever value `main` reads behind
the loop of `generateCode`. -/
theorem main_numeric_target :
    (∀ indeterminate : Int, main indeterminate ["@5\n"]
      = some (Res.ret (if indeterminate < 0 then -1 else 0) ["0000000000010000\n"])) ∧
    (SymbolTable_create 128).bind (fun st =>
      (generateCommand ⟨st, 16, []⟩ ⟨some "5", none, none, none, Command.A_COMMAND⟩).map
        (fun s => (s.symbol_table.values.drop 23, s.next_variable_address)))
      = some ([⟨"5", 16⟩], 17) := by
  refine ⟨fun v => ?_, by decide⟩
  rw [main_sign]
  split_ifs
  · decide
  · decide

/-- C6 (the code at the failing input). A numeric target takes a variable
address: after `@5` the first symbol `foo` is given the address 17.  Without
numeric targets `@foo / @bar / @foo` is emitted as 16, 17, 16. -/
theorem main_variable_after_numeric :
    (∀ indeterminate : Int, main indeterminate ["@5\n", "@foo\n"]
      = some (Res.ret (if indeterminate < 0 then -1 else 0)
          ["0000000000010000\n", "0000000000010001\n"])) ∧
    (∀ indeterminate : Int, main indeterminate ["@foo\n", "@bar\n", "@foo\n"]
      = some (Res.ret (if indeterminate < 0 then -1 else 0)
          ["0000000000010000\n", "0000000000010001\n", "0000000000010000\n"])) := by
  refine ⟨fun v => ?_, fun v => ?_⟩
  · rw [main_sign]
    split_ifs
    · set_option maxRecDepth 4096 in decide
    · set_option maxRecDepth 4096 in decide
  · rw [main_sign]
    split_ifs
    · set_option maxRecDepth 4096 in decide
    · set_option maxRecDepth 4096 in decide

/-- C7 (the code at the failing input). `SP` is stored at index 0, which
`SymbolTable_contains` and `SymbolTable_addEntry` do not accept as a found
index: `@SP` aborts pass 2 with the `return -1` of the iteration, while the
records of `@SCREEN` and `@R3` are written. -/
theorem main_predefined_SP :
    (∀ indeterminate : Int, main indeterminate ["@SP\n"] = some (Res.ret (-1) [])) ∧
    (generateCommand ⟨⟨151, predefinedEntries⟩, 16, []⟩
      ⟨some "SP", none, none, none, Command.A_COMMAND⟩ = none) ∧
    (∀ indeterminate : Int, main indeterminate ["@SCREEN\n"]
      = some (Res.ret (if indeterminate < 0 then -1 else 0) ["0100000000000000\n"])) ∧
    (∀ indeterminate : Int, main indeterminate ["@R3\n"]
      = some (Res.ret (if indeterminate < 0 then -1 else 0) ["0000000000000011\n"])) := by
  refine ⟨fun v => ?_, by decide, fun v => ?_, fun v => ?_⟩
  · rw [main_sign]
    split_ifs
    · set_option maxRecDepth 4096 in decide
    · set_option maxRecDepth 4096 in decide
  · rw [main_sign]
    split_ifs
    · set_option maxRecDepth 4096 in decide
    · set_option maxRecDepth 4096 in decide
  · rw [main_sign]
    split_ifs
    · set_option maxRecDepth 4096 in decide
    · set_option maxRecDepth 4096 in decide

/-- C10 (the code at the failing input). The targets `2` and `3` are allocated
as variables at 16 and 17; only `0`, which is a computation mnemonic, is
encoded as a number.  The six records are written whatever value `main` reads
behind the loop of `generateCode`. -/
theorem main_end_to_end :
    ∀ indeterminate : Int,
      main indeterminate ["@2\n", "D=A\n", "@3\n", "D=D+A\n", "@0\n", "M=D\n"]
        = some (Res.ret (if indeterminate < 0 then -1 else 0)
            ["0000000000010000\n", "1110110000010000\n", "0000000000010001\n",
             "1110000010010000\n", "0000000000000000\n", "1110001100001000\n"]) := by
  intro v
  rw [main_sign]
  split_ifs
  · set_option maxRecDepth 4096 in decide
  · set_option maxRecDepth 4096 in decide

/-! ## The symbol table -/

theorem getValueIndexFrom_not_mem (sym : String) :
    ∀ (xs : List StructTuple) (i : Nat), (∀ t ∈ xs, t.symbol ≠ sym) →
      getValueIndexFrom sym xs i = -1
  | [], _, _ => rfl
  | t :: ts, i, h => by
    have ht : t.symbol ≠ sym := h t (List.mem_cons_self t ts)
    have hts : ∀ u ∈ ts, u.symbol ≠ sym := fun u hu => h u (List.mem_cons_of_mem t hu)
    simp only [getValueIndexFrom, if_neg ht]
    exact getValueIndexFrom_not_mem sym ts (i + 1) hts

theorem getValueIndexFrom_split (sym : String) (a : Int) (back : List StructTuple) :
    ∀ (front : List StructTuple) (i : Nat), (∀ t ∈ front, t.symbol ≠ sym) →
      getValueIndexFrom sym (front ++ ⟨sym, a⟩ :: back) i = ((i + front.length : Nat) : Int)
  | [], i, _ => by simp [getValueIndexFrom]
  | t :: ts, i, h => by
    have ht : t.symbol ≠ sym := h t (List.mem_cons_self t ts)
    have hts : ∀ u ∈ ts, u.symbol ≠ sym := fun u hu => h u (List.mem_cons_of_mem t hu)
    rw [List.cons_append]
    unfold getValueIndexFrom
    rw [if_neg ht, getValueIndexFrom_split sym a back ts (i + 1) hts]
    simp only [List.length_cons]
    congr 1
    omega

theorem getValueIndexFrom_neg (sym : String) :
    ∀ (xs : List StructTuple) (i : Nat), getValueIndexFrom sym xs i = -1 →
      ∀ t ∈ xs, t.symbol ≠ sym
  | [], _, _ => fun _ ht => by simp at ht
  | t :: ts, i, h => by
    by_cases ht : t.symbol = sym
    · simp only [getValueIndexFrom, if_pos ht] at h
      omega
    · simp only [getValueIndexFrom, if_neg ht] at h
      intro u hu
      rcases List.mem_cons.mp hu with rfl | hu
      · exact ht
      · exact getValueIndexFrom_neg sym ts (i + 1) h u hu

theorem getD_append_cons (x d : StructTuple) (back : List StructTuple) :
    ∀ front : List StructTuple, (front ++ x :: back).getD front.length d = x
  | [] => rfl
  | t :: ts => by
    rw [List.cons_append, List.length_cons, List.getD_cons_succ]
    exact getD_append_cons x d back ts

theorem getValueIndexFrom_found (sym : String) :
    ∀ (xs : List StructTuple) (i : Nat), getValueIndexFrom sym xs i ≠ -1 →
      ∃ front a back, xs = front ++ ⟨sym, a⟩ :: back ∧ (∀ t ∈ front, t.symbol ≠ sym)
  | [], _, h => absurd rfl h
  | t :: ts, i, h => by
    by_cases ht : t.symbol = sym
    · exact ⟨[], t.address, ts, by cases t; simp_all, by simp⟩
    · simp only [getValueIndexFrom, if_neg ht] at h
      obtain ⟨front, a, back, hxs, hfront⟩ := getValueIndexFrom_found sym ts (i + 1) h
      refine ⟨t :: front, a, back, by simp [hxs], ?_⟩
      intro u hu
      rcases List.mem_cons.mp hu with rfl | hu
      · exact ht
      · exact hfront u hu

theorem getValueIndex_of_bound {st : SymbolTable} {name : String} {a : Int}
    (h : Bound st name a) :
    ∃ front back, st.values = front ++ ⟨name, a⟩ :: back ∧ 0 < front.length ∧
      SymbolTable_getValueIndex st name = (front.length : Int) := by
  obtain ⟨front, back, hv, hne, hfront⟩ := h
  refine ⟨front, back, hv, List.length_pos.mpr hne, ?_⟩
  unfold SymbolTable_getValueIndex
  rw [hv, getValueIndexFrom_split name a back front 0 hfront]
  simp

theorem bound_contains {st : SymbolTable} {name : String} {a : Int} (h : Bound st name a) :
    SymbolTable_contains st name = 1 := by
  obtain ⟨front, back, _, hpos, hidx⟩ := getValueIndex_of_bound h
  unfold SymbolTable_contains
  simp only [hidx]
  rw [if_pos (by omega)]

theorem bound_getAddress {st : SymbolTable} {name : String} {a : Int} (h : Bound st name a) :
    SymbolTable_getAddress st name = a := by
  obtain ⟨front, back, hv, hpos, hidx⟩ := getValueIndex_of_bound h
  unfold SymbolTable_getAddress SymbolTable.size
  simp only [hidx]
  have hlen : st.values.length = front.length + 1 + back.length := by
    rw [hv]; simp; omega
  rw [if_pos (by omega), if_pos ⟨by omega, by omega⟩, hv, Int.toNat_ofNat, getD_append_cons]

theorem bound_mono {st st' : SymbolTable} {name : String} {a : Int} (h : Bound st name a)
    (ext : List StructTuple) (hext : st'.values = st.values ++ ext) : Bound st' name a := by
  obtain ⟨front, back, hv, hne, hfront⟩ := h
  exact ⟨front, back ++ ext, by rw [hext, hv]; simp, hne, hfront⟩

/-- When `SymbolTable_contains` returns `1`, the name is bound to the address
that `SymbolTable_getAddress` returns. -/
theorem bound_of_contains {st : SymbolTable} {name : String}
    (h : SymbolTable_contains st name = 1) :
    Bound st name (SymbolTable_getAddress st name) := by
  unfold SymbolTable_contains at h
  by_cases hidx : SymbolTable_getValueIndex st name > 0
  · have hne : getValueIndexFrom name st.values 0 ≠ -1 := by
      unfold SymbolTable_getValueIndex at hidx
      omega
    obtain ⟨front, a, back, hv, hfront⟩ := getValueIndexFrom_found name st.values 0 hne
    have hfr : front ≠ [] := by
      rintro rfl
      unfold SymbolTable_getValueIndex at hidx
      rw [hv] at hidx
      simp [getValueIndexFrom] at hidx
    have hb : Bound st name a := ⟨front, back, hv, hfr, hfront⟩
    rw [bound_getAddress hb]
    exact hb
  · simp only [hidx, if_false] at h
    split at h <;> simp at h

/-- When `SymbolTable_contains` returns `0`, no entry has the name. -/
theorem not_mem_of_contains_zero {st : SymbolTable} {name : String}
    (h : SymbolTable_contains st name = 0) :
    SymbolTable_getValueIndex st name = -1 ∧ ∀ t ∈ st.values, t.symbol ≠ name := by
  unfold SymbolTable_contains at h
  have hidx : SymbolTable_getValueIndex st name = -1 := by
    by_cases h1 : SymbolTable_getValueIndex st name > 0
    · simp [h1] at h
    · by_cases h2 : SymbolTable_getValueIndex st name = -1
      · exact h2
      · simp [h1, h2] at h
  exact ⟨hidx, getValueIndexFrom_neg name st.values 0 hidx⟩

theorem SymbolTable_addEntry_new (st : SymbolTable) (name : String) (a : Int)
    (hidx : SymbolTable_getValueIndex st name = -1) (ha : a < 32766) :
    ∃ capacity, SymbolTable_addEntry st name a = (0, ⟨capacity, st.values ++ [⟨name, a⟩]⟩) := by
  unfold SymbolTable_addEntry SymbolTable_resize
  simp only [ha, hidx, if_true]
  by_cases hc : st.capacity = st.size
  · have hlt : st.size < st.size + 10 := by omega
    simp only [hc, if_true, hlt]
    exact ⟨st.size + 10, by simp⟩
  · simp only [hc, if_false]
    exact ⟨st.capacity, by simp⟩

theorem SymbolTable_addEntry_range (st : SymbolTable) (name : String) (a : Int)
    (h : (SymbolTable_addEntry st name a).1 = 0) : a < 32766 := by
  by_contra ha
  unfold SymbolTable_addEntry at h
  simp [ha] at h

theorem bound_new (st st' : SymbolTable) (name : String) (a : Int) (hne : st.values ≠ [])
    (hnot : ∀ t ∈ st.values, t.symbol ≠ name) (hv : st'.values = st.values ++ [⟨name, a⟩]) :
    Bound st' name a :=
  ⟨st.values, [], hv, hne, hnot⟩

/-! ## Decimal output and the address records -/

theorem digitChar_isdigit : ∀ k < 10, isdigit (Nat.digitChar k) = true := by decide

theorem digitChar_value : ∀ k < 10, (Nat.digitChar k).toNat - 48 = k := by decide

/-- The digits that `Nat.toDigitsCore` puts in front of `ds` are decimal digits
and denote `n`. -/
theorem toDigitsCore_spec :
    ∀ (fuel n : Nat) (ds : List Char), n < fuel → (∀ c ∈ ds, isdigit c = true) →
      (∀ c ∈ Nat.toDigitsCore 10 fuel n ds, isdigit c = true) ∧
      (Nat.toDigitsCore 10 fuel n ds).foldl (fun acc c => 10 * acc + (c.toNat - 48)) 0
        = ds.foldl (fun acc c => 10 * acc + (c.toNat - 48)) n
  | 0, _, _, h, _ => by omega
  | fuel + 1, n, ds, h, hds => by
    have hd := digitChar_isdigit (n % 10) (Nat.mod_lt n (by decide))
    have hval := digitChar_value (n % 10) (Nat.mod_lt n (by decide))
    have hds' : ∀ c ∈ Nat.digitChar (n % 10) :: ds, isdigit c = true := by
      intro c hc
      rcases List.mem_cons.mp hc with rfl | hc
      · exact hd
      · exact hds c hc
    unfold Nat.toDigitsCore
    by_cases hz : n / 10 = 0
    · simp only [hz, if_true]
      refine ⟨hds', ?_⟩
      simp only [List.foldl_cons, hval]
      congr 1
      omega
    · simp only [hz, if_false]
      obtain ⟨h1, h2⟩ := toDigitsCore_spec fuel (n / 10) (Nat.digitChar (n % 10) :: ds)
        (by omega) hds'
      refine ⟨h1, ?_⟩
      rw [h2]
      simp only [List.foldl_cons, hval]
      congr 1
      omega

/-- The string that `sprintf` prints for a natural number is numeric and `atoi`
reads the number back from it. -/
theorem sprintf_ld_spec (n : Nat) :
    (∀ c ∈ (sprintf_ld n).toList, isdigit c = true) ∧ digitsValue (sprintf_ld n).toList = n := by
  have h := toDigitsCore_spec (n + 1) n [] (by omega) (by simp)
  have hn : ¬ ((n : Int) < 0) := by omega
  simp only [sprintf_ld, hn, if_false, String.toList, Int.toNat_ofNat, digitsValue, Nat.toDigits]
  exact ⟨h.1, by simpa using h.2⟩

/-- Encoding an address that `sprintf` has printed. -/
theorem generateAInstruction_sprintf (n : Nat) (hn : n ≤ 32767) (buf : Buffer)
    (hbuf : 17 ≤ buf.length) :
    generateAInstruction (sprintf_ld n) buf
      = some ('0' :: (List.range 15).reverse.map (binary_digit n) ++ NUL :: buf.drop 17) := by
  obtain ⟨hdig, hval⟩ := sprintf_ld_spec n
  have hat := atoi_of_digits (sprintf_ld n) hdig (by omega)
  refine generateAInstruction_of_value _ n buf (isNum_of_digits _ hdig) ?_ hn hbuf
  rw [hat, hval]
  omega

/-- The shape of what `parseCommandFields` returns: the return value is `0` or
`-1`, the type is the classification of the line, and an accepted command
carries the fields of its type only. -/
theorem parseCommandFields_ret (command : String) (code : Int) (cur : ParsedCommand)
    (h : parseCommandFields command = Res.ret code cur) :
    cur.type = findCommandType command ∧ (code = 0 ∨ code = -1) ∧
    (code = 0 →
      (cur.type = L_COMMAND ∧ ∃ symbol, cur = ⟨some symbol, none, none, none, L_COMMAND⟩) ∨
      (cur.type = A_COMMAND ∧ ∃ symbol, cur = ⟨some symbol, none, none, none, A_COMMAND⟩) ∨
      (cur.type = C_COMMAND ∧ ∃ computation,
        (∃ destination, cur = ⟨none, some destination, some computation, none, C_COMMAND⟩) ∨
        (∃ jmp, cur = ⟨none, none, some computation, some jmp, C_COMMAND⟩))) := by
  unfold parseCommandFields at h
  generalize findCommandType command = ty at h ⊢
  cases ty with
  | A_COMMAND =>
    simp only [ParsedCommand_free] at h
    split at h
    · cases h; simp
    · cases h; simp
  | C_COMMAND =>
    simp only [ParsedCommand_free] at h
    split at h
    · cases h; simp
    · cases h; simp
    · cases h; simp
    · cases h; simp
  | L_COMMAND =>
    simp only [ParsedCommand_free] at h
    split at h
    · cases h
    · cases h; simp
  | NONE_COMMAND =>
    simp only [ParsedCommand_free] at h
    cases h; simp

/-! ## Pass 1 -/

theorem advanceLoop_eq (cur : ParsedCommand) (eof : Bool) :
    ∀ lines : List String,
      advanceLoop cur eof lines =
        match lines.dropWhile isBlank with
        | [] => Res.ret 1 ⟨⟨[], true⟩, cur⟩
        | l :: rest => Parser_parseCommand ⟨⟨rest, eof⟩, cur⟩ (strtrim l)
  | [] => rfl
  | l :: rest => by
    by_cases hl : (strtrim l).toList.head? = none
    · have hb : isBlank l = true := decide_eq_true hl
      simp only [advanceLoop, hl, if_true, List.dropWhile_cons, hb]
      exact advanceLoop_eq cur eof rest
    · have hb : isBlank l = false := decide_eq_false hl
      simp only [advanceLoop, hl, if_false, List.dropWhile_cons, hb]
      simp

theorem not_instruction_of_blank {l : String} (h : isBlank l = true) :
    isInstructionLine l = false ∧ isLabelLine l = false := by
  simp [isInstructionLine, isLabelLine, lineKind, h]

theorem lineKind_of_not_blank {l : String} (h : isBlank l = false) :
    lineKind l = some (findCommandType (strtrim l)) := by
  simp [lineKind, h]

theorem instructionCommands_dropBlank :
    ∀ lines : List String,
      instructionCommands (lines.dropWhile isBlank) = instructionCommands lines
  | [] => rfl
  | l :: rest => by
    by_cases hb : isBlank l = true
    · have h := (not_instruction_of_blank hb).1
      simp only [List.dropWhile_cons, hb, if_true]
      rw [instructionCommands_dropBlank rest]
      simp [instructionCommands, List.filter_cons, h]
    · simp [List.dropWhile_cons, hb]

theorem instructionCount_dropBlank :
    ∀ lines : List String,
      instructionCount (lines.dropWhile isBlank) = instructionCount lines
  | [] => rfl
  | l :: rest => by
    by_cases hb : isBlank l = true
    · have h := (not_instruction_of_blank hb).1
      simp only [List.dropWhile_cons, hb, if_true]
      rw [instructionCount_dropBlank rest]
      simp [instructionCount, List.filter_cons, h]
    · simp [List.dropWhile_cons, hb]

theorem labelCounts_dropBlank (k : Nat) :
    ∀ lines : List String, labelCounts k (lines.dropWhile isBlank) = labelCounts k lines
  | [] => rfl
  | l :: rest => by
    by_cases hb : isBlank l = true
    · have h := not_instruction_of_blank hb
      simp only [List.dropWhile_cons, hb, if_true]
      rw [labelCounts_dropBlank k rest]
      simp [labelCounts, h.1, h.2]
    · simp [List.dropWhile_cons, hb]

theorem head_dropWhile_not_blank {lines rest : List String} {l : String}
    (h : lines.dropWhile isBlank = l :: rest) : isBlank l = false := by
  have := List.head_dropWhile_not isBlank lines (by rw [h]; simp)
  simpa [h] using this

theorem lineFields_of_parse {l : String} {cur : ParsedCommand}
    (hp : parseCommandFields (strtrim l) = Res.ret 0 cur) : lineFields l = some cur := by
  simp [lineFields, hp]

theorem spec_label_line (l : String) (rest : List String) (k : Nat) (cur : ParsedCommand)
    (hb : isBlank l = false) (hp : parseCommandFields (strtrim l) = Res.ret 0 cur)
    (hty : cur.type = L_COMMAND) :
    instructionCommands (l :: rest) = instructionCommands rest ∧
    instructionCount (l :: rest) = instructionCount rest ∧
    labelCounts k (l :: rest) = (l, k) :: labelCounts k rest ∧
    labelName l = cur.symbol := by
  have hk : lineKind l = some L_COMMAND := by
    rw [lineKind_of_not_blank hb, ← (parseCommandFields_ret _ _ _ hp).1, hty]
  have hi : isInstructionLine l = false := by simp [isInstructionLine, hk]
  have hl : isLabelLine l = true := by simp [isLabelLine, hk]
  refine ⟨?_, ?_, ?_, ?_⟩
  · simp [instructionCommands, List.filter_cons, hi]
  · simp [instructionCount, List.filter_cons, hi]
  · simp [labelCounts, hi, hl]
  · simp [labelName, lineFields_of_parse hp]

theorem spec_instruction_line (l : String) (rest : List String) (k : Nat) (cur : ParsedCommand)
    (hb : isBlank l = false) (hp : parseCommandFields (strtrim l) = Res.ret 0 cur)
    (hty : cur.type = A_COMMAND ∨ cur.type = C_COMMAND) :
    instructionCommands (l :: rest) = cur :: instructionCommands rest ∧
    instructionCount (l :: rest) = instructionCount rest + 1 ∧
    labelCounts k (l :: rest) = labelCounts (k + 1) rest := by
  have hk : lineKind l = some cur.type := by
    rw [lineKind_of_not_blank hb, ← (parseCommandFields_ret _ _ _ hp).1]
  have hi : isInstructionLine l = true := by
    rcases hty with h | h <;> simp [isInstructionLine, hk, h]
  refine ⟨?_, ?_, ?_⟩
  · simp [instructionCommands, List.filter_cons, hi, lineFields_of_parse hp]
  · simp [instructionCount, List.filter_cons, hi]
  · simp [labelCounts, hi]

theorem copyCommand_instruction (command_array : CommandArray) (file : FILE)
    (cur : ParsedCommand)
    (h : (∃ symbol, cur = ⟨some symbol, none, none, none, A_COMMAND⟩) ∨
      (∃ computation destination,
        cur = ⟨none, some destination, some computation, none, C_COMMAND⟩) ∨
      (∃ computation jmp, cur = ⟨none, none, some computation, some jmp, C_COMMAND⟩)) :
    ∃ capacity, CommandArray_copyCommand command_array ⟨file, cur⟩
      = Res.ret 0 ⟨capacity, command_array.commands ++ [cur]⟩ := by
  rcases h with ⟨symbol, rfl⟩ | ⟨computation, destination, rfl⟩ | ⟨computation, jmp, rfl⟩ <;>
    exact ⟨if command_array.size = command_array.capacity then command_array.capacity + 10
      else command_array.capacity, by simp [CommandArray_copyCommand, Parser_commandType,
        Parser_symbol, Parser_comp, Parser_jump, Parser_dest]⟩

theorem SymbolTable_addEntry_reject (st : SymbolTable) (name : String) (a : Int)
    (ha : ¬ a < 32766) : SymbolTable_addEntry st name a = (-1, st) := by
  simp [SymbolTable_addEntry, ha]

/-- The result of a successful pass 1, by induction on the iterations of the
loop: the instructions are appended to the command array in input order, the
table is extended at its end, and every label declaration is bound to the
count of the instructions before it. -/
theorem parseCommandsLoop_spec :
    ∀ (fuel : Nat) (s : PassOne) (k : Nat) (s' : PassOne),
      s.parser.source_file.eof = false → s.symbol_table.values ≠ [] →
      parseCommandsLoop fuel s k = some (Res.ret 0 s') →
        s'.command_array.commands
          = s.command_array.commands ++ instructionCommands s.parser.source_file.lines ∧
        (instructionCommands s.parser.source_file.lines).length
          = instructionCount s.parser.source_file.lines ∧
        (∃ ext, s'.symbol_table.values = s.symbol_table.values ++ ext) ∧
        ∀ p ∈ labelCounts k s.parser.source_file.lines,
          ∃ name, labelName p.1 = some name ∧ Bound s'.symbol_table name p.2 ∧ p.2 < 32766 := by
  intro fuel
  induction fuel with
  | zero =>
    intro s k s' _ _ h
    simp [parseCommandsLoop] at h
  | succ fuel ih =>
    intro s k s' heof hne h
    obtain ⟨⟨⟨lines, eof⟩, cur⟩, st, ca⟩ := s
    simp only at heof hne ⊢
    subst heof
    unfold parseCommandsLoop at h
    simp only [Parser_hasMoreCommands, Parser_advance, advanceLoop_eq, if_true] at h
    rw [← instructionCommands_dropBlank lines, ← instructionCount_dropBlank lines,
      ← labelCounts_dropBlank k lines]
    cases hd : lines.dropWhile isBlank with
    | nil =>
      simp only [hd] at h
      simp at h
      subst h
      simp [instructionCommands, instructionCount, labelCounts]
    | cons l rest =>
      have hb := head_dropWhile_not_blank hd
      simp only [hd, Parser_parseCommand] at h
      cases hp : parseCommandFields (strtrim l) with
      | undefined => simp [hp] at h
      | ret code cmd =>
        obtain ⟨hty, hcode, hshape⟩ := parseCommandFields_ret _ _ _ hp
        rcases hcode with rfl | rfl
        · simp only [hp] at h
          have hinstr : ∀ capacity,
              parseCommandsLoop fuel
                ⟨⟨⟨rest, false⟩, cmd⟩, st, ⟨capacity, ca.commands ++ [cmd]⟩⟩ (k + 1)
                = some (Res.ret 0 s') →
              (cmd.type = A_COMMAND ∨ cmd.type = C_COMMAND) →
              s'.command_array.commands = ca.commands ++ instructionCommands (l :: rest) ∧
              (instructionCommands (l :: rest)).length = instructionCount (l :: rest) ∧
              (∃ ext, s'.symbol_table.values = st.values ++ ext) ∧
              ∀ p ∈ labelCounts k (l :: rest),
                ∃ name, labelName p.1 = some name ∧ Bound s'.symbol_table name p.2 ∧
                  p.2 < 32766 := by
            intro capacity hrec hkind
            obtain ⟨h1, h2, h3, h4⟩ := ih _ _ _ rfl hne hrec
            obtain ⟨e1, e2, e3⟩ := spec_instruction_line l rest k cmd hb hp hkind
            simp only at h1 h2 h3 h4
            rw [e1, e2, e3]
            exact ⟨by rw [h1]; simp, by simp [h2], h3, h4⟩
          rcases hshape rfl with ⟨hL, sym, rfl⟩ | ⟨hA, sym, rfl⟩ |
            ⟨hC, comp, ⟨d, rfl⟩ | ⟨j, rfl⟩⟩
          · simp only [Parser_commandType, Parser_symbol] at h
            simp only [lt_self_iff_false, if_false, zero_ne_one, if_true] at h
            by_cases hc : SymbolTable_contains st sym = 0
            · obtain ⟨hidx, hnot⟩ := not_mem_of_contains_zero hc
              by_cases ha : (k : Int) < 32766
              · obtain ⟨capacity, hadd⟩ := SymbolTable_addEntry_new st sym k hidx ha
                simp only [hc, hadd, if_true, lt_self_iff_false, if_false] at h
                have hne1 : st.values ++ [(⟨sym, k⟩ : StructTuple)] ≠ [] := by simp
                obtain ⟨h1, h2, ⟨ext, hext⟩, h4⟩ := ih _ _ _ rfl hne1 h
                obtain ⟨e1, e2, e3, e4⟩ := spec_label_line l rest k _ hb hp rfl
                simp only at h1 h2 hext h4
                rw [e1, e2, e3]
                refine ⟨h1, h2, ⟨[⟨sym, k⟩] ++ ext, by simp [hext]⟩, ?_⟩
                intro p hmem
                rcases List.mem_cons.mp hmem with rfl | hmem
                · exact ⟨sym, e4,
                    bound_mono (bound_new st ⟨capacity, st.values ++ [⟨sym, k⟩]⟩ sym k hne hnot rfl)
                      ext hext, by omega⟩
                · exact h4 p hmem
              · simp [hc, SymbolTable_addEntry_reject st sym k ha] at h
            · simp [hc] at h
          · obtain ⟨capacity, hcopy⟩ := copyCommand_instruction ca ⟨rest, false⟩ _
              (Or.inl ⟨sym, rfl⟩)
            simp [Parser_commandType, hcopy] at h
            exact hinstr capacity h (Or.inl rfl)
          · obtain ⟨capacity, hcopy⟩ := copyCommand_instruction ca ⟨rest, false⟩ _
              (Or.inr (Or.inl ⟨comp, d, rfl⟩))
            simp [Parser_commandType, hcopy] at h
            exact hinstr capacity h (Or.inr rfl)
          · obtain ⟨capacity, hcopy⟩ := copyCommand_instruction ca ⟨rest, false⟩ _
              (Or.inr (Or.inr ⟨comp, j, rfl⟩))
            simp [Parser_commandType, hcopy] at h
            exact hinstr capacity h (Or.inr rfl)
        · simp [hp] at h

theorem Parser_advance_lines (parser parser' : Parser) (code : Int)
    (h : Parser_advance parser = Res.ret code parser') (hcode : code ≠ 1) :
    parser'.source_file.lines.length < parser.source_file.lines.length := by
  unfold Parser_advance at h
  rw [advanceLoop_eq] at h
  have hlen := (@List.dropWhile_sublist _ parser.source_file.lines isBlank).length_le
  cases hd : parser.source_file.lines.dropWhile isBlank with
  | nil =>
    simp only [hd] at h
    cases h
    exact absurd rfl hcode
  | cons l rest =>
    simp only [hd, Parser_parseCommand] at h
    rw [hd] at hlen
    cases hp : parseCommandFields (strtrim l) with
    | undefined => simp [hp] at h
    | ret c cmd =>
      simp only [hp] at h
      cases h
      simp only [List.length_cons] at hlen
      show rest.length < _
      omega

/-- The loop of `parseCommands` ends within one iteration more than there are
lines left. -/
theorem parseCommandsLoop_total :
    ∀ (fuel : Nat) (s : PassOne) (k : Nat), s.parser.source_file.lines.length < fuel →
      parseCommandsLoop fuel s k ≠ none := by
  intro fuel
  induction fuel with
  | zero => intro s k h; omega
  | succ fuel ih =>
    intro s k hlen
    unfold parseCommandsLoop
    repeat' split
    all_goals (try dsimp only)
    all_goals (try split_ifs)
    all_goals first
      | (have hlt := Parser_advance_lines _ _ _ (by assumption) (by assumption)
         exact ih _ _ (by simp only; omega))
      | simp

/-- The function `parseCommands` returns (or runs into undefined behaviour):
the bound on the iterations is never reached. -/
theorem parseCommands_total (parser : Parser) (symbol_table : SymbolTable)
    (command_array : CommandArray) : parseCommands parser symbol_table command_array ≠ none :=
  parseCommandsLoop_total _ _ _ (by simp only; omega)

/-- The function `main` returns (or runs into undefined behaviour) on every input. -/
theorem main_total (indeterminate : Int) (test_asm : List String) :
    main indeterminate test_asm ≠ none := by
  unfold main
  dsimp only
  split
  · simp
  · split
    · simp
    · split
      · rename_i h
        exact absurd h (parseCommands_total _ _ _)
      · simp
      · split_ifs <;> simp

theorem mem_labelCounts_of_split :
    ∀ (pre : List String) (k : Nat) (l : String) (post : List String),
      isLabelLine l = true → (l, k + instructionCount pre) ∈ labelCounts k (pre ++ l :: post)
  | [], k, l, post, hl => by
    have hi : isInstructionLine l = false := by
      simp only [isLabelLine, decide_eq_true_eq] at hl
      simp [isInstructionLine, hl]
    simp [labelCounts, hi, hl, instructionCount]
  | x :: pre, k, l, post, hl => by
    by_cases hx : isInstructionLine x = true
    · have h := mem_labelCounts_of_split pre (k + 1) l post hl
      have hc : instructionCount (x :: pre) = instructionCount pre + 1 := by
        simp [instructionCount, List.filter_cons, hx]
      rw [hc, List.cons_append]
      unfold labelCounts
      rw [if_pos hx]
      have e : k + (instructionCount pre + 1) = k + 1 + instructionCount pre := by omega
      rw [e]
      exact h
    · have h := mem_labelCounts_of_split pre k l post hl
      have hc : instructionCount (x :: pre) = instructionCount pre := by
        simp [instructionCount, List.filter_cons, hx]
      rw [hc, List.cons_append]
      unfold labelCounts
      rw [if_neg hx]
      split
      · exact List.mem_cons_of_mem _ h
      · exact h

/-! ## C5: label addresses -/

/-- C5. After a successful pass 1 every label declaration of the input is bound
in the symbol table to the number of address and compute instructions that
precede it: labels and blank lines are not counted, so a label has the index of
the next instruction and consecutive labels have the same address. -/
theorem parseCommands_binds_labels (lines : List String) (st : SymbolTable)
    (ca : CommandArray) (s : PassOne) (hst : 0 < st.size)
    (h : parseCommands (Parser_create ⟨lines, false⟩) st ca = some (Res.ret 0 s))
    (pre : List String) (l : String) (post : List String) (hlines : lines = pre ++ l :: post)
    (hl : isLabelLine l = true) :
    ∃ name, labelName l = some name ∧ SymbolTable_contains s.symbol_table name = 1 ∧
      SymbolTable_getAddress s.symbol_table name = instructionCount pre := by
  have hne : st.values ≠ [] := List.length_pos.mp hst
  obtain ⟨_, _, _, h4⟩ := parseCommandsLoop_spec _ _ _ _ rfl hne h
  have hmem := mem_labelCounts_of_split pre 0 l post hl
  rw [← hlines] at hmem
  obtain ⟨name, hname, hbound, _⟩ := h4 _ hmem
  simp only [Nat.zero_add] at hbound
  exact ⟨name, hname, bound_contains hbound, bound_getAddress hbound⟩

/-- Witness for C5: in `(LOOP) / @LOOP / 0;JMP`, translated with the table that
`SymbolTable_create` returns, the label `LOOP` is bound to 0. -/
theorem parseCommands_binds_labels_witness :
    SymbolTable_create 128 = some ⟨151, predefinedEntries⟩ ∧
    parseCommands (Parser_create ⟨["(LOOP)\n", "@LOOP\n", "0;JMP\n"], false⟩)
        ⟨151, predefinedEntries⟩ ⟨128, []⟩
      = some (Res.ret 0
          ⟨⟨⟨[], true⟩, ⟨none, none, some "0", some "JMP", C_COMMAND⟩⟩,
           ⟨151, predefinedEntries ++ [⟨"LOOP", 0⟩]⟩,
           ⟨128, [⟨some "LOOP", none, none, none, A_COMMAND⟩,
             ⟨none, none, some "0", some "JMP", C_COMMAND⟩]⟩⟩) ∧
    labelName "(LOOP)\n" = some "LOOP" ∧ instructionCount [] = 0 ∧
    ∃ name, labelName "(LOOP)\n" = some name ∧
      SymbolTable_contains (⟨151, predefinedEntries ++ [⟨"LOOP", 0⟩]⟩ : SymbolTable) name = 1 ∧
      SymbolTable_getAddress (⟨151, predefinedEntries ++ [⟨"LOOP", 0⟩]⟩ : SymbolTable) name
        = instructionCount [] :=
  ⟨by decide, by decide, by decide, by decide,
   parseCommands_binds_labels ["(LOOP)\n", "@LOOP\n", "0;JMP\n"] ⟨151, predefinedEntries⟩
     ⟨128, []⟩
     ⟨⟨⟨[], true⟩, ⟨none, none, some "0", some "JMP", C_COMMAND⟩⟩,
      ⟨151, predefinedEntries ++ [⟨"LOOP", 0⟩]⟩,
      ⟨128, [⟨some "LOOP", none, none, none, A_COMMAND⟩,
        ⟨none, none, some "0", some "JMP", C_COMMAND⟩]⟩⟩
     (by decide) (by decide) [] "(LOOP)\n" ["@LOOP\n", "0;JMP\n"] rfl (by decide)⟩

/-! ## Pass 2 -/

theorem SymbolTable_addEntry_of_not_contains (st : SymbolTable) (name : String) (a : Int)
    (hc : SymbolTable_contains st name ≠ 1) (h : ¬ (SymbolTable_addEntry st name a).1 < 0) :
    SymbolTable_getValueIndex st name = -1 ∧ a < 32766 := by
  by_cases ha : a < 32766
  · refine ⟨?_, ha⟩
    by_contra hidx
    unfold SymbolTable_contains at hc
    unfold SymbolTable_addEntry at h
    simp only [ha, if_true, hidx, if_false] at h
    by_cases hpos : SymbolTable_getValueIndex st name > 0
    · simp [hpos] at hc
    · have hn : ¬ (SymbolTable_getValueIndex st name > 0 ∧
          SymbolTable_getValueIndex st name < st.size) := fun hh => hpos hh.1
      simp [hn] at h
  · rw [SymbolTable_addEntry_reject st name a ha] at h
    simp at h

/-- The relation `Emits` in terms of a state of pass 2. -/
theorem emits_state (st : SymbolTable) (cmd : ParsedCommand) (line : String) :
    Emits st cmd line ↔
      ∀ s : PassTwo, s.symbol_table = st →
        generateCommand s cmd = some { s with output_file := s.output_file ++ [line] } := by
  constructor
  · intro h s hs
    obtain ⟨t, n, out⟩ := s
    have ht : t = st := hs
    subst ht
    exact h n out
  · intro h n out
    exact h ⟨st, n, out⟩ rfl

/-- The relation `Emits` on an address command: the target is a mnemonic that
the encoder accepts, or the table holds the target and the encoder accepts the
address stored for it. -/
theorem emits_address (st : SymbolTable) (cmd : ParsedCommand) (line : String)
    (hty : cmd.type = A_COMMAND) :
    Emits st cmd line ↔
      ∃ symbol b, cmd.symbol = some symbol ∧ line = record b ∧
        if isMneumonic symbol = 1 then
          generateAInstruction symbol binary_instruction_init = some b
        else SymbolTable_contains st symbol = 1 ∧
          generateAInstruction (sprintf_ld (SymbolTable_getAddress st symbol))
            binary_instruction_init = some b := by
  rw [emits_state]
  constructor
  · intro h
    obtain ⟨s, hs⟩ : ∃ s : PassTwo, s.symbol_table = st := ⟨⟨st, 0, []⟩, rfl⟩
    subst hs
    have h0 := h s rfl
    unfold generateCommand at h0
    simp only [hty] at h0
    cases hsym : cmd.symbol with
    | none => simp [hsym] at h0
    | some symbol =>
      simp only [hsym] at h0
      by_cases hm : isMneumonic symbol = 1
      · simp only [hm, if_true] at h0
        cases hg : generateAInstruction symbol binary_instruction_init with
        | none => simp [hg] at h0
        | some b =>
          simp only [hg, Option.some.injEq] at h0
          have ho := congrArg PassTwo.output_file h0
          simp only [writeInstruction, List.append_cancel_left_eq, List.cons.injEq,
            and_true] at ho
          exact ⟨symbol, b, rfl, ho.symm, by simp [hm, hg]⟩
      · simp only [hm, if_false] at h0
        by_cases hc : SymbolTable_contains s.symbol_table symbol = 1
        · simp only [hc, if_true] at h0
          cases hg : generateAInstruction
              (sprintf_ld (SymbolTable_getAddress s.symbol_table symbol))
              binary_instruction_init with
          | none => simp [hg] at h0
          | some b =>
            simp only [hg, Option.some.injEq] at h0
            have ho := congrArg PassTwo.output_file h0
            simp only [writeInstruction, List.append_cancel_left_eq, List.cons.injEq,
              and_true] at ho
            exact ⟨symbol, b, rfl, ho.symm, by simp [hm, hc, hg]⟩
        · simp only [hc, if_false] at h0
          by_cases hadd : (SymbolTable_addEntry s.symbol_table symbol
              s.next_variable_address).1 < 0
          · simp [hadd] at h0
          · simp only [hadd, if_false] at h0
            cases hg : generateAInstruction (sprintf_ld s.next_variable_address)
                binary_instruction_init with
            | none => simp [hg] at h0
            | some b =>
              simp only [hg, Option.some.injEq] at h0
              have hn := congrArg PassTwo.next_variable_address h0
              simp only [writeInstruction] at hn
              omega
  · rintro ⟨symbol, b, hsym, hline, hb⟩ s hs
    subst hs
    unfold generateCommand
    simp only [hty, hsym]
    by_cases hm : isMneumonic symbol = 1
    · rw [if_pos hm] at hb
      rw [if_pos hm, hb, hline]
      rfl
    · rw [if_neg hm] at hb
      rw [if_neg hm, if_pos hb.1, hb.2, hline]
      rfl

/-- The relation `Emits` on a compute command: the encoder accepts the fields. -/
theorem emits_compute (st : SymbolTable) (cmd : ParsedCommand) (line : String)
    (hty : cmd.type = C_COMMAND) :
    Emits st cmd line ↔
      ∃ b, line = record b ∧
        generateCInstruction cmd.destination cmd.computation cmd.jump binary_instruction_init
          = some b := by
  rw [emits_state]
  constructor
  · intro h
    have h0 := h ⟨st, 0, []⟩ rfl
    unfold generateCommand at h0
    simp only [hty] at h0
    cases hg : generateCInstruction cmd.destination cmd.computation cmd.jump
        binary_instruction_init with
    | none => simp [hg] at h0
    | some b =>
      simp only [hg, Option.some.injEq] at h0
      have ho := congrArg PassTwo.output_file h0
      simp only [writeInstruction, List.append_cancel_left_eq, List.cons.injEq,
        and_true] at ho
      exact ⟨b, ho.symm, rfl⟩
  · rintro ⟨b, hline, hb⟩ s hs
    unfold generateCommand
    simp only [hty, hb, writeInstruction, hline]

/-- The relation `Emits` on a command that is neither an address nor a compute
command: the buffer is written as it was initialised. -/
theorem emits_other (st : SymbolTable) (cmd : ParsedCommand) (line : String)
    (h1 : cmd.type ≠ A_COMMAND) (h2 : cmd.type ≠ C_COMMAND) :
    Emits st cmd line ↔ line = record binary_instruction_init := by
  have hgen : ∀ s : PassTwo,
      generateCommand s cmd = some (writeInstruction binary_instruction_init s) := by
    intro s
    unfold generateCommand
    cases hty : cmd.type with
    | A_COMMAND => exact absurd hty h1
    | C_COMMAND => exact absurd hty h2
    | L_COMMAND => rfl
    | NONE_COMMAND => rfl
  rw [emits_state]
  constructor
  · intro h
    have h0 := h ⟨st, 0, []⟩ rfl
    rw [hgen] at h0
    simp only [Option.some.injEq] at h0
    have ho := congrArg PassTwo.output_file h0
    simp only [writeInstruction, List.append_cancel_left_eq, List.cons.injEq,
      and_true] at ho
    exact ho.symm
  · intro hline s hs
    rw [hgen, hline]
    rfl

/-- A record that an iteration writes without allocating is written in the
same way when the table has grown at its end. -/
theorem emits_mono {st st' : SymbolTable} {cmd : ParsedCommand} {line : String}
    (h : Emits st cmd line) (ext : List StructTuple) (hext : st'.values = st.values ++ ext) :
    Emits st' cmd line := by
  cases hty : cmd.type with
  | A_COMMAND =>
    rw [emits_address _ _ _ hty] at h ⊢
    obtain ⟨symbol, b, hsym, hline, hb⟩ := h
    refine ⟨symbol, b, hsym, hline, ?_⟩
    by_cases hm : isMneumonic symbol = 1
    · simpa [hm] using hb
    · simp only [hm, if_false] at hb ⊢
      have hbound := bound_mono (bound_of_contains hb.1) ext hext
      exact ⟨bound_contains hbound, by rw [bound_getAddress hbound]; exact hb.2⟩
  | C_COMMAND =>
    rw [emits_compute _ _ _ hty] at h ⊢
    exact h
  | L_COMMAND =>
    have h1 : cmd.type ≠ A_COMMAND := by rw [hty]; decide
    have h2 : cmd.type ≠ C_COMMAND := by rw [hty]; decide
    rw [emits_other _ _ _ h1 h2] at h ⊢
    exact h
  | NONE_COMMAND =>
    have h1 : cmd.type ≠ A_COMMAND := by rw [hty]; decide
    have h2 : cmd.type ≠ C_COMMAND := by rw [hty]; decide
    rw [emits_other _ _ _ h1 h2] at h ⊢
    exact h

/-- One iteration of `generateCode` that does not fail appends one record and
extends the table at its end, if at all; an iteration that finds the table as
it is afterwards writes the same record without allocating. -/
theorem generateCommand_spec (s s' : PassTwo) (cmd : ParsedCommand)
    (hne : s.symbol_table.values ≠ []) (h : generateCommand s cmd = some s') :
    ∃ line ext, s'.output_file = s.output_file ++ [line] ∧
      s'.symbol_table.values = s.symbol_table.values ++ ext ∧
      Emits s'.symbol_table cmd line := by
  unfold generateCommand at h
  cases hty : cmd.type with
  | A_COMMAND =>
    simp only [hty] at h
    cases hsym : cmd.symbol with
    | none => simp [hsym] at h
    | some symbol =>
      simp only [hsym] at h
      by_cases hm : isMneumonic symbol = 1
      · simp only [hm, if_true] at h
        cases hg : generateAInstruction symbol binary_instruction_init with
        | none => simp [hg] at h
        | some b =>
          simp only [hg, Option.some.injEq] at h
          subst h
          exact ⟨record b, [], rfl, by simp [writeInstruction],
            (emits_address _ _ _ hty).mpr ⟨symbol, b, hsym, rfl, by simp [hm, hg]⟩⟩
      · simp only [hm, if_false] at h
        by_cases hc : SymbolTable_contains s.symbol_table symbol = 1
        · simp only [hc, if_true] at h
          cases hg : generateAInstruction
              (sprintf_ld (SymbolTable_getAddress s.symbol_table symbol))
              binary_instruction_init with
          | none => simp [hg] at h
          | some b =>
            simp only [hg, Option.some.injEq] at h
            subst h
            exact ⟨record b, [], rfl, by simp [writeInstruction],
              (emits_address _ _ _ hty).mpr
                ⟨symbol, b, hsym, rfl, by simp [hm, writeInstruction, hc, hg]⟩⟩
        · simp only [hc, if_false] at h
          by_cases hadd : (SymbolTable_addEntry s.symbol_table symbol
              s.next_variable_address).1 < 0
          · simp [hadd] at h
          · simp only [hadd, if_false] at h
            obtain ⟨hidx, ha⟩ := SymbolTable_addEntry_of_not_contains _ _ _ hc hadd
            obtain ⟨capacity, hnew⟩ := SymbolTable_addEntry_new _ _ _ hidx ha
            have hnot := getValueIndexFrom_neg symbol s.symbol_table.values 0 hidx
            cases hg : generateAInstruction (sprintf_ld s.next_variable_address)
                binary_instruction_init with
            | none => simp [hg] at h
            | some b =>
              simp only [hg, hnew, Option.some.injEq] at h
              subst h
              have hbound := bound_new s.symbol_table
                ⟨capacity, s.symbol_table.values ++ [⟨symbol, s.next_variable_address⟩]⟩
                symbol s.next_variable_address hne hnot rfl
              refine ⟨record b, [⟨symbol, s.next_variable_address⟩], rfl,
                by simp [writeInstruction],
                (emits_address _ _ _ hty).mpr ⟨symbol, b, hsym, rfl, ?_⟩⟩
              simp only [hm, if_false, writeInstruction]
              exact ⟨bound_contains hbound, by rw [bound_getAddress hbound]; exact hg⟩
  | C_COMMAND =>
    simp only [hty] at h
    cases hg : generateCInstruction cmd.destination cmd.computation cmd.jump
        binary_instruction_init with
    | none => simp [hg] at h
    | some b =>
      simp only [hg, Option.some.injEq] at h
      subst h
      exact ⟨record b, [], rfl, by simp [writeInstruction],
        (emits_compute _ _ _ hty).mpr ⟨b, rfl, hg⟩⟩
  | L_COMMAND =>
    simp only [hty, Option.some.injEq] at h
    subst h
    exact ⟨_, [], rfl, by simp [writeInstruction],
      (emits_other _ _ _ (by rw [hty]; decide) (by rw [hty]; decide)).mpr rfl⟩
  | NONE_COMMAND =>
    simp only [hty, Option.some.injEq] at h
    subst h
    exact ⟨_, [], rfl, by simp [writeInstruction],
      (emits_other _ _ _ (by rw [hty]; decide) (by rw [hty]; decide)).mpr rfl⟩

/-- The loop of `generateCode`, when it runs through: one record per command,
in order, each the record that the iteration on its command writes when it
finds the final table, which extends the initial one at its end. -/
theorem generateCodeLoop_spec :
    ∀ (cmds : List ParsedCommand) (s s' : PassTwo), s.symbol_table.values ≠ [] →
      generateCodeLoop cmds s = (none, s') →
      ∃ out ext, s'.output_file = s.output_file ++ out ∧
        s'.symbol_table.values = s.symbol_table.values ++ ext ∧
        List.Forall₂ (Emits s'.symbol_table) cmds out
  | [], s, s', _, h => by
    simp only [generateCodeLoop, Prod.mk.injEq, true_and] at h
    subst h
    exact ⟨[], [], by simp, by simp, List.Forall₂.nil⟩
  | cmd :: rest, s, s', hne, h => by
    unfold generateCodeLoop at h
    cases hg : generateCommand s cmd with
    | none => simp [hg] at h
    | some s1 =>
      simp only [hg] at h
      obtain ⟨line, ext1, ho1, ht1, he1⟩ := generateCommand_spec s s1 cmd hne hg
      have hne1 : s1.symbol_table.values ≠ [] := by
        rw [ht1]
        simp [hne]
      obtain ⟨out, ext, ho, ht, he⟩ := generateCodeLoop_spec rest s1 s' hne1 h
      refine ⟨line :: out, ext1 ++ ext, by rw [ho, ho1]; simp, by rw [ht, ht1]; simp, ?_⟩
      exact List.Forall₂.cons (emits_mono he1 ext ht) he

theorem parseCommandsLoop_code :
    ∀ (fuel : Nat) (s : PassOne) (k : Nat) (code : Int) (s' : PassOne),
      parseCommandsLoop fuel s k = some (Res.ret code s') → code = 0 ∨ code = -1 := by
  intro fuel
  induction fuel with
  | zero => intro s k code s' h; simp [parseCommandsLoop] at h
  | succ fuel ih =>
    intro s k code s' h
    unfold parseCommandsLoop at h
    repeat' split at h
    all_goals (try dsimp only at h)
    all_goals (try split_ifs at h)
    all_goals first
      | exact ih _ _ _ _ h
      | (simp only [Option.some.injEq, Res.ret.injEq] at h; omega)
      | simp at h

/-- The loop of `generateCode` ends with `return -1` or without a `return`. -/
theorem generateCodeLoop_code :
    ∀ (cmds : List ParsedCommand) (s : PassTwo),
      (generateCodeLoop cmds s).1 = none ∨ (generateCodeLoop cmds s).1 = some (-1)
  | [], _ => Or.inl rfl
  | cmd :: rest, s => by
    unfold generateCodeLoop
    split
    · exact Or.inr rfl
    · exact generateCodeLoop_code rest _

theorem binary_instruction_init_length : 17 ≤ binary_instruction_init.length := by decide

/-- C11. The computation lookup maps each of the 28 computation mnemonics to
the documented code, which `comp` stores as a string of 7 binary digits; the 28
codes are pairwise distinct, and the code of each form on `M` is the code of
the form on `A` with the first digit `1` instead of `0`. -/
theorem computation_codes :
    COMPUTATION_MNEUMONICS.length = 28 ∧
    (∀ p ∈ [("0", "0101010"), ("1", "0111111"), ("-1", "0111010"), ("D", "0001100"),
        ("!D", "0001101"), ("-D", "0001111"), ("D+1", "0011111"), ("D-1", "0001110"),
        ("A", "0110000"), ("!A", "0110001"), ("-A", "0110011"), ("A+1", "0110111"),
        ("A-1", "0110010"), ("D+A", "0000010"), ("D-A", "0010011"), ("A-D", "0000111"),
        ("D&A", "0000000"), ("D|A", "0010101"),
        ("M", "1110000"), ("!M", "1110001"), ("-M", "1110011"), ("M+1", "1110111"),
        ("M-1", "1110010"), ("D+M", "1000010"), ("D-M", "1010011"), ("M-D", "1000111"),
        ("D&M", "1000000"), ("D|M", "1010101")],
      p.1 ∈ COMPUTATION_MNEUMONICS ∧
      lookupBinary COMPUTATION_MNEUMONICS COMPUTATION_BINARY p.1 = some p.2 ∧
      (comp p.1 binary_instruction_init 3).map (fun b => cstrAt b 3) = some p.2) ∧
    (∀ m ∈ COMPUTATION_MNEUMONICS,
      (lookupBinary COMPUTATION_MNEUMONICS COMPUTATION_BINARY m).map
        (fun b => (b.length, b.toList.all (fun c => c = '0' || c = '1'))) = some (7, true)) ∧
    (COMPUTATION_MNEUMONICS.map
      (lookupBinary COMPUTATION_MNEUMONICS COMPUTATION_BINARY)).Nodup ∧
    (∀ p ∈ [("A", "M"), ("!A", "!M"), ("-A", "-M"), ("A+1", "M+1"), ("A-1", "M-1"),
        ("D+A", "D+M"), ("D-A", "D-M"), ("A-D", "M-D"), ("D&A", "D&M"), ("D|A", "D|M")],
      (lookupBinary COMPUTATION_MNEUMONICS COMPUTATION_BINARY p.1).map
          (fun b => b.toList.head?) = some (some '0') ∧
      (lookupBinary COMPUTATION_MNEUMONICS COMPUTATION_BINARY p.2).map (fun b => b.toList)
        = (lookupBinary COMPUTATION_MNEUMONICS COMPUTATION_BINARY p.1).map
            (fun b => '1' :: b.toList.tail)) := by
  refine ⟨by decide, by decide, by decide, by decide, by decide⟩

/-- C12. The destination lookup and the jump lookup map their 8 mnemonics, the
empty string included, to the documented codes, which are pairwise distinct
strings of 3 binary digits; the empty string has the code `000` in both. -/
theorem destination_jump_codes :
    DESTINATION_MNEUMONICS.length = 8 ∧ JUMP_MNEUMONICS.length = 8 ∧
    (∀ p ∈ [("", "000"), ("M", "001"), ("D", "010"), ("MD", "011"), ("A", "100"),
        ("AM", "101"), ("AD", "110"), ("AMD", "111")],
      p.1 ∈ DESTINATION_MNEUMONICS ∧
      lookupBinary DESTINATION_MNEUMONICS DESTINATION_BINARY p.1 = some p.2 ∧
      (dest p.1 binary_instruction_init 10).map (fun b => cstrAt b 10) = some p.2) ∧
    (∀ p ∈ [("", "000"), ("JGT", "001"), ("JEQ", "010"), ("JGE", "011"), ("JLT", "100"),
        ("JNE", "101"), ("JLE", "110"), ("JMP", "111")],
      p.1 ∈ JUMP_MNEUMONICS ∧
      lookupBinary JUMP_MNEUMONICS JUMP_BINARY p.1 = some p.2 ∧
      (jump p.1 binary_instruction_init 13).map (fun b => cstrAt b 13) = some p.2) ∧
    (∀ m ∈ DESTINATION_MNEUMONICS,
      (lookupBinary DESTINATION_MNEUMONICS DESTINATION_BINARY m).map
        (fun b => (b.length, b.toList.all (fun c => c = '0' || c = '1'))) = some (3, true)) ∧
    (∀ m ∈ JUMP_MNEUMONICS,
      (lookupBinary JUMP_MNEUMONICS JUMP_BINARY m).map
        (fun b => (b.length, b.toList.all (fun c => c = '0' || c = '1'))) = some (3, true)) ∧
    (DESTINATION_MNEUMONICS.map
      (lookupBinary DESTINATION_MNEUMONICS DESTINATION_BINARY)).Nodup ∧
    (JUMP_MNEUMONICS.map (lookupBinary JUMP_MNEUMONICS JUMP_BINARY)).Nodup := by
  refine ⟨by decide, by decide, by decide, by decide, by decide, by decide, by decide,
    by decide⟩

/-! ## C13: failure of the compute encoder -/

theorem lookupBinary_eq_none :
    ∀ (ms bs : List String) (m : String), ms.length ≤ bs.length →
      (lookupBinary ms bs m = none ↔ m ∉ ms)
  | [], _, _, _ => by simp [lookupBinary]
  | _ :: _, [], _, h => by simp at h
  | x :: ms, y :: bs, m, h => by
    unfold lookupBinary
    by_cases hx : m = x
    · simp [hx]
    · have ih := lookupBinary_eq_none ms bs m (by simpa using h)
      simp [hx, ih]

/-- C13. The compute encoder fails exactly when the computation is absent or
not one of the 28 computation mnemonics, or a present destination is not one of
the 8 destination mnemonics, or a present jump is not one of the 8 jump
mnemonics, or destination and jump are both absent; the comparison is exact, so
`A+D`, `DM` and `jmp` make it fail. -/
theorem generateCInstruction_fails_iff :
    (∀ (d c j : Option String) (buf : Buffer),
      generateCInstruction d c j buf = none ↔
        ((c = none ∨ ∃ m, c = some m ∧ m ∉ COMPUTATION_MNEUMONICS) ∨
          (∃ m, d = some m ∧ m ∉ DESTINATION_MNEUMONICS) ∨
          (∃ m, j = some m ∧ m ∉ JUMP_MNEUMONICS) ∨
          (d = none ∧ j = none))) ∧
    generateCInstruction (some "D") (some "A+D") none binary_instruction_init = none ∧
    generateCInstruction (some "DM") (some "A") none binary_instruction_init = none ∧
    generateCInstruction none (some "0") (some "jmp") binary_instruction_init = none := by
  refine ⟨?_, by decide, by decide, by decide⟩
  intro d c j buf
  have hC := lookupBinary_eq_none COMPUTATION_MNEUMONICS COMPUTATION_BINARY
  have hD := lookupBinary_eq_none DESTINATION_MNEUMONICS DESTINATION_BINARY
  have hJ := lookupBinary_eq_none JUMP_MNEUMONICS JUMP_BINARY
  cases c with
  | none => simp [generateCInstruction]
  | some c =>
    have hc := hC c (by decide)
    cases hlc : lookupBinary COMPUTATION_MNEUMONICS COMPUTATION_BINARY c with
    | none =>
      have hnc : c ∉ COMPUTATION_MNEUMONICS := hc.mp hlc
      cases d <;> cases j <;> simp [generateCInstruction, comp, hlc, hnc]
    | some cb =>
      have hmc : c ∈ COMPUTATION_MNEUMONICS := by
        by_contra hn
        rw [hc.mpr hn] at hlc
        cases hlc
      cases d with
      | none =>
        cases j with
        | none => simp [generateCInstruction]
        | some j =>
          have hj := hJ j (by decide)
          cases hlj : lookupBinary JUMP_MNEUMONICS JUMP_BINARY j with
          | none => simp [generateCInstruction, comp, jump, hlc, hlj, hmc, hj.mp hlj]
          | some jb =>
            have hmj : j ∈ JUMP_MNEUMONICS := by
              by_contra hn
              rw [hj.mpr hn] at hlj
              cases hlj
            simp [generateCInstruction, comp, jump, hlc, hlj, hmc, hmj]
      | some d =>
        have hd := hD d (by decide)
        cases hld : lookupBinary DESTINATION_MNEUMONICS DESTINATION_BINARY d with
        | none =>
          cases j <;> simp [generateCInstruction, comp, dest, hlc, hld, hmc, hd.mp hld]
        | some db =>
          have hmd : d ∈ DESTINATION_MNEUMONICS := by
            by_contra hn
            rw [hd.mpr hn] at hld
            cases hld
          cases j with
          | none => simp [generateCInstruction, comp, dest, hlc, hld, hmc, hmd]
          | some j =>
            have hj := hJ j (by decide)
            cases hlj : lookupBinary JUMP_MNEUMONICS JUMP_BINARY j with
            | none =>
              simp [generateCInstruction, comp, dest, jump, hlc, hld, hlj, hmc, hmd, hj.mp hlj]
            | some jb =>
              have hmj : j ∈ JUMP_MNEUMONICS := by
                by_contra hn
                rw [hj.mpr hn] at hlj
                cases hlj
              simp [generateCInstruction, comp, dest, jump, hlc, hld, hlj, hmc, hmd, hmj]

/-! ## C14: classification -/

/-- C14. The function `findCommandType` takes the first rule that matches: a
line that starts with `@` is an address instruction; otherwise a line that
starts with `(` and contains `)` is a label; otherwise a line that contains
`=` or `;` is a compute instruction; otherwise the result is `NONE_COMMAND`. -/
theorem findCommandType_first_match (s : String) :
    (s.toList.head? = some '@' → findCommandType s = A_COMMAND) ∧
    (s.toList.head? ≠ some '@' → (s.toList.head? = some '(' ∧ ')' ∈ s.toList) →
      findCommandType s = L_COMMAND) ∧
    (s.toList.head? ≠ some '@' → ¬ (s.toList.head? = some '(' ∧ ')' ∈ s.toList) →
      ('=' ∈ s.toList ∨ ';' ∈ s.toList) → findCommandType s = C_COMMAND) ∧
    (s.toList.head? ≠ some '@' → ¬ (s.toList.head? = some '(' ∧ ')' ∈ s.toList) →
      ¬ ('=' ∈ s.toList ∨ ';' ∈ s.toList) → findCommandType s = NONE_COMMAND) := by
  unfold findCommandType
  refine ⟨?_, ?_, ?_, ?_⟩
  · intro h
    rw [if_pos h]
  · intro h1 h2
    rw [if_neg h1, if_pos h2]
  · intro h1 h2 h3
    rw [if_neg h1, if_neg h2, if_pos h3]
  · intro h1 h2 h3
    rw [if_neg h1, if_neg h2, if_neg h3]

/-- Witness for C14: `@(x)` is an address instruction, `(x=1)` a label and
`(D=M` a compute instruction. -/
theorem findCommandType_first_match_witness :
    findCommandType "@(x)" = A_COMMAND ∧ findCommandType "(x=1)" = L_COMMAND ∧
    findCommandType "(D=M" = C_COMMAND ∧ findCommandType "D+1" = NONE_COMMAND :=
  ⟨(findCommandType_first_match "@(x)").1 (by decide),
   (findCommandType_first_match "(x=1)").2.1 (by decide) (by decide),
   (findCommandType_first_match "(D=M").2.2.1 (by decide) (by decide) (by decide),
   (findCommandType_first_match "D+1").2.2.2 (by decide) (by decide) (by decide)⟩

/-! ## Tokens -/

theorem drop_length_append (a b : List Char) : (a ++ b).drop a.length = b := by
  induction a with
  | nil => rfl
  | cons x t ih => simp [ih]

theorem takeWhile_append_stop (p : Char → Bool) (y : Char) (r : List Char) (hy : p y = false) :
    ∀ l : List Char, (∀ c ∈ l, p c = true) → (l ++ y :: r).takeWhile p = l
  | [], _ => by simp [List.takeWhile_cons, hy]
  | a :: t, h => by
    have ha := h a (List.mem_cons_self a t)
    have ht : ∀ c ∈ t, p c = true := fun c hc => h c (List.mem_cons_of_mem a hc)
    simp [List.takeWhile_cons, ha, takeWhile_append_stop p y r hy t ht]

theorem at_length_append (a : List Char) (y : Char) (r : List Char) :
    Buffer.at (a ++ y :: r) a.length = y := by
  unfold Buffer.at
  induction a with
  | nil => rfl
  | cons x t ih => simpa using ih

theorem set_length_append (a : List Char) (y z : Char) (r : List Char) :
    (a ++ y :: r).set a.length z = a ++ z :: r := by
  induction a with
  | nil => rfl
  | cons x t ih => simp [ih]

/-- The function `strtok` when no token is left: behind the delimiters that it
skips the string ends. -/
theorem strtok_none (front skip rest delim : List Char)
    (hskip : ∀ c ∈ skip, c ≠ NUL ∧ c ∈ delim) :
    strtok (front ++ (skip ++ NUL :: rest)) front.length delim
      = (none, front ++ (skip ++ NUL :: rest), front.length + skip.length) := by
  unfold strtok
  have h1 : ((front ++ (skip ++ NUL :: rest)).drop front.length).takeWhile
      (fun c => c != NUL && decide (c ∈ delim)) = skip := by
    rw [drop_length_append]
    apply takeWhile_append_stop
    · simp
    · intro c hc
      simp [(hskip c hc).1, (hskip c hc).2]
  have h2 : Buffer.at (front ++ (skip ++ NUL :: rest)) (front.length + skip.length) = NUL := by
    rw [← List.append_assoc, ← List.length_append]
    exact at_length_append _ _ _
  simp only [h1, h2, if_true]

/-- The function `strtok` when there is a token: the delimiters in front of it
are skipped, the token runs up to the next delimiter or the end of the string,
a delimiter that ends it is overwritten with the terminator and the scan
resumes behind it. -/
theorem strtok_some (front skip tok : List Char) (y : Char) (rest delim : List Char)
    (hskip : ∀ c ∈ skip, c ≠ NUL ∧ c ∈ delim) (htok : ∀ c ∈ tok, c ≠ NUL ∧ c ∉ delim)
    (hne : tok ≠ []) (hy : y = NUL ∨ y ∈ delim) :
    strtok (front ++ (skip ++ (tok ++ y :: rest))) front.length delim
      = (some (front.length + skip.length), front ++ (skip ++ (tok ++ NUL :: rest)),
          front.length + skip.length + tok.length + (if y = NUL then 0 else 1)) := by
  obtain ⟨t, ts, rfl⟩ := List.exists_cons_of_ne_nil hne
  have ht := htok t (List.mem_cons_self t ts)
  unfold strtok
  have h1 : ((front ++ (skip ++ (t :: ts ++ y :: rest))).drop front.length).takeWhile
      (fun c => c != NUL && decide (c ∈ delim)) = skip := by
    rw [drop_length_append, List.cons_append]
    apply takeWhile_append_stop
    · simp [ht.2]
    · intro c hc
      simp [(hskip c hc).1, (hskip c hc).2]
  have h2 : Buffer.at (front ++ (skip ++ (t :: ts ++ y :: rest))) (front.length + skip.length)
      = t := by
    rw [← List.append_assoc, ← List.length_append, List.cons_append]
    exact at_length_append _ _ _
  have h3 : ((front ++ (skip ++ (t :: ts ++ y :: rest))).drop
      (front.length + skip.length)).takeWhile (fun c => c != NUL && !decide (c ∈ delim))
      = t :: ts := by
    rw [← List.append_assoc, ← List.length_append, drop_length_append]
    apply takeWhile_append_stop
    · rcases hy with rfl | hy
      · simp
      · simp [hy]
    · intro c hc
      simp [(htok c hc).1, (htok c hc).2]
  have h4 : Buffer.at (front ++ (skip ++ (t :: ts ++ y :: rest)))
      (front.length + skip.length + (t :: ts).length) = y := by
    rw [← List.append_assoc, ← List.append_assoc, ← List.length_append, ← List.length_append]
    exact at_length_append _ _ _
  have h5 : (front ++ (skip ++ (t :: ts ++ y :: rest))).set
      (front.length + skip.length + (t :: ts).length) NUL
      = front ++ (skip ++ (t :: ts ++ NUL :: rest)) := by
    rw [← List.append_assoc, ← List.append_assoc, ← List.length_append, ← List.length_append,
      set_length_append]
    simp
  simp only [h1, h2, h3, h4, h5]
  rw [if_neg ht.1]
  by_cases hyn : y = NUL
  · simp [hyn]
  · simp [hyn]

/-- Copying a token: the characters from its offset up to the terminator. -/
theorem cstrAt_token (front tok rest : List Char) (htok : ∀ c ∈ tok, c ≠ NUL) :
    cstrAt (front ++ (tok ++ NUL :: rest)) front.length = String.mk tok := by
  unfold cstrAt
  rw [drop_length_append]
  congr 1
  apply takeWhile_append_stop
  · simp
  · intro c hc
    simp [htok c hc]

/-! ## C18: label declarations -/

/-- C18. For every non-empty name that holds neither `(` nor `)` (and, as a C
string, no terminator), the line `(name)` is parsed as a label declaration
whose symbol is the name; destination, computation and jump stay absent. -/
theorem Parser_parseCommand_label (parser : Parser) (name : String) (hne : name ≠ "")
    (hopen : '(' ∉ name.toList) (hclose : ')' ∉ name.toList) (hnul : NUL ∉ name.toList) :
    Parser_parseCommand parser ("(" ++ name ++ ")")
      = Res.ret 0 { parser with current_command := ⟨some name, none, none, none, L_COMMAND⟩ } := by
  obtain ⟨n⟩ := name
  have hn : n ≠ [] := fun h => hne (by rw [h])
  simp only [String.toList] at hopen hclose hnul
  have hline : ("(" ++ (⟨n⟩ : String) ++ ")") = ⟨'(' :: (n ++ [')'])⟩ := rfl
  have hty : findCommandType ⟨'(' :: (n ++ [')'])⟩ = L_COMMAND := by
    simp [findCommandType]
  have htok : ∀ c ∈ n, c ≠ NUL ∧ c ∉ ['(', ')'] := by
    intro c hc
    refine ⟨fun h => hnul (h ▸ hc), ?_⟩
    intro hmem
    simp only [List.mem_cons, List.mem_singleton, List.not_mem_nil, or_false] at hmem
    rcases hmem with rfl | rfl
    · exact hopen hc
    · exact hclose hc
  have hskip : ∀ c ∈ ['('], c ≠ NUL ∧ c ∈ ['(', ')'] := by
    intro c hc
    simp only [List.mem_singleton] at hc
    subst hc
    exact ⟨by decide, by simp⟩
  have ht := strtok_some [] ['('] n ')' [NUL] ['(', ')'] hskip htok hn (Or.inr (by simp))
  have hclose_ne : ¬ (')' = NUL) := by decide
  simp only [List.nil_append, List.length_nil, Nat.zero_add, hclose_ne, if_false] at ht
  have hcs := cstrAt_token ['('] n [NUL] (fun c hc => (htok c hc).1)
  have hbuf : (String.mk ('(' :: (n ++ [')']))).toList ++ [NUL] = ['('] ++ (n ++ ')' :: [NUL]) := by
    simp
  rw [hline]
  unfold Parser_parseCommand parseCommandFields
  simp only [hty, hbuf, ht, hcs, ParsedCommand_free]

/-- Witness for C18 at the line `(LOOP)`. -/
theorem Parser_parseCommand_label_witness :
    "LOOP" ≠ "" ∧ '(' ∉ "LOOP".toList ∧ ')' ∉ "LOOP".toList ∧ NUL ∉ "LOOP".toList ∧
    Parser_parseCommand (Parser_create ⟨[], false⟩) ("(" ++ "LOOP" ++ ")")
      = Res.ret 0 { Parser_create ⟨[], false⟩ with
          current_command := ⟨some "LOOP", none, none, none, L_COMMAND⟩ } :=
  ⟨by decide, by decide, by decide, by decide,
   Parser_parseCommand_label (Parser_create ⟨[], false⟩) "LOOP" (by decide) (by decide)
     (by decide) (by decide)⟩

/-! ## C15: the fields of a compute instruction -/

theorem not_mem_delim_of_ne {c x : Char} (h : c ≠ x) : c ∉ [x] := by
  simpa using h

/-- C15. Let `a` and `b` be non-empty strings that hold neither `=` nor `;`
(and, as C strings, no terminator).  When the line `a=b` is classified as a
compute instruction, it is parsed with destination `a`, computation `b` and no
jump; when the line `a;b` is classified as a compute instruction, it is parsed
with computation `a`, jump `b` and no destination. -/
theorem Parser_parseCommand_compute (parser : Parser) (a b : String)
    (ha : a ≠ "") (hb : b ≠ "")
    (haeq : '=' ∉ a.toList) (hasc : ';' ∉ a.toList) (hanul : NUL ∉ a.toList)
    (hbeq : '=' ∉ b.toList) (hbsc : ';' ∉ b.toList) (hbnul : NUL ∉ b.toList) :
    (findCommandType (a ++ "=" ++ b) = C_COMMAND →
      Parser_parseCommand parser (a ++ "=" ++ b)
        = Res.ret 0 { parser with current_command := ⟨none, some a, some b, none, C_COMMAND⟩ }) ∧
    (findCommandType (a ++ ";" ++ b) = C_COMMAND →
      Parser_parseCommand parser (a ++ ";" ++ b)
        = Res.ret 0 { parser with current_command := ⟨none, none, some a, some b, C_COMMAND⟩ }) := by
  obtain ⟨x⟩ := a
  obtain ⟨y⟩ := b
  have hx : x ≠ [] := fun h => ha (by rw [h])
  have hy : y ≠ [] := fun h => hb (by rw [h])
  simp only [String.toList] at haeq hasc hanul hbeq hbsc hbnul
  have hxe : ∀ c ∈ x, c ≠ NUL ∧ c ∉ ['='] := fun c hc =>
    ⟨fun h => hanul (h ▸ hc), not_mem_delim_of_ne (fun h => haeq (h ▸ hc))⟩
  have hxs : ∀ c ∈ x, c ≠ NUL ∧ c ∉ [';'] := fun c hc =>
    ⟨fun h => hanul (h ▸ hc), not_mem_delim_of_ne (fun h => hasc (h ▸ hc))⟩
  have hye : ∀ c ∈ y, c ≠ NUL ∧ c ∉ ['='] := fun c hc =>
    ⟨fun h => hbnul (h ▸ hc), not_mem_delim_of_ne (fun h => hbeq (h ▸ hc))⟩
  have hys : ∀ c ∈ y, c ≠ NUL ∧ c ∉ [';'] := fun c hc =>
    ⟨fun h => hbnul (h ▸ hc), not_mem_delim_of_ne (fun h => hbsc (h ▸ hc))⟩
  have hnil : ∀ (d : List Char), ∀ c ∈ ([] : List Char), c ≠ NUL ∧ c ∈ d := by
    intro d c hc
    cases hc
  have hne1 : ¬ ('=' = NUL) := by decide
  have hne2 : ¬ (';' = NUL) := by decide
  constructor
  · intro hty
    have hline : ((⟨x⟩ : String) ++ "=" ++ ⟨y⟩) = ⟨x ++ '=' :: y⟩ := by
      show String.mk ((x ++ ['=']) ++ y) = _
      simp
    rw [hline] at hty ⊢
    have hbuf : (String.mk (x ++ '=' :: y)).toList ++ [NUL] = x ++ '=' :: (y ++ [NUL]) := by
      simp
    have t1 := strtok_some [] [] x '=' (y ++ [NUL]) ['='] (hnil _) hxe hx (Or.inr (by simp))
    have t2 := strtok_some (x ++ [NUL]) [] y NUL [] ['='] (hnil _) hye hy (Or.inl rfl)
    have t3 := strtok_some [] [] x NUL (y ++ [NUL]) [';'] (hnil _) hxs hx (Or.inl rfl)
    have t4 := strtok_none x [] (y ++ [NUL]) [';'] (hnil _)
    have c1 := cstrAt_token [] x (y ++ [NUL]) (fun c hc => (hxe c hc).1)
    have c2 := cstrAt_token (x ++ [NUL]) y [] (fun c hc => (hye c hc).1)
    simp only [List.nil_append, List.length_nil, Nat.zero_add, Nat.add_zero, hne1, if_false,
      if_true, List.append_assoc, List.singleton_append, List.length_append,
      List.length_singleton] at t1 t2 t3 t4 c1 c2
    unfold Parser_parseCommand parseCommandFields
    simp only [hty, hbuf, t1, t2, t3, t4, c1, c2, ParsedCommand_free]
  · intro hty
    have hline : ((⟨x⟩ : String) ++ ";" ++ ⟨y⟩) = ⟨x ++ ';' :: y⟩ := by
      show String.mk ((x ++ [';']) ++ y) = _
      simp
    rw [hline] at hty ⊢
    have hbuf : (String.mk (x ++ ';' :: y)).toList ++ [NUL] = x ++ ';' :: (y ++ [NUL]) := by
      simp
    have hall : ∀ c ∈ x ++ ';' :: y, c ≠ NUL ∧ c ∉ ['='] := by
      intro c hc
      rcases List.mem_append.mp hc with h | h
      · exact hxe c h
      · rcases List.mem_cons.mp h with rfl | h
        · exact ⟨by decide, by decide⟩
        · exact hye c h
    have t1 := strtok_some [] [] (x ++ ';' :: y) NUL [] ['='] (hnil _) hall (by simp)
      (Or.inl rfl)
    have t2 := strtok_none (x ++ ';' :: y) [] [] ['='] (hnil _)
    have t3 := strtok_some [] [] x ';' (y ++ [NUL]) [';'] (hnil _) hxs hx (Or.inr (by simp))
    have t4 := strtok_some (x ++ [NUL]) [] y NUL [] [';'] (hnil _) hys hy (Or.inl rfl)
    have c1 := cstrAt_token [] x (y ++ [NUL]) (fun c hc => (hxs c hc).1)
    have c2 := cstrAt_token (x ++ [NUL]) y [] (fun c hc => (hys c hc).1)
    simp only [List.nil_append, List.length_nil, Nat.zero_add, Nat.add_zero, hne2, if_false,
      if_true, List.append_assoc, List.singleton_append, List.length_append,
      List.length_singleton, List.cons_append, List.length_cons] at t1 t2 t3 t4 c1 c2
    unfold Parser_parseCommand parseCommandFields
    simp only [hty, hbuf, t1, t2, t3, t4, c1, c2, ParsedCommand_free]

/-- Witness for C15 at the lines `D=A` and `0;JMP`. -/
theorem Parser_parseCommand_compute_witness :
    findCommandType ("D" ++ "=" ++ "A") = C_COMMAND ∧
    findCommandType ("0" ++ ";" ++ "JMP") = C_COMMAND ∧
    Parser_parseCommand (Parser_create ⟨[], false⟩) ("D" ++ "=" ++ "A")
      = Res.ret 0 { Parser_create ⟨[], false⟩ with
          current_command := ⟨none, some "D", some "A", none, C_COMMAND⟩ } ∧
    Parser_parseCommand (Parser_create ⟨[], false⟩) ("0" ++ ";" ++ "JMP")
      = Res.ret 0 { Parser_create ⟨[], false⟩ with
          current_command := ⟨none, none, some "0", some "JMP", C_COMMAND⟩ } :=
  ⟨by decide, by decide,
   (Parser_parseCommand_compute (Parser_create ⟨[], false⟩) "D" "A" (by decide) (by decide)
     (by decide) (by decide) (by decide) (by decide) (by decide) (by decide)).1 (by decide),
   (Parser_parseCommand_compute (Parser_create ⟨[], false⟩) "0" "JMP" (by decide) (by decide)
     (by decide) (by decide) (by decide) (by decide) (by decide) (by decide)).2 (by decide)⟩

/-! ## C16: lines with `=` and `;` -/

/-- C16 (the code at the failing input). The second pair of `strtok` calls
scans the buffer that the first pair has cut at the `=`: for `D=M;JGT` it finds
no jump token, the test for both forms does not fire, and the line is parsed
with destination `D` and computation `M;JGT`.  With the `;` in front of the
`=`, as in `M;JGT=D`, the line is rejected. -/
theorem parseCommandFields_both_forms :
    parseCommandFields "D=M;JGT"
      = Res.ret 0 ⟨none, some "D", some "M;JGT", none, C_COMMAND⟩ ∧
    Parser_parseCommand (Parser_create ⟨[], false⟩) "D=M;JGT"
      = Res.ret 0 { Parser_create ⟨[], false⟩ with
          current_command := ⟨none, some "D", some "M;JGT", none, C_COMMAND⟩ } ∧
    parseCommandFields "M;JGT=D" = Res.ret (-1) ⟨none, none, none, none, C_COMMAND⟩ ∧
    (∀ indeterminate : Int, main indeterminate ["D=M;JGT\n"] = some (Res.ret (-1) [])) := by
  refine ⟨by decide, by decide, by decide, fun v => ?_⟩
  rw [main_sign]
  split_ifs
  · set_option maxRecDepth 4096 in decide
  · set_option maxRecDepth 4096 in decide

/-! ## C17: the target of an address instruction -/

/-- C17 (counterexample). The token ends at the next `@`: the line `@a@b`
yields the symbol `a`, not the remainder `a@b`; and the line `@@`, whose
remainder `@` is not empty, is rejected. -/
theorem Parser_parseCommand_address_counterexample :
    Parser_parseCommand (Parser_create ⟨[], false⟩) "@a@b"
      = Res.ret 0 { Parser_create ⟨[], false⟩ with
          current_command := ⟨some "a", none, none, none, A_COMMAND⟩ } ∧
    Parser_parseCommand (Parser_create ⟨[], false⟩) "@a@b"
      ≠ Res.ret 0 { Parser_create ⟨[], false⟩ with
          current_command := ⟨some "a@b", none, none, none, A_COMMAND⟩ } ∧
    Parser_parseCommand (Parser_create ⟨[], false⟩) "@@"
      = Res.ret (-1) { Parser_create ⟨[], false⟩ with
          current_command := ⟨none, none, none, none, A_COMMAND⟩ } := by
  decide

/-- C17 (amended). On a line that starts with `@`, the symbol is the text `t`
between the leading run of `@` and the next `@` or the end of the line; for a
line `@t` whose remainder `t` is not empty and holds no `@` this is the whole
remainder.  A line of `@` only, such as `@` alone, is rejected as malformed. -/
theorem Parser_parseCommand_address (parser : Parser) (k : Nat) (t rest : List Char)
    (hne : t ≠ []) (hat : '@' ∉ t) (hnul : NUL ∉ t)
    (hrest : rest = [] ∨ rest.head? = some '@') :
    Parser_parseCommand parser ⟨List.replicate (k + 1) '@' ++ (t ++ rest)⟩
      = Res.ret 0 { parser with
          current_command := ⟨some ⟨t⟩, none, none, none, A_COMMAND⟩ } ∧
    Parser_parseCommand parser ("@" ++ ⟨t⟩)
      = Res.ret 0 { parser with
          current_command := ⟨some ⟨t⟩, none, none, none, A_COMMAND⟩ } ∧
    Parser_parseCommand parser ⟨List.replicate (k + 1) '@'⟩
      = Res.ret (-1) { parser with
          current_command := ⟨none, none, none, none, A_COMMAND⟩ } := by
  have htok : ∀ c ∈ t, c ≠ NUL ∧ c ∉ ['@'] := fun c hc =>
    ⟨fun h => hnul (h ▸ hc), not_mem_delim_of_ne (fun h => hat (h ▸ hc))⟩
  have hskip : ∀ (n : Nat), ∀ c ∈ List.replicate n '@', c ≠ NUL ∧ c ∈ ['@'] := by
    intro n c hc
    rw [List.eq_of_mem_replicate hc]
    exact ⟨by decide, by simp⟩
  have hnil : ∀ c ∈ ([] : List Char), c ≠ NUL ∧ c ∈ ['@'] := by
    intro c hc
    cases hc
  have hne1 : ¬ ('@' = NUL) := by decide
  have key : ∀ (n : Nat) (r : List Char), (r = [] ∨ r.head? = some '@') →
      Parser_parseCommand parser ⟨List.replicate (n + 1) '@' ++ (t ++ r)⟩
        = Res.ret 0 { parser with
            current_command := ⟨some ⟨t⟩, none, none, none, A_COMMAND⟩ } := by
    intro n r hr
    have hty : findCommandType ⟨List.replicate (n + 1) '@' ++ (t ++ r)⟩ = A_COMMAND := by
      simp [findCommandType, List.replicate_succ]
    have hcs : ∀ r1 : List Char,
        cstrAt (List.replicate (n + 1) '@' ++ (t ++ NUL :: r1)) (n + 1) = ⟨t⟩ := by
      intro r1
      have h := cstrAt_token (List.replicate (n + 1) '@') t r1 (fun c hc => (htok c hc).1)
      rwa [List.length_replicate] at h
    unfold Parser_parseCommand parseCommandFields
    rcases hr with rfl | hr
    · have hbuf : (String.mk (List.replicate (n + 1) '@' ++ (t ++ []))).toList ++ [NUL]
          = List.replicate (n + 1) '@' ++ (t ++ NUL :: []) := by simp
      have ht := strtok_some [] (List.replicate (n + 1) '@') t NUL [] ['@'] (hskip _) htok hne
        (Or.inl rfl)
      simp only [List.nil_append, List.length_nil, Nat.zero_add, List.length_replicate] at ht
      simp only [hty, hbuf, ht, hcs, ParsedCommand_free]
    · obtain ⟨r1, rfl⟩ : ∃ r1, r = '@' :: r1 := by
        cases r with
        | nil => simp at hr
        | cons c r1 =>
          simp only [List.head?_cons, Option.some.injEq] at hr
          exact ⟨r1, by rw [hr]⟩
      have hbuf : (String.mk (List.replicate (n + 1) '@' ++ (t ++ '@' :: r1))).toList ++ [NUL]
          = List.replicate (n + 1) '@' ++ (t ++ '@' :: (r1 ++ [NUL])) := by simp
      have ht := strtok_some [] (List.replicate (n + 1) '@') t '@' (r1 ++ [NUL]) ['@'] (hskip _)
        htok hne (Or.inr (by simp))
      simp only [List.nil_append, List.length_nil, Nat.zero_add, List.length_replicate] at ht
      simp only [hty, hbuf, ht, hcs, ParsedCommand_free]
  refine ⟨key k rest hrest, ?_, ?_⟩
  · have h := key 0 [] (Or.inl rfl)
    have hline : ("@" ++ (⟨t⟩ : String)) = ⟨List.replicate (0 + 1) '@' ++ (t ++ [])⟩ := by
      show String.mk (['@'] ++ t) = _
      simp [List.replicate]
    rw [hline]
    exact h
  · have hty : findCommandType ⟨List.replicate (k + 1) '@'⟩ = A_COMMAND := by
      simp [findCommandType, List.replicate_succ]
    have hbuf : (String.mk (List.replicate (k + 1) '@')).toList ++ [NUL]
        = List.replicate (k + 1) '@' ++ NUL :: [] := by simp
    have ht := strtok_none [] (List.replicate (k + 1) '@') [] ['@'] (hskip _)
    simp only [List.nil_append, List.length_nil, Nat.zero_add, List.length_replicate] at ht
    unfold Parser_parseCommand parseCommandFields
    simp only [hty, hbuf, ht, ParsedCommand_free]

/-- Witness for the amended C17 at the lines `@@i@x`, `@i` and `@@`. -/
theorem Parser_parseCommand_address_witness :
    Parser_parseCommand (Parser_create ⟨[], false⟩) ⟨List.replicate (1 + 1) '@' ++ (['i'] ++ ['@', 'x'])⟩
      = Res.ret 0 { Parser_create ⟨[], false⟩ with
          current_command := ⟨some ⟨['i']⟩, none, none, none, A_COMMAND⟩ } ∧
    Parser_parseCommand (Parser_create ⟨[], false⟩) ("@" ++ ⟨['i']⟩)
      = Res.ret 0 { Parser_create ⟨[], false⟩ with
          current_command := ⟨some ⟨['i']⟩, none, none, none, A_COMMAND⟩ } ∧
    Parser_parseCommand (Parser_create ⟨[], false⟩) ⟨List.replicate (1 + 1) '@'⟩
      = Res.ret (-1) { Parser_create ⟨[], false⟩ with
          current_command := ⟨none, none, none, none, A_COMMAND⟩ } :=
  Parser_parseCommand_address (Parser_create ⟨[], false⟩) 1 ['i'] ['@', 'x'] (by decide)
    (by decide) (by decide) (Or.inr rfl)

/-! ## C19: the table that `SymbolTable_create` returns -/

/-- The loop of `SymbolTable_addPredefinedSymbols` on a table with room for the
new entries: distinct names that the table does not hold yet, with addresses
below 32766, are appended in order. -/
theorem addPredefinedLoop_spec :
    ∀ (ss : List String) (vs : List Int) (st : SymbolTable), ss.length = vs.length →
      (∀ v ∈ vs, v < 32766) → ss.Nodup → (∀ s ∈ ss, ∀ t ∈ st.values, t.symbol ≠ s) →
      st.size + ss.length ≤ st.capacity →
      addPredefinedLoop ss vs st
        = (0, ⟨st.capacity, st.values ++ List.zipWith StructTuple.mk ss vs⟩)
  | [], vs, st, _, _, _, _, _ => by
    cases vs <;> simp [addPredefinedLoop]
  | s :: ss, [], st, hlen, _, _, _, _ => by simp at hlen
  | s :: ss, v :: vs, st, hlen, hv, hnd, hnew, hcap => by
    have hidx : SymbolTable_getValueIndex st s = -1 :=
      getValueIndexFrom_not_mem s st.values 0 (hnew s (List.mem_cons_self s ss))
    have hlt : v < 32766 := hv v (List.mem_cons_self v vs)
    have hne : st.capacity ≠ st.size := by
      simp only [List.length_cons] at hcap
      omega
    have hadd : SymbolTable_addEntry st s v = (0, ⟨st.capacity, st.values ++ [⟨s, v⟩]⟩) := by
      unfold SymbolTable_addEntry
      simp only [hlt, hidx, hne, if_true, if_false, lt_self_iff_false]
    have hnd' := List.nodup_cons.mp hnd
    have ih := addPredefinedLoop_spec ss vs ⟨st.capacity, st.values ++ [⟨s, v⟩]⟩
      (by simpa using hlen) (fun w hw => hv w (List.mem_cons_of_mem v hw)) hnd'.2
      (by
        intro s' hs' t ht
        rcases List.mem_append.mp ht with h | h
        · exact hnew s' (List.mem_cons_of_mem s hs') t h
        · simp only [List.mem_singleton] at h
          subst h
          intro heq
          have heq' : s = s' := heq
          exact hnd'.1 (heq' ▸ hs'))
      (by
        simp only [SymbolTable.size, List.length_append, List.length_cons, List.length_nil] at hcap ⊢
        omega)
    unfold addPredefinedLoop
    simp only [hadd, ih]
    simp

/-- C19. For every capacity above 0, `SymbolTable_create` succeeds and the
table holds the 23 predefined entries and nothing else, whatever the capacity:
`SP` = 0, `LCL` = 1, `ARG` = 2, `THIS` = 3, `THAT` = 4, `R0` to `R15` = 0 to 15,
`SCREEN` = 16384, `KBD` = 24576. -/
theorem SymbolTable_create_spec (capacity : Nat) (h : 0 < capacity) :
    SymbolTable_create capacity = some ⟨capacity + 23, predefinedEntries⟩ ∧
    predefinedEntries
      = [⟨"SP", 0⟩, ⟨"LCL", 1⟩, ⟨"ARG", 2⟩, ⟨"THIS", 3⟩, ⟨"THAT", 4⟩, ⟨"R0", 0⟩, ⟨"R1", 1⟩,
         ⟨"R2", 2⟩, ⟨"R3", 3⟩, ⟨"R4", 4⟩, ⟨"R5", 5⟩, ⟨"R6", 6⟩, ⟨"R7", 7⟩, ⟨"R8", 8⟩,
         ⟨"R9", 9⟩, ⟨"R10", 10⟩, ⟨"R11", 11⟩, ⟨"R12", 12⟩, ⟨"R13", 13⟩, ⟨"R14", 14⟩,
         ⟨"R15", 15⟩, ⟨"SCREEN", 16384⟩, ⟨"KBD", 24576⟩] ∧
    predefinedEntries.length = 23 := by
  refine ⟨?_, by decide, by decide⟩
  have hloop := addPredefinedLoop_spec PREDEFINED_SYMBOLS PREDEFINED_SYMBOL_VALUES
    ⟨capacity + 23, []⟩ (by decide) (by decide) (by decide) (by simp)
    (by simp [SymbolTable.size, PREDEFINED_SYMBOLS])
  unfold SymbolTable_create SymbolTable_resize SymbolTable_addPredefinedSymbols
  have hpos : 0 < capacity + 23 := by omega
  simp only [List.nil_append] at hloop
  simp only [gt_iff_lt, h, if_true, hpos, TOTAL_PREDEFINED_SYMBOLS, hloop, lt_self_iff_false,
    if_false, predefinedEntries]

/-- Witness for C19 at the capacity 128 that `main` asks for. -/
theorem SymbolTable_create_spec_witness :
    0 < 128 ∧ SymbolTable_create 128 = some ⟨128 + 23, predefinedEntries⟩ :=
  ⟨by decide, (SymbolTable_create_spec 128 (by decide)).1⟩

/-! ## C20: lookup and the stored entries -/

/-- C20 (the code at the failing input). In the table that `SymbolTable_create`
returns, `SP` is stored with the address 0 at index 0, which the lookup
functions do not accept as a found index: `SymbolTable_contains` returns `-1`
and `SymbolTable_getAddress` returns `-1`; this stays so after further entries
are added.  The other names are looked up as stored. -/
theorem SymbolTable_lookup_SP :
    SymbolTable_create 128 = some ⟨151, predefinedEntries⟩ ∧
    (⟨"SP", 0⟩ : StructTuple) ∈ predefinedEntries ∧
    SymbolTable_contains ⟨151, predefinedEntries⟩ "SP" = -1 ∧
    SymbolTable_getAddress ⟨151, predefinedEntries⟩ "SP" = -1 ∧
    SymbolTable_contains (SymbolTable_addEntry ⟨151, predefinedEntries⟩ "LOOP" 4).2 "SP" = -1 ∧
    SymbolTable_contains ⟨151, predefinedEntries⟩ "LCL" = 1 ∧
    SymbolTable_getAddress ⟨151, predefinedEntries⟩ "LCL" = 1 ∧
    SymbolTable_contains ⟨151, predefinedEntries⟩ "LOOP" = 0 ∧
    SymbolTable_getAddress ⟨151, predefinedEntries⟩ "LOOP" = -1 := by
  decide

/-! ## The symbol table under `SymbolTable_addEntry` -/

/-- The three outcomes of `SymbolTable_addEntry`: an error with the table as it
was, a new entry appended for a name that was not stored, or the address of the
entry at a found index above 0 overwritten. -/
theorem SymbolTable_addEntry_cases (st : SymbolTable) (name : String) (a : Int) :
    SymbolTable_addEntry st name a = (-1, st) ∨
    (∃ capacity, (∀ t ∈ st.values, t.symbol ≠ name) ∧ a < 32766 ∧
      SymbolTable_addEntry st name a = (0, ⟨capacity, st.values ++ [⟨name, a⟩]⟩)) ∨
    (∃ i : Nat, 0 < i ∧ i < st.size ∧ SymbolTable_getValueIndex st name = (i : Int) ∧ a < 32766 ∧
      SymbolTable_addEntry st name a
        = (0, { st with values := st.values.modify (fun t => { t with address := a }) i })) := by
  by_cases ha : a < 32766
  · by_cases hidx : SymbolTable_getValueIndex st name = -1
    · obtain ⟨capacity, h⟩ := SymbolTable_addEntry_new st name a hidx ha
      exact Or.inr (Or.inl ⟨capacity, getValueIndexFrom_neg name st.values 0 hidx, ha, h⟩)
    · by_cases hr : SymbolTable_getValueIndex st name > 0 ∧
          SymbolTable_getValueIndex st name < st.size
      · refine Or.inr (Or.inr ⟨(SymbolTable_getValueIndex st name).toNat, by omega, by omega,
          by omega, ha, ?_⟩)
        unfold SymbolTable_addEntry
        simp only [ha, hidx, hr, if_true, if_false, and_self]
      · left
        unfold SymbolTable_addEntry
        simp only [ha, hidx, hr, if_true, if_false]
  · exact Or.inl (SymbolTable_addEntry_reject st name a ha)

theorem map_symbol_modify (a : Int) :
    ∀ (l : List StructTuple) (i : Nat),
      (l.modify (fun t => { t with address := a }) i).map StructTuple.symbol
        = l.map StructTuple.symbol
  | [], i => by simp
  | t :: ts, 0 => by simp
  | t :: ts, i + 1 => by
    simp only [List.modify_succ_cons, List.map_cons, map_symbol_modify a ts i]

theorem getValueIndexFrom_append_ne (other name : String) (a : Int) (hne : other ≠ name) :
    ∀ (xs : List StructTuple) (i : Nat),
      getValueIndexFrom other (xs ++ [⟨name, a⟩]) i = getValueIndexFrom other xs i
  | [], i => by
    have h : ¬ name = other := fun h => hne h.symm
    simp [getValueIndexFrom, h]
  | t :: ts, i => by
    rw [List.cons_append]
    unfold getValueIndexFrom
    rw [getValueIndexFrom_append_ne other name a hne ts (i + 1)]

theorem getValueIndexFrom_bound (sym : String) :
    ∀ (xs : List StructTuple) (i : Nat),
      getValueIndexFrom sym xs i = -1 ∨
        ((i : Int) ≤ getValueIndexFrom sym xs i ∧
          getValueIndexFrom sym xs i < ((i + xs.length : Nat) : Int))
  | [], i => Or.inl rfl
  | t :: ts, i => by
    unfold getValueIndexFrom
    by_cases ht : t.symbol = sym
    · rw [if_pos ht]
      right
      simp only [List.length_cons]
      omega
    · rw [if_neg ht]
      rcases getValueIndexFrom_bound sym ts (i + 1) with h | h
      · exact Or.inl h
      · right
        simp only [List.length_cons]
        omega

theorem getD_append_left (d x : StructTuple) :
    ∀ (xs : List StructTuple) (i : Nat), i < xs.length → (xs ++ [x]).getD i d = xs.getD i d
  | [], i, h => by simp at h
  | t :: ts, 0, _ => rfl
  | t :: ts, i + 1, h => by
    rw [List.cons_append, List.getD_cons_succ, List.getD_cons_succ]
    exact getD_append_left d x ts i (by simpa using h)

/-- The lookups of a name other than the appended one are not affected. -/
theorem lookup_append_ne (st st' : SymbolTable) (name other : String) (a : Int)
    (hv : st'.values = st.values ++ [⟨name, a⟩]) (hne : other ≠ name) :
    SymbolTable_getValueIndex st' other = SymbolTable_getValueIndex st other ∧
    SymbolTable_contains st' other = SymbolTable_contains st other ∧
    (st.values ≠ [] → SymbolTable_getAddress st' other = SymbolTable_getAddress st other) := by
  have hidx : SymbolTable_getValueIndex st' other = SymbolTable_getValueIndex st other := by
    unfold SymbolTable_getValueIndex
    rw [hv, getValueIndexFrom_append_ne other name a hne]
  refine ⟨hidx, ?_, ?_⟩
  · unfold SymbolTable_contains
    simp only [hidx]
  · intro hnil
    have hpos : 0 < st.values.length := List.length_pos.mpr hnil
    unfold SymbolTable_getAddress SymbolTable.size
    simp only [hidx]
    have hlen : st'.values.length = st.values.length + 1 := by rw [hv]; simp
    rw [if_pos (by omega), if_pos hpos]
    have hb := getValueIndexFrom_bound other st.values 0
    unfold SymbolTable_getValueIndex
    rcases hb with hb | hb
    · rw [hb]
      simp
    · have h1 : getValueIndexFrom other st.values 0 < (st.values.length : Int) := by
        have := hb.2
        simpa using this
      by_cases h0 : getValueIndexFrom other st.values 0 > 0
      · rw [if_pos ⟨h0, by omega⟩, if_pos ⟨h0, h1⟩, hv]
        congr 1
        exact getD_append_left _ _ _ _ (by omega)
      · rw [if_neg (fun h => h0 h.1), if_neg (fun h => h0 h.1)]

/-- The table that `SymbolTable_create` returns for a capacity above 0. -/
theorem SymbolTable_create_eq (capacity : Nat) (h : 0 < capacity) :
    SymbolTable_create capacity = some ⟨capacity + 23, predefinedEntries⟩ := by
  have hloop := addPredefinedLoop_spec PREDEFINED_SYMBOLS PREDEFINED_SYMBOL_VALUES
    ⟨capacity + 23, []⟩ (by decide) (by decide) (by decide) (by simp)
    (by simp [SymbolTable.size, PREDEFINED_SYMBOLS])
  unfold SymbolTable_create SymbolTable_resize SymbolTable_addPredefinedSymbols
  have hpos : 0 < capacity + 23 := by omega
  simp only [List.nil_append] at hloop
  simp only [gt_iff_lt, h, if_true, hpos, TOTAL_PREDEFINED_SYMBOLS, hloop, lt_self_iff_false,
    if_false, predefinedEntries]

/-- A reachable table starts with the entry of `SP`, and its names are pairwise
distinct. -/
theorem reachable_invariant (st : SymbolTable) (h : Reachable st) :
    (∃ rest, st.values = ⟨"SP", 0⟩ :: rest) ∧ st.names.Nodup := by
  induction h with
  | create capacity st h =>
    have hc : 0 < capacity := by
      by_contra hc
      unfold SymbolTable_create at h
      simp [hc] at h
    rw [SymbolTable_create_eq capacity hc] at h
    cases h
    have hnames : (predefinedEntries.map StructTuple.symbol).Nodup := by decide
    exact ⟨⟨_, rfl⟩, hnames⟩
  | addEntry st name a _ ih =>
    obtain ⟨⟨rest, hrest⟩, hnd⟩ := ih
    rcases SymbolTable_addEntry_cases st name a with h | ⟨capacity, hnew, _, h⟩ |
      ⟨i, hi, _, _, _, h⟩
    · rw [h]
      exact ⟨⟨rest, hrest⟩, hnd⟩
    · rw [h]
      refine ⟨⟨rest ++ [⟨name, a⟩], by simp [hrest]⟩, ?_⟩
      unfold SymbolTable.names at hnd ⊢
      simp only [List.map_append, List.map_cons, List.map_nil]
      refine List.Nodup.append hnd (List.nodup_singleton name) ?_
      intro x hx hx'
      simp only [List.mem_singleton] at hx'
      subst hx'
      obtain ⟨t, ht, hts⟩ := List.mem_map.mp hx
      exact hnew t ht hts
    · rw [h]
      refine ⟨?_, ?_⟩
      · obtain ⟨j, rfl⟩ : ∃ j, i = j + 1 := ⟨i - 1, by omega⟩
        exact ⟨rest.modify (fun t => { t with address := a }) j, by simp [hrest]⟩
      · unfold SymbolTable.names at hnd ⊢
        simp only [map_symbol_modify]
        exact hnd

/-! ## C21: adding a name that is not stored -/

/-- C21. On a table obtained from `SymbolTable_create` and any sequence of
`SymbolTable_addEntry` calls, adding a name that is not stored with an address
below 32766 succeeds, makes the table one entry longer, and afterwards
`SymbolTable_contains` returns 1 and `SymbolTable_getAddress` the address for
the name, while the results of both lookups for every other name are as before. -/
theorem SymbolTable_addEntry_fresh (st : SymbolTable) (hr : Reachable st) (name : String)
    (a : Int) (hnew : ∀ t ∈ st.values, t.symbol ≠ name) (ha : a < 32766) :
    (SymbolTable_addEntry st name a).1 = 0 ∧
    (SymbolTable_addEntry st name a).2.size = st.size + 1 ∧
    (SymbolTable_addEntry st name a).2.values = st.values ++ [⟨name, a⟩] ∧
    SymbolTable_contains (SymbolTable_addEntry st name a).2 name = 1 ∧
    SymbolTable_getAddress (SymbolTable_addEntry st name a).2 name = a ∧
    ∀ other, other ≠ name →
      SymbolTable_contains (SymbolTable_addEntry st name a).2 other
        = SymbolTable_contains st other ∧
      SymbolTable_getAddress (SymbolTable_addEntry st name a).2 other
        = SymbolTable_getAddress st other := by
  obtain ⟨⟨rest, hrest⟩, _⟩ := reachable_invariant st hr
  have hnil : st.values ≠ [] := by rw [hrest]; simp
  have hidx : SymbolTable_getValueIndex st name = -1 :=
    getValueIndexFrom_not_mem name st.values 0 hnew
  obtain ⟨capacity, hadd⟩ := SymbolTable_addEntry_new st name a hidx ha
  rw [hadd]
  have hb : Bound ⟨capacity, st.values ++ [⟨name, a⟩]⟩ name a :=
    bound_new st _ name a hnil hnew rfl
  refine ⟨rfl, by simp [SymbolTable.size], rfl, bound_contains hb, bound_getAddress hb, ?_⟩
  intro other hne
  have h := lookup_append_ne st ⟨capacity, st.values ++ [⟨name, a⟩]⟩ name other a rfl hne
  exact ⟨h.2.1, h.2.2 hnil⟩

/-- Witness for C21: `LOOP` with the address 4 on the table that
`SymbolTable_create` returns. -/
theorem SymbolTable_addEntry_fresh_witness :
    SymbolTable_create 128 = some ⟨151, predefinedEntries⟩ ∧
    (∀ t ∈ predefinedEntries, t.symbol ≠ "LOOP") ∧
    (SymbolTable_addEntry ⟨151, predefinedEntries⟩ "LOOP" 4).2.size = 23 + 1 ∧
    SymbolTable_getAddress (SymbolTable_addEntry ⟨151, predefinedEntries⟩ "LOOP" 4).2 "LOOP"
      = 4 :=
  have h := SymbolTable_addEntry_fresh ⟨151, predefinedEntries⟩
    (Reachable.create 128 _ (by decide)) "LOOP" 4 (by decide) (by decide)
  ⟨by decide, by decide, h.2.1, h.2.2.2.2.1⟩

/-! ## C22: adding a name that is stored -/

/-- C22 (the code at the failing input). `SP` is stored at index 0 of the table
that `SymbolTable_create` returns; `SymbolTable_addEntry` accepts a found index
only above 0, so adding `SP` again with the address 5 returns -1 and leaves the
entry as it was.  A stored name at another index, such as `LCL`, is updated in
place. -/
theorem SymbolTable_addEntry_stored_SP :
    SymbolTable_create 128 = some ⟨151, predefinedEntries⟩ ∧
    (⟨"SP", 0⟩ : StructTuple) ∈ predefinedEntries ∧
    SymbolTable_addEntry ⟨151, predefinedEntries⟩ "SP" 5 = (-1, ⟨151, predefinedEntries⟩) ∧
    (SymbolTable_addEntry ⟨151, predefinedEntries⟩ "LCL" 5).1 = 0 ∧
    (SymbolTable_addEntry ⟨151, predefinedEntries⟩ "LCL" 5).2.size = 23 ∧
    (SymbolTable_addEntry ⟨151, predefinedEntries⟩ "LCL" 5).2.values.take 3
      = [⟨"SP", 0⟩, ⟨"LCL", 5⟩, ⟨"ARG", 2⟩] ∧
    SymbolTable_getAddress (SymbolTable_addEntry ⟨151, predefinedEntries⟩ "LCL" 5).2 "LCL" = 5 := by
  decide

/-! ## C23: the addresses that `SymbolTable_addEntry` accepts -/

/-- C23 (counterexample). For the name `LOOP`, which the table does not hold,
the negative address -1 is accepted and stored, and the address 32766 is
rejected. -/
theorem SymbolTable_addEntry_range_counterexample :
    (∀ t ∈ predefinedEntries, t.symbol ≠ "LOOP") ∧
    SymbolTable_addEntry ⟨151, predefinedEntries⟩ "LOOP" (-1)
      = (0, ⟨151, predefinedEntries ++ [⟨"LOOP", -1⟩]⟩) ∧
    SymbolTable_addEntry ⟨151, predefinedEntries⟩ "LOOP" 32766
      = (-1, ⟨151, predefinedEntries⟩) := by
  decide

/-- C23 (amended). For a name that is not stored, `SymbolTable_addEntry`
succeeds for every address below 32766, the negative ones included, since only
the upper bound is tested; and it returns an error for every address above
32767. -/
theorem SymbolTable_addEntry_accepts (st : SymbolTable) (name : String) (a : Int)
    (hnew : ∀ t ∈ st.values, t.symbol ≠ name) :
    (a < 32766 → (SymbolTable_addEntry st name a).1 = 0 ∧
      (SymbolTable_addEntry st name a).2.values = st.values ++ [⟨name, a⟩]) ∧
    (32767 < a → SymbolTable_addEntry st name a = (-1, st)) := by
  refine ⟨?_, ?_⟩
  · intro ha
    obtain ⟨capacity, hadd⟩ := SymbolTable_addEntry_new st name a
      (getValueIndexFrom_not_mem name st.values 0 hnew) ha
    rw [hadd]
    exact ⟨rfl, rfl⟩
  · intro ha
    exact SymbolTable_addEntry_reject st name a (by omega)

/-- Witness for C23 (amended): the addresses 32765 and 32768 for `LOOP`. -/
theorem SymbolTable_addEntry_accepts_witness :
    (∀ t ∈ predefinedEntries, t.symbol ≠ "LOOP") ∧
    (SymbolTable_addEntry ⟨151, predefinedEntries⟩ "LOOP" 32765).1 = 0 ∧
    SymbolTable_addEntry ⟨151, predefinedEntries⟩ "LOOP" 32768 = (-1, ⟨151, predefinedEntries⟩) :=
  have h := SymbolTable_addEntry_accepts ⟨151, predefinedEntries⟩ "LOOP"
  ⟨by decide, ((h 32765 (by decide)).1 (by decide)).1, (h 32768 (by decide)).2 (by decide)⟩

/-! ## C24: an error leaves the table as it was -/

/-- C24. Whenever `SymbolTable_addEntry` returns a value other than 0, for any
table, name and address, the table afterwards is the table before: the same
entries in the same order, the same size and the same capacity. -/
theorem SymbolTable_addEntry_error_unmodified (st : SymbolTable) (name : String) (a : Int)
    (herr : (SymbolTable_addEntry st name a).1 ≠ 0) :
    (SymbolTable_addEntry st name a).2 = st ∧
    (SymbolTable_addEntry st name a).2.values = st.values ∧
    (SymbolTable_addEntry st name a).2.size = st.size ∧
    (SymbolTable_addEntry st name a).1 = -1 := by
  rcases SymbolTable_addEntry_cases st name a with h | ⟨capacity, _, _, h⟩ | ⟨i, _, _, _, _, h⟩
  · rw [h]
    exact ⟨rfl, rfl, rfl, rfl⟩
  · rw [h] at herr
    exact absurd rfl herr
  · rw [h] at herr
    exact absurd rfl herr

/-- Witness for C24: the rejected address 40000 for a new name, and the name
`SP` that is stored at index 0. -/
theorem SymbolTable_addEntry_error_unmodified_witness :
    (SymbolTable_addEntry ⟨151, predefinedEntries⟩ "LOOP" 40000).1 ≠ 0 ∧
    (SymbolTable_addEntry ⟨151, predefinedEntries⟩ "LOOP" 40000).2 = ⟨151, predefinedEntries⟩ :=
  ⟨by decide,
    (SymbolTable_addEntry_error_unmodified ⟨151, predefinedEntries⟩ "LOOP" 40000 (by decide)).1⟩

/-! ## C25: the names of a table are pairwise distinct -/

/-- `SymbolTable_addEntry` keeps the names of a table pairwise distinct, for
every table, name and address. -/
theorem SymbolTable_addEntry_nodup (st : SymbolTable) (name : String) (a : Int)
    (hnd : st.names.Nodup) : (SymbolTable_addEntry st name a).2.names.Nodup := by
  rcases SymbolTable_addEntry_cases st name a with h | ⟨capacity, hnew, _, h⟩ |
    ⟨i, _, _, _, _, h⟩
  · rw [h]
    exact hnd
  · rw [h]
    unfold SymbolTable.names at hnd ⊢
    simp only [List.map_append, List.map_cons, List.map_nil]
    refine List.Nodup.append hnd (List.nodup_singleton name) ?_
    intro x hx hx'
    simp only [List.mem_singleton] at hx'
    subst hx'
    obtain ⟨t, ht, hts⟩ := List.mem_map.mp hx
    exact hnew t ht hts
  · rw [h]
    unfold SymbolTable.names at hnd ⊢
    simp only [map_symbol_modify]
    exact hnd

/-- C25. The names of the table that `SymbolTable_create` returns are pairwise
distinct, `SymbolTable_addEntry` keeps the names of any table pairwise distinct,
for every name and address, and so no table obtained from `SymbolTable_create`
by `SymbolTable_addEntry` calls holds two entries with the same name. -/
theorem SymbolTable_names_unique (st : SymbolTable) (hr : Reachable st) :
    st.names.Nodup ∧
    (∀ i j : Nat, i < j → j < st.size →
      (st.values.getD i ⟨"", 0⟩).symbol ≠ (st.values.getD j ⟨"", 0⟩).symbol) ∧
    (∀ capacity st0, SymbolTable_create capacity = some st0 → st0.names.Nodup) ∧
    (∀ (st1 : SymbolTable) (name : String) (a : Int), st1.names.Nodup →
      (SymbolTable_addEntry st1 name a).2.names.Nodup) := by
  have hnd := (reachable_invariant st hr).2
  refine ⟨hnd, ?_, ?_, ?_⟩
  · intro i j hij hj heq
    unfold SymbolTable.names at hnd
    unfold SymbolTable.size at hj
    have hi : i < st.values.length := by omega
    have h := (List.nodup_iff_injective_get.mp hnd)
    have hi' : i < (st.values.map StructTuple.symbol).length := by simpa using hi
    have hj' : j < (st.values.map StructTuple.symbol).length := by simpa using hj
    have := @h ⟨i, hi'⟩ ⟨j, hj'⟩ (by
      simp only [List.get_eq_getElem, List.getElem_map]
      rw [List.getD_eq_getElem _ _ hi, List.getD_eq_getElem _ _ hj] at heq
      exact heq)
    simp only [Fin.mk.injEq] at this
    omega
  · intro capacity st0 h
    exact (reachable_invariant st0 (Reachable.create capacity st0 h)).2
  · intro st1 name a h
    exact SymbolTable_addEntry_nodup st1 name a h

/-- Witness for C25: the table after `LOOP` has been added and `LOOP` and `SP`
have been added again. -/
theorem SymbolTable_names_unique_witness :
    (SymbolTable_addEntry (SymbolTable_addEntry (SymbolTable_addEntry ⟨151, predefinedEntries⟩
      "LOOP" 4).2 "LOOP" 7).2 "SP" 1).2.names.Nodup :=
  (SymbolTable_names_unique _
    (Reachable.addEntry _ "SP" 1 (Reachable.addEntry _ "LOOP" 7 (Reachable.addEntry _ "LOOP" 4
      (Reachable.create 128 ⟨151, predefinedEntries⟩ (by decide)))))).1

/-! ## Pass 1 and the symbol table -/

theorem labelEntries_dropBlank (k : Nat) (lines : List String) :
    labelEntries k (lines.dropWhile isBlank) = labelEntries k lines := by
  unfold labelEntries
  rw [labelCounts_dropBlank]

theorem labelCounts_append :
    ∀ (pre : List String) (k : Nat) (rest : List String),
      labelCounts k (pre ++ rest)
        = labelCounts k pre ++ labelCounts (k + instructionCount pre) rest
  | [], k, rest => by simp [labelCounts, instructionCount]
  | x :: pre, k, rest => by
    rw [List.cons_append]
    cases hx : isInstructionLine x with
    | true =>
      have hc : instructionCount (x :: pre) = instructionCount pre + 1 := by
        simp [instructionCount, List.filter_cons, hx]
      have e : k + (instructionCount pre + 1) = k + 1 + instructionCount pre := by omega
      rw [hc, e]
      simp only [labelCounts, hx, if_true]
      exact labelCounts_append pre (k + 1) rest
    | false =>
      have hc : instructionCount (x :: pre) = instructionCount pre := by
        simp [instructionCount, List.filter_cons, hx]
      rw [hc]
      simp only [labelCounts, hx, Bool.false_eq_true, if_false]
      cases hl : isLabelLine x with
      | true => simp only [if_true, List.cons_append, labelCounts_append pre k rest]
      | false =>
        simp only [Bool.false_eq_true, if_false]
        exact labelCounts_append pre k rest

/-- The entries of a program around one of its label declarations. -/
theorem labelEntries_split (pre : List String) (k : Nat) (l : String) (post : List String)
    (n : String) (hl : isLabelLine l = true) (hn : labelName l = some n) :
    labelEntries k (pre ++ l :: post)
      = labelEntries k pre ++
          ⟨n, ((k + instructionCount pre : Nat) : Int)⟩ ::
            labelEntries (k + instructionCount pre) post := by
  have hi : isInstructionLine l = false := by
    simp only [isLabelLine, decide_eq_true_eq] at hl
    simp [isInstructionLine, hl]
  have hc : labelCounts (k + instructionCount pre) (l :: post)
      = (l, k + instructionCount pre) :: labelCounts (k + instructionCount pre) post := by
    simp [labelCounts, hi, hl]
  unfold labelEntries
  rw [labelCounts_append, hc, List.filterMap_append, List.filterMap_cons]
  simp [hn]

/-- The table of pass 1, by induction on the iterations of the loop, whatever
the loop returns: the entries of the table at the start are kept as they are,
and after them stand the entries of the label declarations that have been
processed, in input order, each with a name that the table did not hold; when
the loop returns 0 these are the entries of all label declarations. -/
theorem parseCommandsLoop_table :
    ∀ (fuel : Nat) (s : PassOne) (k : Nat) (code : Int) (s' : PassOne),
      s.parser.source_file.eof = false →
      parseCommandsLoop fuel s k = some (Res.ret code s') →
        ∃ ext, s'.symbol_table.values = s.symbol_table.values ++ ext ∧
          ext <+: labelEntries k s.parser.source_file.lines ∧
          (code = 0 → ext = labelEntries k s.parser.source_file.lines) ∧
          (ext.map StructTuple.symbol).Nodup ∧
          ∀ e ∈ ext, ∀ t ∈ s.symbol_table.values, t.symbol ≠ e.symbol := by
  intro fuel
  induction fuel with
  | zero =>
    intro s k code s' _ h
    simp [parseCommandsLoop] at h
  | succ fuel ih =>
    intro s k code s' heof h
    obtain ⟨⟨⟨lines, eof⟩, cur⟩, st, ca⟩ := s
    simp only at heof ⊢
    subst heof
    unfold parseCommandsLoop at h
    simp only [Parser_hasMoreCommands, Parser_advance, advanceLoop_eq, if_true] at h
    rw [← labelEntries_dropBlank k lines]
    have hleaf : ∀ (entries : List StructTuple) (p : Parser) (c : CommandArray),
        some (Res.ret (-1) (⟨p, st, c⟩ : PassOne)) = some (Res.ret code s') →
        ∃ ext, s'.symbol_table.values = st.values ++ ext ∧ ext <+: entries ∧
          (code = 0 → ext = entries) ∧ (ext.map StructTuple.symbol).Nodup ∧
          ∀ e ∈ ext, ∀ t ∈ st.values, t.symbol ≠ e.symbol := by
      intro entries p c hh
      cases hh
      exact ⟨[], by simp, List.nil_prefix, by intro h0; simp at h0, by simp, by simp⟩
    cases hd : lines.dropWhile isBlank with
    | nil =>
      simp only [hd] at h
      simp only [lt_self_iff_false, if_false, if_true] at h
      cases h
      exact ⟨[], by simp, List.nil_prefix, by intro _; simp [labelEntries, labelCounts],
        by simp, by simp⟩
    | cons l rest =>
      have hb := head_dropWhile_not_blank hd
      simp only [hd, Parser_parseCommand] at h
      cases hp : parseCommandFields (strtrim l) with
      | undefined => simp [hp] at h
      | ret c cmd =>
        obtain ⟨hty, hcode, hshape⟩ := parseCommandFields_ret _ _ _ hp
        rcases hcode with rfl | rfl
        · simp only [hp] at h
          have hinstr : ∀ capacity,
              parseCommandsLoop fuel
                ⟨⟨⟨rest, false⟩, cmd⟩, st, ⟨capacity, ca.commands ++ [cmd]⟩⟩ (k + 1)
                = some (Res.ret code s') →
              (cmd.type = A_COMMAND ∨ cmd.type = C_COMMAND) →
              ∃ ext, s'.symbol_table.values = st.values ++ ext ∧
                ext <+: labelEntries k (l :: rest) ∧
                (code = 0 → ext = labelEntries k (l :: rest)) ∧
                (ext.map StructTuple.symbol).Nodup ∧
                ∀ e ∈ ext, ∀ t ∈ st.values, t.symbol ≠ e.symbol := by
            intro capacity hrec hkind
            obtain ⟨ext, h1, h2, h3, h4, h5⟩ := ih _ _ _ _ rfl hrec
            obtain ⟨_, _, e3⟩ := spec_instruction_line l rest k cmd hb hp hkind
            have e : labelEntries k (l :: rest) = labelEntries (k + 1) rest := by
              unfold labelEntries
              rw [e3]
            rw [e]
            exact ⟨ext, h1, h2, h3, h4, h5⟩
          rcases hshape rfl with ⟨hL, sym, rfl⟩ | ⟨hA, sym, rfl⟩ |
            ⟨hC, comp, ⟨d, rfl⟩ | ⟨j, rfl⟩⟩
          · simp only [Parser_commandType, Parser_symbol] at h
            simp only [lt_self_iff_false, if_false, zero_ne_one, if_true] at h
            by_cases hc : SymbolTable_contains st sym = 0
            · obtain ⟨hidx, hnot⟩ := not_mem_of_contains_zero hc
              by_cases ha : (k : Int) < 32766
              · obtain ⟨capacity, hadd⟩ := SymbolTable_addEntry_new st sym k hidx ha
                simp only [hc, hadd, if_true, lt_self_iff_false, if_false] at h
                obtain ⟨ext, h1, h2, h3, h4, h5⟩ := ih _ _ _ _ rfl h
                obtain ⟨_, _, e3, e4⟩ := spec_label_line l rest k _ hb hp rfl
                have e : labelEntries k (l :: rest) = ⟨sym, k⟩ :: labelEntries k rest := by
                  unfold labelEntries
                  rw [e3, List.filterMap_cons]
                  simp [e4]
                simp only at h1 h2 h3 h5
                rw [e]
                refine ⟨⟨sym, k⟩ :: ext, by rw [h1]; simp, ?_, ?_, ?_, ?_⟩
                · exact (List.prefix_cons_inj _).mpr h2
                · intro h0
                  rw [h3 h0]
                · rw [List.map_cons, List.nodup_cons]
                  refine ⟨?_, h4⟩
                  intro hmem
                  obtain ⟨e0, he0, hs0⟩ := List.mem_map.mp hmem
                  exact h5 e0 he0 ⟨sym, k⟩ (by simp) hs0.symm
                · intro e0 he0 t ht
                  rcases List.mem_cons.mp he0 with rfl | he0
                  · exact hnot t ht
                  · exact h5 e0 he0 t (by simp [ht])
              · simp only [hc, SymbolTable_addEntry_reject st sym k ha, if_true] at h
                exact hleaf _ _ _ (by simpa using h)
            · simp only [hc, if_false] at h
              exact hleaf _ _ _ h
          · obtain ⟨capacity, hcopy⟩ := copyCommand_instruction ca ⟨rest, false⟩ _
              (Or.inl ⟨sym, rfl⟩)
            simp [Parser_commandType, hcopy] at h
            exact hinstr capacity h (Or.inl rfl)
          · obtain ⟨capacity, hcopy⟩ := copyCommand_instruction ca ⟨rest, false⟩ _
              (Or.inr (Or.inl ⟨comp, d, rfl⟩))
            simp [Parser_commandType, hcopy] at h
            exact hinstr capacity h (Or.inr rfl)
          · obtain ⟨capacity, hcopy⟩ := copyCommand_instruction ca ⟨rest, false⟩ _
              (Or.inr (Or.inr ⟨comp, j, rfl⟩))
            simp [Parser_commandType, hcopy] at h
            exact hinstr capacity h (Or.inr rfl)
        · simp only [hp] at h
          exact hleaf _ _ _ (by simpa using h)

/-- What a label declaration with a name stands for: the parser accepts the
line as a label command with this name. -/
theorem parse_of_labelName (l n : String) (hl : isLabelLine l = true)
    (hn : labelName l = some n) :
    isBlank l = false ∧
    parseCommandFields (strtrim l) = Res.ret 0 ⟨some n, none, none, none, L_COMMAND⟩ := by
  have hb : isBlank l = false := by
    cases hb : isBlank l with
    | false => rfl
    | true => simp [(not_instruction_of_blank hb).2] at hl
  have hk : findCommandType (strtrim l) = L_COMMAND := by
    simp only [isLabelLine, decide_eq_true_eq] at hl
    rw [lineKind_of_not_blank hb] at hl
    exact Option.some.inj hl
  refine ⟨hb, ?_⟩
  unfold labelName lineFields at hn
  cases hp : parseCommandFields (strtrim l) with
  | undefined => simp [hp] at hn
  | ret code cmd =>
    obtain ⟨hty, hcode, hshape⟩ := parseCommandFields_ret _ _ _ hp
    rcases hcode with rfl | rfl
    · rcases hshape rfl with ⟨_, sym, rfl⟩ | ⟨hA, _⟩ | ⟨hC, _⟩
      · have hsym : sym = n := by simpa [hp] using hn
        rw [hsym]
      · rw [hty, hk] at hA
        cases hA
      · rw [hty, hk] at hC
        cases hC
    · simp [hp] at hn

/-- The iteration of the loop of `parseCommands` at a label declaration whose
name the table holds: the loop returns -1, with the table and the command
array as they were. -/
theorem parseCommandsLoop_bound_label (fuel : Nat) (cur : ParsedCommand) (st : SymbolTable)
    (ca : CommandArray) (lines : List String) (l : String) (rest : List String) (k : Nat)
    (n : String) (hd : lines.dropWhile isBlank = l :: rest) (hl : isLabelLine l = true)
    (hn : labelName l = some n) (hst : ∃ t ∈ st.values, t.symbol = n) :
    parseCommandsLoop (fuel + 1) ⟨⟨⟨lines, false⟩, cur⟩, st, ca⟩ k
      = some (Res.ret (-1) ⟨⟨⟨rest, false⟩, ⟨some n, none, none, none, L_COMMAND⟩⟩, st, ca⟩) := by
  obtain ⟨_, hp⟩ := parse_of_labelName l n hl hn
  have hc : SymbolTable_contains st n ≠ 0 := by
    intro hc
    obtain ⟨t, ht, hts⟩ := hst
    exact (not_mem_of_contains_zero hc).2 t ht hts
  unfold parseCommandsLoop
  simp only [Parser_hasMoreCommands, Parser_advance, advanceLoop_eq, if_true, hd,
    Parser_parseCommand, hp, Parser_commandType, Parser_symbol, lt_self_iff_false, if_false,
    zero_ne_one, hc]

/-! ## C26: a label declaration for a name that is bound -/

/-- C26. Let a program hold a label declaration whose name is stored in the
table that pass 1 starts with (a predefined symbol) or is declared by a label
declaration earlier in the program, at whatever address.  Then pass 1 does not
succeed: unless an earlier line runs into undefined behaviour, `parseCommands`
returns -1, and the table it leaves is the table at the start followed by
entries of label declarations that stand before the repeated one, so the
existing entries are as they were and no entry is added for the repeated
declaration.  With the table and the command array of `main`, the translation
aborts: `main` returns -1 and has written nothing. -/
theorem parseCommands_rejects_bound_label (lines : List String) (st : SymbolTable)
    (ca : CommandArray) (pre : List String) (l : String) (post : List String) (n : String)
    (hlines : lines = pre ++ l :: post) (hl : isLabelLine l = true)
    (hn : labelName l = some n)
    (hdup : (∃ t ∈ st.values, t.symbol = n) ∨
      ∃ l' ∈ pre, isLabelLine l' = true ∧ labelName l' = some n) :
    (∃ r, parseCommands (Parser_create ⟨lines, false⟩) st ca = some r ∧
      (∀ s, r ≠ Res.ret 0 s) ∧
      (r = Res.undefined ∨
        ∃ s ext, r = Res.ret (-1) s ∧ s.symbol_table.values = st.values ++ ext ∧
          ext <+: labelEntries 0 pre)) ∧
    (st = ⟨151, predefinedEntries⟩ → ca = ⟨128, []⟩ →
      ∀ indeterminate : Int,
        main indeterminate lines = some (Res.ret (-1) []) ∨
          main indeterminate lines = some Res.undefined) := by
  have hex : ∃ r, parseCommands (Parser_create ⟨lines, false⟩) st ca = some r ∧
      (∀ s, r ≠ Res.ret 0 s) ∧
      (r = Res.undefined ∨
        ∃ s ext, r = Res.ret (-1) s ∧ s.symbol_table.values = st.values ++ ext ∧
          ext <+: labelEntries 0 pre) := by
    cases hr : parseCommands (Parser_create ⟨lines, false⟩) st ca with
    | none => exact absurd hr (parseCommands_total _ _ _)
    | some r =>
      have hmain : r = Res.undefined ∨
          ∃ s ext, r = Res.ret (-1) s ∧ s.symbol_table.values = st.values ++ ext ∧
            ext <+: labelEntries 0 pre := by
        cases r with
        | undefined => exact Or.inl rfl
        | ret code s =>
          right
          obtain ⟨ext, h1, h2, h3, h4, h5⟩ := parseCommandsLoop_table _ _ _ _ _ rfl hr
          simp only [Parser_create] at h1 h2 h3 h5
          rw [hlines, labelEntries_split pre 0 l post n hl hn] at h2 h3
          have hnot : ¬ (labelEntries 0 pre ++ [⟨n, ((0 + instructionCount pre : Nat) : Int)⟩])
              <+: ext := by
            intro hpre
            have hsub := hpre.subset
            rcases hdup with ⟨t, ht, hts⟩ | ⟨l', hl', hlab, hname⟩
            · exact h5 ⟨n, ((0 + instructionCount pre : Nat) : Int)⟩ (hsub (by simp)) t ht hts
            · obtain ⟨p1, p2, hp⟩ := List.append_of_mem hl'
              have hmem : (⟨n, ((0 + instructionCount p1 : Nat) : Int)⟩ : StructTuple)
                  ∈ labelEntries 0 pre := by
                rw [hp, labelEntries_split p1 0 l' p2 n hlab hname]
                simp
              have hnd := (hpre.sublist.map StructTuple.symbol).nodup h4
              rw [List.map_append, List.map_cons, List.map_nil] at hnd
              have hdis := List.disjoint_of_nodup_append hnd
              exact hdis (List.mem_map.mpr ⟨_, hmem, rfl⟩) (by simp)
          have hcode : code = -1 := by
            rcases parseCommandsLoop_code _ _ _ _ _ hr with h0 | h0
            · exfalso
              apply hnot
              rw [h3 h0]
              exact ⟨labelEntries (0 + instructionCount pre) post, by simp⟩
            · exact h0
          subst hcode
          refine ⟨s, ext, rfl, h1, ?_⟩
          have hp2 : (labelEntries 0 pre ++ [⟨n, ((0 + instructionCount pre : Nat) : Int)⟩])
              <+: labelEntries 0 pre ++ ⟨n, ((0 + instructionCount pre : Nat) : Int)⟩ ::
                labelEntries (0 + instructionCount pre) post :=
            ⟨labelEntries (0 + instructionCount pre) post, by simp⟩
          rcases List.prefix_or_prefix_of_prefix h2 hp2 with h | h
          · rcases List.prefix_concat_iff.mp h with h | h
            · exact absurd (h ▸ List.prefix_refl _) hnot
            · exact h
          · exact absurd h hnot
      refine ⟨r, rfl, ?_, hmain⟩
      intro s hs
      rcases hmain with h | ⟨s1, ext, h, _⟩
      · rw [h] at hs
        cases hs
      · rw [h] at hs
        cases hs
  refine ⟨hex, ?_⟩
  intro hst hca v
  subst hst hca
  obtain ⟨r, hr, _, hmain⟩ := hex
  have h1 : CommandArray_create 128 = some ⟨128, []⟩ := by decide
  have h2 : SymbolTable_create 128 = some ⟨151, predefinedEntries⟩ := by decide
  unfold main
  simp only [h1, h2, hr]
  rcases hmain with rfl | ⟨s, ext, rfl, _, _⟩
  · exact Or.inr rfl
  · left
    simp

/-- Witness for C26: `(A)` declared twice with the same address, and `(R0)`
declared in a program, each with the table that `SymbolTable_create` returns. -/
theorem parseCommands_rejects_bound_label_witness :
    (∀ indeterminate : Int,
      main indeterminate ["(A)\n", "(A)\n", "@A\n"] = some (Res.ret (-1) [])) ∧
    (∀ indeterminate : Int, main indeterminate ["@1\n", "(R0)\n"] = some (Res.ret (-1) [])) ∧
    ((∃ r, parseCommands (Parser_create ⟨["(A)\n", "(A)\n", "@A\n"], false⟩)
        ⟨151, predefinedEntries⟩ ⟨128, []⟩ = some r ∧
      (∀ s, r ≠ Res.ret 0 s) ∧
      (r = Res.undefined ∨
        ∃ s ext, r = Res.ret (-1) s ∧ s.symbol_table.values = predefinedEntries ++ ext ∧
          ext <+: labelEntries 0 ["(A)\n"])) ∧
     ((⟨151, predefinedEntries⟩ : SymbolTable) = ⟨151, predefinedEntries⟩ →
      (⟨128, []⟩ : CommandArray) = ⟨128, []⟩ →
      ∀ indeterminate : Int,
        main indeterminate ["(A)\n", "(A)\n", "@A\n"] = some (Res.ret (-1) []) ∨
          main indeterminate ["(A)\n", "(A)\n", "@A\n"] = some Res.undefined)) ∧
    ((∃ r, parseCommands (Parser_create ⟨["@1\n", "(R0)\n"], false⟩)
        ⟨151, predefinedEntries⟩ ⟨128, []⟩ = some r ∧
      (∀ s, r ≠ Res.ret 0 s) ∧
      (r = Res.undefined ∨
        ∃ s ext, r = Res.ret (-1) s ∧ s.symbol_table.values = predefinedEntries ++ ext ∧
          ext <+: labelEntries 0 ["@1\n"])) ∧
     ((⟨151, predefinedEntries⟩ : SymbolTable) = ⟨151, predefinedEntries⟩ →
      (⟨128, []⟩ : CommandArray) = ⟨128, []⟩ →
      ∀ indeterminate : Int,
        main indeterminate ["@1\n", "(R0)\n"] = some (Res.ret (-1) []) ∨
          main indeterminate ["@1\n", "(R0)\n"] = some Res.undefined)) :=
  ⟨fun v => by
     rw [main_sign]
     split_ifs
     · set_option maxRecDepth 4096 in decide
     · set_option maxRecDepth 4096 in decide,
   fun v => by
     rw [main_sign]
     split_ifs
     · set_option maxRecDepth 4096 in decide
     · set_option maxRecDepth 4096 in decide,
   parseCommands_rejects_bound_label ["(A)\n", "(A)\n", "@A\n"] ⟨151, predefinedEntries⟩
      ⟨128, []⟩ ["(A)\n"] "(A)\n" ["@A\n"] "A" rfl (by decide) (by decide)
      (Or.inr ⟨"(A)\n", by simp, by decide, by decide⟩),
   parseCommands_rejects_bound_label ["@1\n", "(R0)\n"] ⟨151, predefinedEntries⟩
      ⟨128, []⟩ ["@1\n"] "(R0)\n" [] "R0" rfl (by decide) (by decide)
      (Or.inl ⟨⟨"R0", 0⟩, by decide, rfl⟩)⟩

/-! ## C27: the output of a translation that aborts -/

/-- When the loop of `generateCode` returns -1, it has run through the commands
before the first one whose iteration fails, and the state is the one reached
after them. -/
theorem generateCodeLoop_fail :
    ∀ (cmds : List ParsedCommand) (s s' : PassTwo), generateCodeLoop cmds s = (some (-1), s') →
      ∃ done cmd rest, cmds = done ++ cmd :: rest ∧ generateCodeLoop done s = (none, s') ∧
        generateCommand s' cmd = none
  | [], s, s', h => by
    simp [generateCodeLoop] at h
  | c :: cs, s, s', h => by
    unfold generateCodeLoop at h
    cases hg : generateCommand s c with
    | none =>
      simp only [hg, Prod.mk.injEq, true_and] at h
      subst h
      exact ⟨[], c, cs, rfl, rfl, hg⟩
    | some s1 =>
      simp only [hg] at h
      obtain ⟨done, cmd, rest, hcs, hdone, hfail⟩ := generateCodeLoop_fail cs s1 s' h
      refine ⟨c :: done, cmd, rest, by rw [hcs]; rfl, ?_, hfail⟩
      unfold generateCodeLoop
      simp only [hg]
      exact hdone

/-- C27 (counterexample). The program `@0`, `D=Q` aborts in pass 2 at `D=Q`,
whose computation is not a mnemonic, after the record of `@0` has been written:
the output is not empty. -/
theorem main_abort_output_counterexample :
    (∀ indeterminate : Int, main indeterminate ["@0\n", "D=Q\n"]
      = some (Res.ret (-1) ["0000000000000000\n"])) ∧
    (["0000000000000000\n"] : List String) ≠ [] := by
  refine ⟨fun v => ?_, by decide⟩
  rw [main_sign]
  split_ifs
  · set_option maxRecDepth 4096 in decide
  · set_option maxRecDepth 4096 in decide

/-- C27 (amended). When the translation aborts in pass 1, no record has been
written.  When it aborts in pass 2, the output holds the records of the
instructions that stand before the first instruction whose encoding fails, one
for each in input order, and no record for the failing instruction or for those
after it.  The only other way in which `main` returns -1 is that pass 2 has run
through and `main` has read a negative value where `generateCode` has no
`return`: then no instruction has failed and every record is written. -/
theorem main_abort_output (indeterminate : Int) (lines out : List String)
    (h : main indeterminate lines = some (Res.ret (-1) out)) :
    ((∃ s, parseCommands (Parser_create ⟨lines, false⟩) ⟨151, predefinedEntries⟩ ⟨128, []⟩
        = some (Res.ret (-1) s)) ∧ out = []) ∨
    (∃ s1 s2 done cmd rest,
      parseCommands (Parser_create ⟨lines, false⟩) ⟨151, predefinedEntries⟩ ⟨128, []⟩
        = some (Res.ret 0 s1) ∧
      instructionCommands lines = done ++ cmd :: rest ∧
      generateCode s1.symbol_table s1.command_array = (some (-1), s2) ∧
      generateCodeLoop done ⟨s1.symbol_table, 16, []⟩ = (none, s2) ∧
      generateCommand s2 cmd = none ∧
      out = s2.output_file ∧ out.length = done.length ∧
      List.Forall₂ (Emits s2.symbol_table) done out) ∨
    (∃ s1 s2,
      parseCommands (Parser_create ⟨lines, false⟩) ⟨151, predefinedEntries⟩ ⟨128, []⟩
        = some (Res.ret 0 s1) ∧
      generateCode s1.symbol_table s1.command_array = (none, s2) ∧ indeterminate < 0 ∧
      out = s2.output_file ∧ out.length = instructionCount lines ∧
      List.Forall₂ (Emits s2.symbol_table) (instructionCommands lines) out) := by
  have hca : CommandArray_create 128 = some ⟨128, []⟩ := by decide
  have hst : SymbolTable_create 128 = some ⟨151, predefinedEntries⟩ := by decide
  unfold main at h
  simp only [hca, hst] at h
  cases hp : parseCommands (Parser_create ⟨lines, false⟩) ⟨151, predefinedEntries⟩ ⟨128, []⟩ with
  | none => simp [hp] at h
  | some r =>
    cases r with
    | undefined => simp [hp] at h
    | ret code s1 =>
      simp only [hp] at h
      rcases parseCommandsLoop_code _ _ _ _ _ hp with rfl | rfl
      · right
        simp only [lt_self_iff_false, if_false] at h
        have hne : (⟨151, predefinedEntries⟩ : SymbolTable).values ≠ [] := by decide
        obtain ⟨hc1, hc2, ⟨ext1, hext1⟩, _⟩ := parseCommandsLoop_spec _ _ _ _ rfl hne hp
        simp only [Parser_create, List.nil_append] at hc1 hc2 hext1
        have hne1 : s1.symbol_table.values ≠ [] := by
          rw [hext1]
          simp [hne]
        cases hg : generateCodeLoop s1.command_array.commands ⟨s1.symbol_table, 16, []⟩ with
        | mk c s2 =>
          have hcode := generateCodeLoop_code s1.command_array.commands ⟨s1.symbol_table, 16, []⟩
          rw [hg] at hcode
          unfold generateCode at h ⊢
          rw [hg] at h
          rcases hcode with hcode | hcode
          · right
            simp only at hcode
            subst hcode
            simp only [Option.getD_none] at h
            by_cases hv : indeterminate < 0
            · simp only [hv, if_true, Option.some.injEq, Res.ret.injEq, true_and] at h
              obtain ⟨out1, ext, ho, _, hall⟩ := generateCodeLoop_spec _ _ _ hne1 hg
              simp only [List.nil_append] at ho
              rw [h] at ho
              subst ho
              rw [hc1] at hall
              exact ⟨s1, s2, rfl, hg, hv, h.symm, by rw [← hall.length_eq, hc2], hall⟩
            · simp [hv] at h
          · left
            simp only at hcode
            subst hcode
            have hout : s2.output_file = out := by simpa using h
            obtain ⟨done, cmd, rest, hcmds, hdone, hfail⟩ := generateCodeLoop_fail _ _ _ hg
            obtain ⟨out1, ext, ho, _, hall⟩ := generateCodeLoop_spec _ _ _ hne1 hdone
            simp only [List.nil_append] at ho
            rw [hout] at ho
            subst ho
            rw [hc1] at hcmds
            exact ⟨s1, s2, done, cmd, rest, rfl, hcmds, hg, hdone, hfail, hout.symm,
              hall.length_eq.symm, hall⟩
      · left
        simp only [Int.reduceNeg, Int.reduceLT, if_true, Option.some.injEq, Res.ret.injEq,
          true_and] at h
        exact ⟨⟨s1, rfl⟩, h.symm⟩

/-- Witness for C27 (amended): `@0`, `D=Q` aborts in pass 2 with the record of
`@0` written, and `@0`, `D` aborts in pass 1 with nothing written, whatever
value `main` would read behind the loop of `generateCode`. -/
theorem main_abort_output_witness :
    (∀ indeterminate : Int, main indeterminate ["@0\n", "D=Q\n"]
      = some (Res.ret (-1) ["0000000000000000\n"])) ∧
    (∀ indeterminate : Int, main indeterminate ["@0\n", "D\n"] = some (Res.ret (-1) [])) ∧
    (((∃ s, parseCommands (Parser_create ⟨["@0\n", "D=Q\n"], false⟩) ⟨151, predefinedEntries⟩
          ⟨128, []⟩ = some (Res.ret (-1) s)) ∧ ["0000000000000000\n"] = []) ∨
      (∃ s1 s2 done cmd rest,
        parseCommands (Parser_create ⟨["@0\n", "D=Q\n"], false⟩) ⟨151, predefinedEntries⟩
          ⟨128, []⟩ = some (Res.ret 0 s1) ∧
        instructionCommands ["@0\n", "D=Q\n"] = done ++ cmd :: rest ∧
        generateCode s1.symbol_table s1.command_array = (some (-1), s2) ∧
        generateCodeLoop done ⟨s1.symbol_table, 16, []⟩ = (none, s2) ∧
        generateCommand s2 cmd = none ∧
        ["0000000000000000\n"] = s2.output_file ∧
        ["0000000000000000\n"].length = done.length ∧
        List.Forall₂ (Emits s2.symbol_table) done ["0000000000000000\n"]) ∨
      (∃ s1 s2,
        parseCommands (Parser_create ⟨["@0\n", "D=Q\n"], false⟩) ⟨151, predefinedEntries⟩
          ⟨128, []⟩ = some (Res.ret 0 s1) ∧
        generateCode s1.symbol_table s1.command_array = (none, s2) ∧ (0 : Int) < 0 ∧
        ["0000000000000000\n"] = s2.output_file ∧
        ["0000000000000000\n"].length = instructionCount ["@0\n", "D=Q\n"] ∧
        List.Forall₂ (Emits s2.symbol_table) (instructionCommands ["@0\n", "D=Q\n"])
          ["0000000000000000\n"])) :=
  ⟨fun v => by
     rw [main_sign]
     split_ifs
     · set_option maxRecDepth 4096 in decide
     · set_option maxRecDepth 4096 in decide,
   fun v => by
     rw [main_sign]
     split_ifs
     · set_option maxRecDepth 4096 in decide
     · set_option maxRecDepth 4096 in decide,
   main_abort_output 0 ["@0\n", "D=Q\n"] ["0000000000000000\n"]
     (by set_option maxRecDepth 4096 in decide)⟩

/-! ## C28: the strings that `isMneumonic` accepts -/

/-- C28. For every string, `isMneumonic` returns 1 when the string is equal,
character for character, to one of the 28 computation mnemonics, the 8
destination mnemonics or the 8 jump mnemonics, the empty string of the last two
tables included, and 0 otherwise: 1 for the empty string and for `0`, and 0 for
`jmp` and for `5`. -/
theorem isMneumonic_iff :
    (∀ t : String, isMneumonic t = 1 ↔
      t ∈ [ "0", "1", "-1", "D", "!D", "-D", "D+1", "D-1",
            "A", "!A", "-A", "A+1", "A-1", "D+A", "D-A", "A-D", "D&A", "D|A",
            "M", "!M", "-M", "M+1", "M-1", "D+M", "D-M", "M-D", "D&M", "D|M" ] ∨
      t ∈ [ "M", "D", "MD", "A", "AM", "AD", "AMD", "" ] ∨
      t ∈ [ "JGT", "JEQ", "JGE", "JLT", "JNE", "JLE", "JMP", "" ]) ∧
    (∀ t : String, isMneumonic t = 1 ∨ isMneumonic t = 0) ∧
    COMPUTATION_MNEUMONICS.length = 28 ∧ DESTINATION_MNEUMONICS.length = 8 ∧
    JUMP_MNEUMONICS.length = 8 ∧
    isMneumonic "" = 1 ∧ isMneumonic "0" = 1 ∧ isMneumonic "JMP" = 1 ∧
    isMneumonic "jmp" = 0 ∧ isMneumonic "5" = 0 := by
  refine ⟨?_, ?_, by decide, by decide, by decide, by decide, by decide, by decide,
    by decide, by decide⟩
  · intro t
    show isMneumonic t = 1 ↔
      t ∈ COMPUTATION_MNEUMONICS ∨ t ∈ DESTINATION_MNEUMONICS ∨ t ∈ JUMP_MNEUMONICS
    unfold isMneumonic
    split_ifs with h1 h2 h3
    · simp [h1]
    · simp [h2]
    · simp [h3]
    · simp [h1, h2, h3]
  · intro t
    unfold isMneumonic
    split_ifs <;> simp

/-! ## C29: the address encoding is a bijection -/

theorem binaryValue_lt : ∀ l : List Char, binaryValue l < 2 ^ l.length
  | [] => by simp [binaryValue]
  | c :: t => by
    have ih := binaryValue_lt t
    rw [binaryValue_cons, List.length_cons, pow_succ]
    split <;> omega

theorem binary_digit_add (b k v i : Nat) (hi : i < k) :
    binary_digit (b * 2 ^ k + v) i = binary_digit v i := by
  rw [binary_digit_eq, binary_digit_eq]
  have h2 : 2 ^ k = 2 ^ i * (2 * 2 ^ (k - i - 1)) := by
    rw [← pow_succ', ← pow_add]
    congr 1
    omega
  have h3 : b * 2 ^ k + v = 2 ^ i * (2 * (b * 2 ^ (k - i - 1))) + v := by
    rw [h2]
    ring
  rw [h3, Nat.mul_add_div (by positivity), Nat.mul_add_mod]

/-- The digits that the loop of `numToBinary` stores for the value of a string
of binary digits are the string itself. -/
theorem digits_of_binaryValue :
    ∀ l : List Char, IsBinary l →
      (List.range l.length).reverse.map (binary_digit (binaryValue l)) = l
  | [], _ => rfl
  | c :: t, h => by
    have hc : c = '0' ∨ c = '1' := h c (List.mem_cons_self c t)
    have ht : IsBinary t := fun x hx => h x (List.mem_cons_of_mem c hx)
    have ih := digits_of_binaryValue t ht
    have hlt := binaryValue_lt t
    rw [List.length_cons, List.range_succ, List.reverse_append, List.reverse_singleton,
      List.singleton_append, List.map_cons, binaryValue_cons]
    congr 1
    · rw [binary_digit_eq, Nat.add_comm, Nat.add_mul_div_right _ _ (by positivity),
        Nat.div_eq_of_lt hlt]
      rcases hc with rfl | rfl <;> simp
    · refine Eq.trans (List.map_congr_left ?_) ih
      intro i hi
      simp only [List.mem_reverse, List.mem_range] at hi
      exact binary_digit_add _ _ _ _ hi

/-- C29. The address encoding is a bijection between the values 0 to 32767 and
the strings of 15 binary digits: for the decimal string of every such value
`generateAInstruction` stores `0` and 15 binary digits whose value, read most
significant digit first, is the input value; different values give different
outputs; and every string of 15 binary digits is stored for exactly one value,
the number that it denotes. -/
theorem address_encoding_bijective (buf : Buffer) (hbuf : 17 ≤ buf.length) :
    (∀ n : Nat, n ≤ 32767 → ∃ bits,
      generateAInstruction (sprintf_ld n) buf = some ('0' :: bits ++ NUL :: buf.drop 17) ∧
      bits.length = 15 ∧ IsBinary bits ∧ binaryValue bits = n) ∧
    (∀ n m : Nat, n ≤ 32767 → m ≤ 32767 → n ≠ m →
      generateAInstruction (sprintf_ld n) buf ≠ generateAInstruction (sprintf_ld m) buf) ∧
    (∀ bits : List Char, bits.length = 15 → IsBinary bits →
      ∃ n : Nat, n ≤ 32767 ∧ n = binaryValue bits ∧
        generateAInstruction (sprintf_ld n) buf = some ('0' :: bits ++ NUL :: buf.drop 17) ∧
        ∀ m : Nat, m ≤ 32767 →
          generateAInstruction (sprintf_ld m) buf = some ('0' :: bits ++ NUL :: buf.drop 17) →
          m = n) := by
  have hdig : ∀ n m : Nat, n ≤ 32767 → m ≤ 32767 →
      (List.range 15).reverse.map (binary_digit n) = (List.range 15).reverse.map (binary_digit m) →
      n = m := by
    intro n m hn hm h
    have hv := congrArg binaryValue h
    rw [binaryValue_map_digits, binaryValue_map_digits] at hv
    omega
  refine ⟨?_, ?_, ?_⟩
  · intro n hn
    refine ⟨(List.range 15).reverse.map (binary_digit n),
      generateAInstruction_sprintf n hn buf hbuf, by simp, digits_isBinary n 15, ?_⟩
    rw [binaryValue_map_digits]
    exact Nat.mod_eq_of_lt (by omega)
  · intro n m hn hm hne heq
    rw [generateAInstruction_sprintf n hn buf hbuf, generateAInstruction_sprintf m hm buf hbuf]
      at heq
    have h1 := List.cons.inj (Option.some.inj heq)
    exact hne (hdig n m hn hm (List.append_inj_left h1.2 (by simp)))
  · intro bits hlen hbin
    have hlt := binaryValue_lt bits
    rw [hlen] at hlt
    have hn : binaryValue bits ≤ 32767 := by omega
    have hd := digits_of_binaryValue bits hbin
    rw [hlen] at hd
    refine ⟨binaryValue bits, hn, rfl, ?_, ?_⟩
    · rw [generateAInstruction_sprintf _ hn buf hbuf, hd]
    · intro m hm heq
      rw [generateAInstruction_sprintf m hm buf hbuf, ← hd] at heq
      have h1 := List.cons.inj (Option.some.inj heq)
      exact hdig m _ hm hn (List.append_inj_left h1.2 (by simp))

/-- Witness for C29 on the buffer of `generateCode`: the values 5 and 32767 and
the string `000000000000101`. -/
theorem address_encoding_bijective_witness :
    17 ≤ binary_instruction_init.length ∧
    generateAInstruction (sprintf_ld 5) binary_instruction_init
      = some ("0000000000000101".toList ++ [NUL, NUL]) ∧
    generateAInstruction (sprintf_ld 32767) binary_instruction_init
      = some ("0111111111111111".toList ++ [NUL, NUL]) ∧
    (∃ n : Nat, n ≤ 32767 ∧ n = binaryValue "000000000000101".toList ∧
      generateAInstruction (sprintf_ld n) binary_instruction_init
        = some ('0' :: "000000000000101".toList ++ NUL :: binary_instruction_init.drop 17) ∧
      ∀ m : Nat, m ≤ 32767 →
        generateAInstruction (sprintf_ld m) binary_instruction_init
          = some ('0' :: "000000000000101".toList ++ NUL :: binary_instruction_init.drop 17) →
        m = n) :=
  ⟨by decide, by decide, by decide,
    (address_encoding_bijective binary_instruction_init (by decide)).2.2
      "000000000000101".toList (by decide) (by unfold IsBinary; decide)⟩

/-! ## Two calls of `strtok` with one delimiter -/

/-- Two fields: after delimiters, a field `a`, a delimiter, further delimiters
and a field `b` that the end of the string or a delimiter follows.  The first
call returns `a`, the second call returns `b`. -/
theorem strtok_two_tokens (d : Char) (hd : d ≠ NUL) (skip1 a skip2 b : List Char) (y : Char)
    (rest : List Char) (hskip1 : ∀ c ∈ skip1, c = d) (hskip2 : ∀ c ∈ skip2, c = d)
    (ha : a ≠ []) (ha' : ∀ c ∈ a, c ≠ NUL ∧ c ≠ d)
    (hb : b ≠ []) (hb' : ∀ c ∈ b, c ≠ NUL ∧ c ≠ d) (hy : y = NUL ∨ y = d) :
    strtok (skip1 ++ (a ++ d :: (skip2 ++ (b ++ y :: rest)))) 0 [d]
      = (some skip1.length, skip1 ++ (a ++ NUL :: (skip2 ++ (b ++ y :: rest))),
          skip1.length + a.length + 1) ∧
    strtok (skip1 ++ (a ++ NUL :: (skip2 ++ (b ++ y :: rest)))) (skip1.length + a.length + 1) [d]
      = (some (skip1.length + a.length + 1 + skip2.length),
          skip1 ++ (a ++ NUL :: (skip2 ++ (b ++ NUL :: rest))),
          skip1.length + a.length + 1 + skip2.length + b.length
            + (if y = NUL then 0 else 1)) ∧
    cstrAt (skip1 ++ (a ++ NUL :: (skip2 ++ (b ++ NUL :: rest)))) skip1.length = ⟨a⟩ ∧
    cstrAt (skip1 ++ (a ++ NUL :: (skip2 ++ (b ++ NUL :: rest))))
      (skip1.length + a.length + 1 + skip2.length) = ⟨b⟩ := by
  have hs1 : ∀ c ∈ skip1, c ≠ NUL ∧ c ∈ [d] := fun c hc => by
    rw [hskip1 c hc]; exact ⟨hd, by simp⟩
  have hs2 : ∀ c ∈ skip2, c ≠ NUL ∧ c ∈ [d] := fun c hc => by
    rw [hskip2 c hc]; exact ⟨hd, by simp⟩
  have hae : ∀ c ∈ a, c ≠ NUL ∧ c ∉ [d] := fun c hc =>
    ⟨(ha' c hc).1, not_mem_delim_of_ne (ha' c hc).2⟩
  have hbe : ∀ c ∈ b, c ≠ NUL ∧ c ∉ [d] := fun c hc =>
    ⟨(hb' c hc).1, not_mem_delim_of_ne (hb' c hc).2⟩
  refine ⟨?_, ?_, ?_, ?_⟩
  · have h := strtok_some [] skip1 a d (skip2 ++ (b ++ y :: rest)) [d] hs1 hae ha
      (Or.inr (by simp))
    simpa [hd] using h
  · have h := strtok_some (skip1 ++ (a ++ [NUL])) skip2 b y rest [d] hs2 hbe hb
      (hy.imp id (fun h => by rw [h]; simp))
    have e : (skip1 ++ (a ++ [NUL])).length = skip1.length + a.length + 1 := by
      simp only [List.length_append, List.length_singleton]
      omega
    rw [e] at h
    simpa only [List.append_assoc, List.singleton_append] using h
  · exact cstrAt_token skip1 a _ (fun c hc => (ha' c hc).1)
  · have h := cstrAt_token (skip1 ++ (a ++ NUL :: skip2)) b rest (fun c hc => (hb' c hc).1)
    have e : (skip1 ++ (a ++ NUL :: skip2)).length
        = skip1.length + a.length + 1 + skip2.length := by
      simp only [List.length_append, List.length_cons]
      omega
    rw [e] at h
    simpa only [List.append_assoc, List.cons_append] using h

/-- One field that the end of the string follows: the first call returns the
field, the second call returns `NULL`, and the buffer is not changed. -/
theorem strtok_one_token (d : Char) (skip1 a rest : List Char)
    (hskip1 : ∀ c ∈ skip1, c ≠ NUL ∧ c = d) (ha : a ≠ []) (ha' : ∀ c ∈ a, c ≠ NUL ∧ c ≠ d) :
    strtok (skip1 ++ (a ++ NUL :: rest)) 0 [d]
      = (some skip1.length, skip1 ++ (a ++ NUL :: rest), skip1.length + a.length) ∧
    strtok (skip1 ++ (a ++ NUL :: rest)) (skip1.length + a.length) [d]
      = (none, skip1 ++ (a ++ NUL :: rest), skip1.length + a.length) := by
  have hs1 : ∀ c ∈ skip1, c ≠ NUL ∧ c ∈ [d] := fun c hc =>
    ⟨(hskip1 c hc).1, by rw [(hskip1 c hc).2]; simp⟩
  have hae : ∀ c ∈ a, c ≠ NUL ∧ c ∉ [d] := fun c hc =>
    ⟨(ha' c hc).1, not_mem_delim_of_ne (ha' c hc).2⟩
  have hnil : ∀ c ∈ ([] : List Char), c ≠ NUL ∧ c ∈ [d] := by
    intro c hc
    cases hc
  refine ⟨?_, ?_⟩
  · have h := strtok_some [] skip1 a NUL rest [d] hs1 hae ha (Or.inl rfl)
    simpa using h
  · have h := strtok_none (skip1 ++ a) [] rest [d] hnil
    simpa only [List.nil_append, List.length_append, List.length_nil, Nat.add_zero,
      List.append_assoc] using h

/-- One field that delimiters and the end of the string follow: the first call
returns the field and ends it in place of the first delimiter, the second call
returns `NULL`. -/
theorem strtok_one_token_delim (d : Char) (hd : d ≠ NUL) (skip1 a skip2 rest : List Char)
    (hskip1 : ∀ c ∈ skip1, c = d) (hskip2 : ∀ c ∈ skip2, c = d)
    (ha : a ≠ []) (ha' : ∀ c ∈ a, c ≠ NUL ∧ c ≠ d) :
    strtok (skip1 ++ (a ++ d :: (skip2 ++ NUL :: rest))) 0 [d]
      = (some skip1.length, skip1 ++ (a ++ NUL :: (skip2 ++ NUL :: rest)),
          skip1.length + a.length + 1) ∧
    strtok (skip1 ++ (a ++ NUL :: (skip2 ++ NUL :: rest))) (skip1.length + a.length + 1) [d]
      = (none, skip1 ++ (a ++ NUL :: (skip2 ++ NUL :: rest)),
          skip1.length + a.length + 1 + skip2.length) := by
  have hs1 : ∀ c ∈ skip1, c ≠ NUL ∧ c ∈ [d] := fun c hc => by
    rw [hskip1 c hc]; exact ⟨hd, by simp⟩
  have hs2 : ∀ c ∈ skip2, c ≠ NUL ∧ c ∈ [d] := fun c hc => by
    rw [hskip2 c hc]; exact ⟨hd, by simp⟩
  have hae : ∀ c ∈ a, c ≠ NUL ∧ c ∉ [d] := fun c hc =>
    ⟨(ha' c hc).1, not_mem_delim_of_ne (ha' c hc).2⟩
  refine ⟨?_, ?_⟩
  · have h := strtok_some [] skip1 a d (skip2 ++ NUL :: rest) [d] hs1 hae ha (Or.inr (by simp))
    simpa [hd] using h
  · have h := strtok_none (skip1 ++ (a ++ [NUL])) skip2 rest [d] hs2
    have e : (skip1 ++ (a ++ [NUL])).length = skip1.length + a.length + 1 := by
      simp only [List.length_append, List.length_singleton]
      omega
    rw [e] at h
    simpa only [List.append_assoc, List.singleton_append] using h

/-- No field: on a string of delimiters both calls return `NULL`. -/
theorem strtok_no_token (d : Char) (hd : d ≠ NUL) (skip rest : List Char)
    (hskip : ∀ c ∈ skip, c = d) :
    strtok (skip ++ NUL :: rest) 0 [d] = (none, skip ++ NUL :: rest, skip.length) ∧
    strtok (skip ++ NUL :: rest) skip.length [d] = (none, skip ++ NUL :: rest, skip.length) := by
  have hs : ∀ c ∈ skip, c ≠ NUL ∧ c ∈ [d] := fun c hc => by
    rw [hskip c hc]; exact ⟨hd, by simp⟩
  have hnil : ∀ c ∈ ([] : List Char), c ≠ NUL ∧ c ∈ [d] := by
    intro c hc
    cases hc
  refine ⟨?_, ?_⟩
  · have h := strtok_none [] skip rest [d] hs
    simpa using h
  · have h := strtok_none skip [] rest [d] hnil
    simpa using h

/-- A string without delimiter: the first call returns the whole string, the
second call returns `NULL`. -/
theorem strtok_whole (d : Char) (p rest : List Char) (hp : p ≠ [])
    (hp' : ∀ c ∈ p, c ≠ NUL ∧ c ≠ d) :
    strtok (p ++ NUL :: rest) 0 [d] = (some 0, p ++ NUL :: rest, p.length) ∧
    strtok (p ++ NUL :: rest) p.length [d] = (none, p ++ NUL :: rest, p.length) := by
  have hnil : ∀ c ∈ ([] : List Char), c ≠ NUL ∧ c = d := by
    intro c hc
    cases hc
  have h := strtok_one_token d [] p rest hnil hp hp'
  simpa only [List.nil_append, List.length_nil, Nat.zero_add] using h

/-! ## C30: the compute lines that the parser accepts -/

/-- The `=` form: a line that holds, after `=` characters, a field `a`, one or
more `=`, a field `b`, and then its end or another `=`, is parsed with
destination `a` and computation `b`, when `a` holds no `;`. -/
theorem parseCommandFields_dest_comp (command : String) (skip1 a skip2 b : List Char)
    (y : Char) (rest : List Char) (hty : findCommandType command = C_COMMAND)
    (hbuf : command.toList ++ [NUL] = skip1 ++ (a ++ '=' :: (skip2 ++ (b ++ y :: rest))))
    (hskip1 : ∀ c ∈ skip1, c = '=') (hskip2 : ∀ c ∈ skip2, c = '=')
    (ha : a ≠ []) (ha' : ∀ c ∈ a, c ≠ NUL ∧ c ≠ '=' ∧ c ≠ ';')
    (hb : b ≠ []) (hb' : ∀ c ∈ b, c ≠ NUL ∧ c ≠ '=') (hy : y = NUL ∨ y = '=') :
    parseCommandFields command
      = Res.ret 0 ⟨none, some ⟨a⟩, some ⟨b⟩, none, C_COMMAND⟩ := by
  have hsa : ∀ c ∈ skip1 ++ a, c ≠ NUL ∧ c ≠ ';' := by
    intro c hc
    rcases List.mem_append.mp hc with h | h
    · rw [hskip1 c h]; exact ⟨by decide, by decide⟩
    · exact ⟨(ha' c h).1, (ha' c h).2.2⟩
  obtain ⟨t1, t2, c1, c2⟩ := strtok_two_tokens '=' (by decide) skip1 a skip2 b y rest hskip1
    hskip2 ha (fun c hc => ⟨(ha' c hc).1, (ha' c hc).2.1⟩) hb hb' hy
  obtain ⟨t3, t4⟩ := strtok_whole ';' (skip1 ++ a) (skip2 ++ (b ++ NUL :: rest)) (by simp [ha])
    hsa
  simp only [List.append_assoc] at t3 t4
  unfold parseCommandFields
  simp only [hty, hbuf, t1, t2, t3, t4, c1, c2, ParsedCommand_free]

/-- The `;` form: a line without `=` that holds, after `;` characters, a field
`a`, one or more `;`, a field `b`, and then its end or another `;`, is parsed
with computation `a` and jump `b`. -/
theorem parseCommandFields_comp_jump (command : String) (skip1 a skip2 b : List Char)
    (y : Char) (rest : List Char) (hty : findCommandType command = C_COMMAND)
    (hbuf : command.toList ++ [NUL] = skip1 ++ (a ++ ';' :: (skip2 ++ (b ++ y :: rest))))
    (hline : ∀ c ∈ command.toList, c ≠ NUL ∧ c ≠ '=')
    (hskip1 : ∀ c ∈ skip1, c = ';') (hskip2 : ∀ c ∈ skip2, c = ';')
    (ha : a ≠ []) (ha' : ∀ c ∈ a, c ≠ NUL ∧ c ≠ ';')
    (hb : b ≠ []) (hb' : ∀ c ∈ b, c ≠ NUL ∧ c ≠ ';') (hy : y = NUL ∨ y = ';') :
    parseCommandFields command
      = Res.ret 0 ⟨none, none, some ⟨a⟩, some ⟨b⟩, C_COMMAND⟩ := by
  have hne : command.toList ≠ [] := by
    intro h
    rw [h] at hbuf
    have hlen := congrArg List.length hbuf
    simp at hlen
    omega
  obtain ⟨t1, t2⟩ := strtok_whole '=' command.toList [] hne hline
  obtain ⟨t3, t4, c1, c2⟩ := strtok_two_tokens ';' (by decide) skip1 a skip2 b y rest hskip1
    hskip2 ha ha' hb hb' hy
  rw [← hbuf] at t3
  unfold parseCommandFields
  simp only [hty, t1, t2, t3, t4, c1, c2, ParsedCommand_free]

/-- A single field between `=` characters, in a line without `;`: rejected. -/
theorem parseCommandFields_single_eq (command : String) (skip1 a skip2 : List Char)
    (hty : findCommandType command = C_COMMAND)
    (hline : command.toList = skip1 ++ (a ++ skip2))
    (hskip1 : ∀ c ∈ skip1, c = '=') (hskip2 : ∀ c ∈ skip2, c = '=')
    (ha : a ≠ []) (ha' : ∀ c ∈ a, c ≠ NUL ∧ c ≠ '=' ∧ c ≠ ';') :
    parseCommandFields command = Res.ret (-1) ⟨none, none, none, none, C_COMMAND⟩ := by
  have hsa : ∀ c ∈ skip1 ++ a, c ≠ NUL ∧ c ≠ ';' := by
    intro c hc
    rcases List.mem_append.mp hc with h | h
    · rw [hskip1 c h]; exact ⟨by decide, by decide⟩
    · exact ⟨(ha' c h).1, (ha' c h).2.2⟩
  have hae : ∀ c ∈ a, c ≠ NUL ∧ c ≠ '=' := fun c hc => ⟨(ha' c hc).1, (ha' c hc).2.1⟩
  cases skip2 with
  | nil =>
    have hbuf : command.toList ++ [NUL] = skip1 ++ (a ++ NUL :: []) := by
      rw [hline]; simp
    obtain ⟨t1, t2⟩ := strtok_one_token '=' skip1 a []
      (fun c hc => by rw [hskip1 c hc]; exact ⟨by decide, rfl⟩) ha hae
    obtain ⟨t3, t4⟩ := strtok_whole ';' (skip1 ++ a) [] (by simp [ha]) hsa
    simp only [List.append_assoc] at t3 t4
    unfold parseCommandFields
    simp only [hty, hbuf, t1, t2, t3, t4, ParsedCommand_free]
  | cons x s2 =>
    have hx : x = '=' := hskip2 x (List.mem_cons_self x s2)
    subst hx
    have hbuf : command.toList ++ [NUL] = skip1 ++ (a ++ '=' :: (s2 ++ NUL :: [])) := by
      rw [hline]; simp
    obtain ⟨t1, t2⟩ := strtok_one_token_delim '=' (by decide) skip1 a s2 [] hskip1
      (fun c hc => hskip2 c (List.mem_cons_of_mem _ hc)) ha hae
    obtain ⟨t3, t4⟩ := strtok_whole ';' (skip1 ++ a) (s2 ++ NUL :: []) (by simp [ha]) hsa
    simp only [List.append_assoc] at t3 t4
    unfold parseCommandFields
    simp only [hty, hbuf, t1, t2, t3, t4, ParsedCommand_free]

/-- A single field between `;` characters, in a line without `=`: rejected. -/
theorem parseCommandFields_single_semicolon (command : String) (skip1 a skip2 : List Char)
    (hty : findCommandType command = C_COMMAND)
    (hline : command.toList = skip1 ++ (a ++ skip2))
    (hskip1 : ∀ c ∈ skip1, c = ';') (hskip2 : ∀ c ∈ skip2, c = ';')
    (ha : a ≠ []) (ha' : ∀ c ∈ a, c ≠ NUL ∧ c ≠ '=' ∧ c ≠ ';') :
    parseCommandFields command = Res.ret (-1) ⟨none, none, none, none, C_COMMAND⟩ := by
  have hall : ∀ c ∈ command.toList, c ≠ NUL ∧ c ≠ '=' := by
    intro c hc
    rw [hline] at hc
    rcases List.mem_append.mp hc with h | h
    · rw [hskip1 c h]; exact ⟨by decide, by decide⟩
    · rcases List.mem_append.mp h with h | h
      · exact ⟨(ha' c h).1, (ha' c h).2.1⟩
      · rw [hskip2 c h]; exact ⟨by decide, by decide⟩
  have hne : command.toList ≠ [] := by
    rw [hline]; simp [ha]
  have hae : ∀ c ∈ a, c ≠ NUL ∧ c ≠ ';' := fun c hc => ⟨(ha' c hc).1, (ha' c hc).2.2⟩
  obtain ⟨t1, t2⟩ := strtok_whole '=' command.toList [] hne hall
  cases skip2 with
  | nil =>
    have hbuf : command.toList ++ [NUL] = skip1 ++ (a ++ NUL :: []) := by
      rw [hline]; simp
    obtain ⟨t3, t4⟩ := strtok_one_token ';' skip1 a []
      (fun c hc => by rw [hskip1 c hc]; exact ⟨by decide, rfl⟩) ha hae
    rw [← hbuf] at t3 t4
    unfold parseCommandFields
    simp only [hty, t1, t2, t3, t4, ParsedCommand_free]
  | cons x s2 =>
    have hx : x = ';' := hskip2 x (List.mem_cons_self x s2)
    subst hx
    have hbuf : command.toList ++ [NUL] = skip1 ++ (a ++ ';' :: (s2 ++ NUL :: [])) := by
      rw [hline]; simp
    obtain ⟨t3, t4⟩ := strtok_one_token_delim ';' (by decide) skip1 a s2 [] hskip1
      (fun c hc => hskip2 c (List.mem_cons_of_mem _ hc)) ha hae
    rw [← hbuf] at t3
    unfold parseCommandFields
    simp only [hty, t1, t2, t3, t4, ParsedCommand_free]

/-- A line of `=` characters only, or of `;` characters only: rejected. -/
theorem parseCommandFields_delimiters_only (k : Nat) :
    parseCommandFields ⟨List.replicate (k + 1) '='⟩
      = Res.ret (-1) ⟨none, none, none, none, C_COMMAND⟩ ∧
    parseCommandFields ⟨List.replicate (k + 1) ';'⟩
      = Res.ret (-1) ⟨none, none, none, none, C_COMMAND⟩ := by
  constructor
  · have hty : findCommandType ⟨List.replicate (k + 1) '='⟩ = C_COMMAND := by
      simp [findCommandType, List.replicate_succ]
    have hbuf : (String.mk (List.replicate (k + 1) '=')).toList ++ [NUL]
        = List.replicate (k + 1) '=' ++ NUL :: [] := rfl
    obtain ⟨t1, t2⟩ := strtok_no_token '=' (by decide) (List.replicate (k + 1) '=') []
      (fun c hc => List.eq_of_mem_replicate hc)
    obtain ⟨t3, t4⟩ := strtok_whole ';' (List.replicate (k + 1) '=') [] (by simp)
      (fun c hc => by rw [List.eq_of_mem_replicate hc]; exact ⟨by decide, by decide⟩)
    unfold parseCommandFields
    simp only [hty, hbuf, t1, t2, t3, t4, ParsedCommand_free]
  · have hty : findCommandType ⟨List.replicate (k + 1) ';'⟩ = C_COMMAND := by
      simp [findCommandType, List.replicate_succ]
    have hbuf : (String.mk (List.replicate (k + 1) ';')).toList ++ [NUL]
        = List.replicate (k + 1) ';' ++ NUL :: [] := rfl
    obtain ⟨t1, t2⟩ := strtok_whole '=' (List.replicate (k + 1) ';') [] (by simp)
      (fun c hc => by rw [List.eq_of_mem_replicate hc]; exact ⟨by decide, by decide⟩)
    obtain ⟨t3, t4⟩ := strtok_no_token ';' (by decide) (List.replicate (k + 1) ';') []
      (fun c hc => List.eq_of_mem_replicate hc)
    unfold parseCommandFields
    simp only [hty, hbuf, t1, t2, t3, t4, ParsedCommand_free]

/-- C30 (the code at the failing input). The lines `D=M=A`, `D==M`, `=D=M` and
`0;JMP;JEQ` are classified as compute instructions and accepted, not rejected
as malformed: the first three with destination `D` and computation `M`, the
last with computation `0` and jump `JMP`; the rest of the text is dropped, and
the programs are translated like `D=M` and `0;JMP`. -/
theorem Parser_parseCommand_drops_text :
    findCommandType "D=M=A" = C_COMMAND ∧ findCommandType "D==M" = C_COMMAND ∧
    findCommandType "=D=M" = C_COMMAND ∧ findCommandType "0;JMP;JEQ" = C_COMMAND ∧
    Parser_parseCommand (Parser_create ⟨[], false⟩) "D=M=A"
      = Res.ret 0 { Parser_create ⟨[], false⟩ with
          current_command := ⟨none, some "D", some "M", none, C_COMMAND⟩ } ∧
    Parser_parseCommand (Parser_create ⟨[], false⟩) "D==M"
      = Res.ret 0 { Parser_create ⟨[], false⟩ with
          current_command := ⟨none, some "D", some "M", none, C_COMMAND⟩ } ∧
    Parser_parseCommand (Parser_create ⟨[], false⟩) "=D=M"
      = Res.ret 0 { Parser_create ⟨[], false⟩ with
          current_command := ⟨none, some "D", some "M", none, C_COMMAND⟩ } ∧
    Parser_parseCommand (Parser_create ⟨[], false⟩) "0;JMP;JEQ"
      = Res.ret 0 { Parser_create ⟨[], false⟩ with
          current_command := ⟨none, none, some "0", some "JMP", C_COMMAND⟩ } ∧
    (∀ indeterminate : Int, main indeterminate ["D=M=A\n"]
      = some (Res.ret (if indeterminate < 0 then -1 else 0) ["1111110000010000\n"])) ∧
    (∀ indeterminate : Int, main indeterminate ["D=M\n"]
      = some (Res.ret (if indeterminate < 0 then -1 else 0) ["1111110000010000\n"])) ∧
    (∀ indeterminate : Int, main indeterminate ["0;JMP;JEQ\n"]
      = some (Res.ret (if indeterminate < 0 then -1 else 0) ["1110101010000111\n"])) ∧
    (∀ indeterminate : Int, main indeterminate ["0;JMP\n"]
      = some (Res.ret (if indeterminate < 0 then -1 else 0) ["1110101010000111\n"])) := by
  refine ⟨by decide, by decide, by decide, by decide, by decide, by decide, by decide,
    by decide, fun v => ?_, fun v => ?_, fun v => ?_, fun v => ?_⟩
  · rw [main_sign]
    split_ifs
    · set_option maxRecDepth 4096 in decide
    · set_option maxRecDepth 4096 in decide
  · rw [main_sign]
    split_ifs
    · set_option maxRecDepth 4096 in decide
    · set_option maxRecDepth 4096 in decide
  · rw [main_sign]
    split_ifs
    · set_option maxRecDepth 4096 in decide
    · set_option maxRecDepth 4096 in decide
  · rw [main_sign]
    split_ifs
    · set_option maxRecDepth 4096 in decide
    · set_option maxRecDepth 4096 in decide

/-- The defect of C30 for every line: the compute branch takes the first two
tokens and looks at nothing else.  Let `a` and `b` be non-empty fields without
`=` and `;`.  A compute line that holds, after any number of `=`, the field
`a`, one or more `=`, the field `b`, and then its end or an `=` with any
further text, is accepted with destination `a` and computation `b`; a compute
line without `=` that holds, after any number of `;`, the field `a`, one or
more `;`, the field `b`, and then its end or a `;` with further text, is
accepted with computation `a` and jump `b`.  The branch for malformed commands
is reached by a compute line with the single field `a` between delimiters of
one kind, and by a line of delimiters of one kind only. -/
theorem parseCommand_first_two_tokens (parser : Parser) (a b : List Char) (i j : Nat)
    (rest : List Char) (ha : a ≠ []) (hb : b ≠ [])
    (ha' : ∀ c ∈ a, c ≠ NUL ∧ c ≠ '=' ∧ c ≠ ';') (hb' : ∀ c ∈ b, c ≠ NUL ∧ c ≠ '=' ∧ c ≠ ';')
    (hrest : ∀ c ∈ rest, c ≠ NUL) :
    (findCommandType ⟨List.replicate i '=' ++ (a ++ (List.replicate (j + 1) '=' ++ (b ++ rest)))⟩
        = C_COMMAND →
      (rest = [] ∨ rest.head? = some '=') →
      Parser_parseCommand parser
          ⟨List.replicate i '=' ++ (a ++ (List.replicate (j + 1) '=' ++ (b ++ rest)))⟩
        = Res.ret 0 { parser with
            current_command := ⟨none, some ⟨a⟩, some ⟨b⟩, none, C_COMMAND⟩ }) ∧
    (findCommandType ⟨List.replicate i ';' ++ (a ++ (List.replicate (j + 1) ';' ++ (b ++ rest)))⟩
        = C_COMMAND →
      (rest = [] ∨ rest.head? = some ';') → '=' ∉ rest →
      Parser_parseCommand parser
          ⟨List.replicate i ';' ++ (a ++ (List.replicate (j + 1) ';' ++ (b ++ rest)))⟩
        = Res.ret 0 { parser with
            current_command := ⟨none, none, some ⟨a⟩, some ⟨b⟩, C_COMMAND⟩ }) ∧
    (findCommandType ⟨List.replicate i '=' ++ (a ++ List.replicate j '=')⟩ = C_COMMAND →
      Parser_parseCommand parser ⟨List.replicate i '=' ++ (a ++ List.replicate j '=')⟩
        = Res.ret (-1) { parser with
            current_command := ⟨none, none, none, none, C_COMMAND⟩ }) ∧
    (findCommandType ⟨List.replicate i ';' ++ (a ++ List.replicate j ';')⟩ = C_COMMAND →
      Parser_parseCommand parser ⟨List.replicate i ';' ++ (a ++ List.replicate j ';')⟩
        = Res.ret (-1) { parser with
            current_command := ⟨none, none, none, none, C_COMMAND⟩ }) ∧
    Parser_parseCommand parser ⟨List.replicate (i + 1) '='⟩
      = Res.ret (-1) { parser with current_command := ⟨none, none, none, none, C_COMMAND⟩ } ∧
    Parser_parseCommand parser ⟨List.replicate (i + 1) ';'⟩
      = Res.ret (-1) { parser with current_command := ⟨none, none, none, none, C_COMMAND⟩ } := by
  have hrep : ∀ (d : Char) (n : Nat), ∀ c ∈ List.replicate n d, c = d :=
    fun d n c hc => List.eq_of_mem_replicate hc
  have hsplit : ∀ (d : Char) (r : List Char), (r = [] ∨ r.head? = some d) →
      ∃ y r1, (y = NUL ∨ y = d) ∧ r ++ [NUL] = y :: r1 := by
    intro d r hr
    rcases hr with rfl | hr
    · exact ⟨NUL, [], Or.inl rfl, rfl⟩
    · cases r with
      | nil => simp at hr
      | cons c r1 =>
        simp only [List.head?_cons, Option.some.injEq] at hr
        exact ⟨d, r1 ++ [NUL], Or.inr rfl, by rw [hr]; rfl⟩
  refine ⟨?_, ?_, ?_, ?_, ?_, ?_⟩
  · intro hty hr
    obtain ⟨y, r1, hy, hyr⟩ := hsplit '=' rest hr
    have h := parseCommandFields_dest_comp _ (List.replicate i '=') a (List.replicate j '=') b y
      r1 hty (by simp [List.replicate_succ, hyr]) (hrep _ _) (hrep _ _) ha ha' hb
      (fun c hc => ⟨(hb' c hc).1, (hb' c hc).2.1⟩) hy
    unfold Parser_parseCommand
    rw [h]
  · intro hty hr hnoeq
    obtain ⟨y, r1, hy, hyr⟩ := hsplit ';' rest hr
    have hall : ∀ c ∈ (String.mk (List.replicate i ';' ++
        (a ++ (List.replicate (j + 1) ';' ++ (b ++ rest))))).toList, c ≠ NUL ∧ c ≠ '=' := by
      intro c hc
      simp only [String.toList, List.mem_append] at hc
      rcases hc with h | h | h | h | h
      · rw [hrep _ _ c h]; exact ⟨by decide, by decide⟩
      · exact ⟨(ha' c h).1, (ha' c h).2.1⟩
      · rw [hrep _ _ c h]; exact ⟨by decide, by decide⟩
      · exact ⟨(hb' c h).1, (hb' c h).2.1⟩
      · exact ⟨hrest c h, fun he => hnoeq (he ▸ h)⟩
    have h := parseCommandFields_comp_jump _ (List.replicate i ';') a (List.replicate j ';') b y
      r1 hty (by simp [List.replicate_succ, hyr]) hall (hrep _ _) (hrep _ _) ha
      (fun c hc => ⟨(ha' c hc).1, (ha' c hc).2.2⟩) hb
      (fun c hc => ⟨(hb' c hc).1, (hb' c hc).2.2⟩) hy
    unfold Parser_parseCommand
    rw [h]
  · intro hty
    have h := parseCommandFields_single_eq _ (List.replicate i '=') a (List.replicate j '=') hty
      rfl (hrep _ _) (hrep _ _) ha ha'
    unfold Parser_parseCommand
    rw [h]
  · intro hty
    have h := parseCommandFields_single_semicolon _ (List.replicate i ';') a
      (List.replicate j ';') hty rfl (hrep _ _) (hrep _ _) ha ha'
    unfold Parser_parseCommand
    rw [h]
  · unfold Parser_parseCommand
    rw [(parseCommandFields_delimiters_only i).1]
  · unfold Parser_parseCommand
    rw [(parseCommandFields_delimiters_only i).2]

/-- Instances of `parseCommand_first_two_tokens`: the fields `D` and `M` in
`=D==M=A`, the fields `0` and `JMP` in `0;JMP;JEQ`, and the rejected lines `D=`
and `;JMP`. -/
theorem parseCommand_first_two_tokens_instances :
    Parser_parseCommand (Parser_create ⟨[], false⟩)
        ⟨List.replicate 1 '=' ++ (['D'] ++ (List.replicate (1 + 1) '=' ++ (['M'] ++ ['=', 'A'])))⟩
      = Res.ret 0 { Parser_create ⟨[], false⟩ with
          current_command := ⟨none, some "D", some "M", none, C_COMMAND⟩ } ∧
    Parser_parseCommand (Parser_create ⟨[], false⟩)
        ⟨List.replicate 0 ';' ++ (['0'] ++ (List.replicate (0 + 1) ';' ++
          (['J', 'M', 'P'] ++ [';', 'J', 'E', 'Q'])))⟩
      = Res.ret 0 { Parser_create ⟨[], false⟩ with
          current_command := ⟨none, none, some "0", some "JMP", C_COMMAND⟩ } ∧
    Parser_parseCommand (Parser_create ⟨[], false⟩)
        ⟨List.replicate 0 '=' ++ (['D'] ++ List.replicate 1 '=')⟩
      = Res.ret (-1) { Parser_create ⟨[], false⟩ with
          current_command := ⟨none, none, none, none, C_COMMAND⟩ } ∧
    Parser_parseCommand (Parser_create ⟨[], false⟩)
        ⟨List.replicate 1 ';' ++ (['J', 'M', 'P'] ++ List.replicate 0 ';')⟩
      = Res.ret (-1) { Parser_create ⟨[], false⟩ with
          current_command := ⟨none, none, none, none, C_COMMAND⟩ } :=
  ⟨(parseCommand_first_two_tokens (Parser_create ⟨[], false⟩) ['D'] ['M'] 1 1 ['=', 'A']
      (by decide) (by decide) (by decide) (by decide) (by decide)).1 (by decide)
      (Or.inr rfl),
   (parseCommand_first_two_tokens (Parser_create ⟨[], false⟩) ['0'] ['J', 'M', 'P'] 0 0
      [';', 'J', 'E', 'Q'] (by decide) (by decide) (by decide) (by decide)
      (by decide)).2.1 (by decide) (Or.inr rfl) (by decide),
   (parseCommand_first_two_tokens (Parser_create ⟨[], false⟩) ['D'] ['M'] 0 1 []
      (by decide) (by decide) (by decide) (by decide) (by decide)).2.2.1 (by decide),
   (parseCommand_first_two_tokens (Parser_create ⟨[], false⟩) ['J', 'M', 'P'] ['M'] 1 0 []
      (by decide) (by decide) (by decide) (by decide) (by decide)).2.2.2.1 (by decide)⟩

/-! ## C35: `strtrim` removes every whitespace character -/

/-- The loop of `strtrim` on a zeroed buffer with room for the characters left
and one byte more: the characters that are kept are stored in order from the
index on, and a zero byte follows them. -/
theorem strtrimLoop_spec :
    ∀ (str front : List Char) (k : Nat),
      ∃ tail, strtrimLoop str (front ++ List.replicate (str.length + k + 1) NUL) front.length
        = front ++ (str.filter (fun c => !isspace c) ++ NUL :: tail)
  | [], front, k => ⟨List.replicate k NUL, by simp [strtrimLoop, List.replicate_succ]⟩
  | c :: rest, front, k => by
    cases hc : isspace c with
    | false =>
      obtain ⟨tail, ih⟩ := strtrimLoop_spec rest (front ++ [c]) k
      refine ⟨tail, ?_⟩
      have hbuf : (front ++ List.replicate ((c :: rest).length + k + 1) NUL).set front.length c
          = (front ++ [c]) ++ List.replicate (rest.length + k + 1) NUL := by
        have e : (c :: rest).length + k + 1 = (rest.length + k + 1) + 1 := by
          simp only [List.length_cons]
          omega
        rw [e, List.replicate_succ, set_length_append]
        simp
      have hlen : front.length + 1 = (front ++ [c]).length := by simp
      simp only [strtrimLoop, hc, if_true, hbuf, hlen, ih]
      simp [List.filter_cons, hc]
    | true =>
      obtain ⟨tail, ih⟩ := strtrimLoop_spec rest front (k + 1)
      refine ⟨tail, ?_⟩
      have e : (c :: rest).length + k + 1 = rest.length + (k + 1) + 1 := by
        simp only [List.length_cons]
        omega
      simp only [strtrimLoop, hc, Bool.true_eq_false, if_false, e, ih]
      simp [List.filter_cons, hc]

/-- C35. For every string, `strtrim` returns the string with every whitespace
character removed, wherever it stands: the buffer that the loop fills holds
the characters of the string that are not whitespace, in their order; the
result holds no whitespace, is empty exactly when every character of the
string is whitespace (an empty string included), and trimming it again
changes nothing; `D = M` becomes `D=M`. -/
theorem strtrim_spec (s : String) (hnul : NUL ∉ s.toList) :
    strtrimBuffer s = strtrim s ∧
    (strtrim s).toList = s.toList.filter (fun c => !isspace c) ∧
    (strtrim s).toList.Sublist s.toList ∧
    (∀ c ∈ (strtrim s).toList, isspace c = false) ∧
    (∀ c, isspace c = false → (strtrim s).toList.count c = s.toList.count c) ∧
    (strtrim s = "" ↔ ∀ c ∈ s.toList, isspace c = true) ∧
    strtrim (strtrim s) = strtrim s ∧
    strtrim "D = M" = "D=M" := by
  refine ⟨?_, rfl, ?_, ?_, ?_, ?_, ?_, by decide⟩
  · obtain ⟨tail, h⟩ := strtrimLoop_spec s.toList [] 0
    unfold strtrimBuffer strtrim
    simp only [List.nil_append, List.length_nil, Nat.add_zero] at h
    rw [h]
    have hc := cstrAt_token [] (s.toList.filter (fun c => !isspace c)) tail
      (fun c hc heq => hnul (heq ▸ (List.mem_filter.mp hc).1))
    simpa using hc
  · exact List.filter_sublist _
  · intro c hc
    have h := (List.mem_filter.mp hc).2
    simpa using h
  · intro c hc
    show (s.toList.filter (fun c => !isspace c)).count c = _
    rw [List.count_filter]
    simp [hc]
  · constructor
    · intro h c hc
      have hl : s.toList.filter (fun c => !isspace c) = [] := by
        have := congrArg String.toList h
        simpa [strtrim] using this
      have hall := List.filter_eq_nil_iff.mp hl c hc
      simpa using hall
    · intro h
      unfold strtrim
      have hl : s.toList.filter (fun c => !isspace c) = [] := by
        apply List.filter_eq_nil_iff.mpr
        intro c hc
        simp [h c hc]
      rw [hl]
  · unfold strtrim
    simp [List.filter_filter]

/-- Witness for C35: the line ` D = M` with a tab and a line end. -/
theorem strtrim_spec_witness :
    NUL ∉ " D =\tM \r\n".toList ∧ strtrim " D =\tM \r\n" = "D=M" ∧
    strtrimBuffer " D =\tM \r\n" = strtrim " D =\tM \r\n" :=
  ⟨by decide, by decide, (strtrim_spec " D =\tM \r\n" (by decide)).1⟩

/-! ## C36: the strings that `isNum` accepts -/

/-- C36 (the code at the failing input). `isNum` returns 1 for the empty
string, whose loop has no iteration, and `generateAInstruction` encodes the
empty string as the address 0.  For every string, `isNum` returns 1 exactly
when every character is a decimal digit, and 0 otherwise; a string for which
it returns 0 is rejected by `generateAInstruction`. -/
theorem isNum_empty :
    isNum "" = 1 ∧
    generateAInstruction "" binary_instruction_init
      = some ("0000000000000000".toList ++ [NUL, NUL]) ∧
    (∀ s : String, isNum s = 1 ↔ ∀ c ∈ s.toList, isdigit c = true) ∧
    (∀ s : String, isNum s = 1 ∨ isNum s = 0) ∧
    (∀ (s : String) (buf : Buffer), isNum s = 0 → generateAInstruction s buf = none) ∧
    isNum "12" = 1 ∧ isNum "1a" = 0 ∧ isNum "-1" = 0 ∧ isNum " 1" = 0 := by
  refine ⟨by decide, by decide, ?_, ?_, ?_, by decide, by decide, by decide, by decide⟩
  · intro s
    unfold isNum
    split_ifs with h
    · simpa using h
    · simp only [List.all_eq_true] at h
      exact ⟨fun h1 => by simp at h1, fun h2 => absurd h2 h⟩
  · intro s
    unfold isNum
    split_ifs <;> simp
  · intro s buf h
    simp [generateAInstruction, numToBinary, h]

/-! ## C31: the fields of a compute instruction -/

theorem parse_of_lineFields (l : String) (cmd : ParsedCommand) (h : lineFields l = some cmd) :
    parseCommandFields (strtrim l) = Res.ret 0 cmd := by
  unfold lineFields at h
  cases hp : parseCommandFields (strtrim l) with
  | undefined => simp [hp] at h
  | ret code cur =>
    rcases (parseCommandFields_ret _ _ _ hp).2.1 with rfl | rfl
    · simp only [hp, Option.some.injEq] at h
      rw [h]
    · simp [hp] at h

/-- An accepted compute command has its computation and exactly one of
destination and jump, and no symbol. -/
theorem computeFields_of_parse (command : String) (cur : ParsedCommand)
    (h : parseCommandFields command = Res.ret 0 cur) (hty : cur.type = C_COMMAND) :
    ComputeFields cur ∧ cur.symbol = none := by
  rcases (parseCommandFields_ret _ _ _ h).2.2 rfl with ⟨hL, _⟩ | ⟨hA, _⟩ |
    ⟨_, comp, ⟨d, rfl⟩ | ⟨j, rfl⟩⟩
  · rw [hty] at hL
    cases hL
  · rw [hty] at hA
    cases hA
  · exact ⟨⟨by simp, Or.inl ⟨by simp, rfl⟩⟩, rfl⟩
  · exact ⟨⟨by simp, Or.inr ⟨rfl, by simp⟩⟩, rfl⟩

/-- C31. Every compute instruction that `Parser_parseCommand` accepts has its
computation and exactly one of destination and jump; `CommandArray_copyCommand`
appends it to the command array with the same fields; and so, after a pass 1
that succeeds, every compute entry of the command array, which is what pass 2
hands to `generateCInstruction`, has a computation and a destination or a
jump, as the encoder requires. -/
theorem compute_fields_invariant (lines : List String) (st : SymbolTable) (ca : CommandArray)
    (s : PassOne) (hst : 0 < st.size)
    (hca : ∀ cmd ∈ ca.commands, cmd.type = C_COMMAND → ComputeFields cmd)
    (h : parseCommands (Parser_create ⟨lines, false⟩) st ca = some (Res.ret 0 s)) :
    (∀ (parser parser' : Parser) (command : String),
      Parser_parseCommand parser command = Res.ret 0 parser' →
      parser'.current_command.type = C_COMMAND →
      ComputeFields parser'.current_command ∧
      ∀ command_array : CommandArray, ∃ capacity,
        CommandArray_copyCommand command_array parser'
          = Res.ret 0 ⟨capacity, command_array.commands ++ [parser'.current_command]⟩) ∧
    (∀ cmd ∈ s.command_array.commands, cmd.type = C_COMMAND →
      ComputeFields cmd ∧ cmd.computation ≠ none ∧
        (cmd.destination ≠ none ∨ cmd.jump ≠ none)) := by
  have hguard : ∀ cmd : ParsedCommand, ComputeFields cmd →
      ComputeFields cmd ∧ cmd.computation ≠ none ∧
        (cmd.destination ≠ none ∨ cmd.jump ≠ none) := by
    intro cmd hc
    refine ⟨hc, hc.1, ?_⟩
    rcases hc.2 with h1 | h1
    · exact Or.inl h1.1
    · exact Or.inr h1.2
  constructor
  · intro parser parser' command hp hty
    unfold Parser_parseCommand at hp
    cases hf : parseCommandFields command with
    | undefined => simp [hf] at hp
    | ret code cur =>
      simp only [hf, Res.ret.injEq] at hp
      obtain ⟨hcode, hpar⟩ := hp
      subst hcode
      subst hpar
      simp only at hty ⊢
      refine ⟨(computeFields_of_parse command cur hf hty).1, ?_⟩
      intro command_array
      rcases (parseCommandFields_ret _ _ _ hf).2.2 rfl with ⟨hL, _⟩ | ⟨hA, _⟩ |
        ⟨_, comp, ⟨d, rfl⟩ | ⟨j, rfl⟩⟩
      · rw [hty] at hL
        cases hL
      · rw [hty] at hA
        cases hA
      · exact copyCommand_instruction command_array parser.source_file _
          (Or.inr (Or.inl ⟨comp, d, rfl⟩))
      · exact copyCommand_instruction command_array parser.source_file _
          (Or.inr (Or.inr ⟨comp, j, rfl⟩))
  · intro cmd hmem hty
    have hne : st.values ≠ [] := List.length_pos.mp hst
    obtain ⟨hc, _, _, _⟩ := parseCommandsLoop_spec _ _ _ _ rfl hne h
    simp only [Parser_create] at hc
    rw [hc] at hmem
    rcases List.mem_append.mp hmem with hm | hm
    · exact hguard cmd (hca cmd hm hty)
    · unfold instructionCommands at hm
      obtain ⟨l, _, hl⟩ := List.mem_filterMap.mp hm
      exact hguard cmd (computeFields_of_parse _ cmd (parse_of_lineFields l cmd hl) hty).1

/-- Witness for C31: the compute entries of `D=M / @2 / 0;JMP`. -/
theorem compute_fields_invariant_witness :
    parseCommands (Parser_create ⟨["D=M\n", "@2\n", "0;JMP\n"], false⟩)
        ⟨151, predefinedEntries⟩ ⟨128, []⟩
      = some (Res.ret 0
          ⟨⟨⟨[], true⟩, ⟨none, none, some "0", some "JMP", C_COMMAND⟩⟩,
           ⟨151, predefinedEntries⟩,
           ⟨128, [⟨none, some "D", some "M", none, C_COMMAND⟩,
             ⟨some "2", none, none, none, A_COMMAND⟩,
             ⟨none, none, some "0", some "JMP", C_COMMAND⟩]⟩⟩) ∧
    ∀ cmd ∈ [(⟨none, some "D", some "M", none, C_COMMAND⟩ : ParsedCommand),
        ⟨some "2", none, none, none, A_COMMAND⟩,
        ⟨none, none, some "0", some "JMP", C_COMMAND⟩],
      cmd.type = C_COMMAND →
        ComputeFields cmd ∧ cmd.computation ≠ none ∧
          (cmd.destination ≠ none ∨ cmd.jump ≠ none) :=
  ⟨by decide,
    (compute_fields_invariant ["D=M\n", "@2\n", "0;JMP\n"] ⟨151, predefinedEntries⟩ ⟨128, []⟩
      ⟨⟨⟨[], true⟩, ⟨none, none, some "0", some "JMP", C_COMMAND⟩⟩,
       ⟨151, predefinedEntries⟩,
       ⟨128, [⟨none, some "D", some "M", none, C_COMMAND⟩,
         ⟨some "2", none, none, none, A_COMMAND⟩,
         ⟨none, none, some "0", some "JMP", C_COMMAND⟩]⟩⟩
      (by decide) (by simp) (by decide)).2⟩

/-! ## C32: pass 2 and the symbol table -/

/-- One iteration of the loop of `generateCode` that writes a record: the table
is as it was, or the target of an address instruction, for which the table had
no entry, has been appended with the next variable address. -/
theorem generateCommand_table (s s' : PassTwo) (cmd : ParsedCommand)
    (h : generateCommand s cmd = some s') :
    (s'.symbol_table = s.symbol_table ∧ s'.next_variable_address = s.next_variable_address) ∨
    (∃ capacity symbol, cmd.type = A_COMMAND ∧ cmd.symbol = some symbol ∧
      isMneumonic symbol ≠ 1 ∧ (∀ t ∈ s.symbol_table.values, t.symbol ≠ symbol) ∧
      s.next_variable_address < 32766 ∧
      s'.symbol_table
        = ⟨capacity, s.symbol_table.values ++ [⟨symbol, s.next_variable_address⟩]⟩ ∧
      s'.next_variable_address = s.next_variable_address + 1) := by
  unfold generateCommand at h
  cases hty : cmd.type with
  | A_COMMAND =>
    simp only [hty] at h
    cases hsym : cmd.symbol with
    | none => simp [hsym] at h
    | some symbol =>
      simp only [hsym] at h
      by_cases hm : isMneumonic symbol = 1
      · simp only [hm, if_true] at h
        cases hg : generateAInstruction symbol binary_instruction_init with
        | none => simp [hg] at h
        | some b =>
          simp only [hg, Option.some.injEq] at h
          subst h
          exact Or.inl ⟨rfl, rfl⟩
      · simp only [hm, if_false] at h
        by_cases hc : SymbolTable_contains s.symbol_table symbol = 1
        · simp only [hc, if_true] at h
          cases hg : generateAInstruction
              (sprintf_ld (SymbolTable_getAddress s.symbol_table symbol))
              binary_instruction_init with
          | none => simp [hg] at h
          | some b =>
            simp only [hg, Option.some.injEq] at h
            subst h
            exact Or.inl ⟨rfl, rfl⟩
        · simp only [hc, if_false] at h
          by_cases hr : (SymbolTable_addEntry s.symbol_table symbol
              s.next_variable_address).1 < 0
          · simp [hr] at h
          · simp only [hr, if_false] at h
            obtain ⟨hidx, ha⟩ := SymbolTable_addEntry_of_not_contains _ _ _ hc hr
            obtain ⟨capacity, hadd⟩ := SymbolTable_addEntry_new _ _ _ hidx ha
            cases hg : generateAInstruction (sprintf_ld s.next_variable_address)
                binary_instruction_init with
            | none => simp [hg] at h
            | some b =>
              simp only [hg, hadd, Option.some.injEq] at h
              subst h
              right
              exact ⟨capacity, symbol, rfl, rfl, hm,
                getValueIndexFrom_neg symbol _ 0 hidx, by omega, rfl, rfl⟩
  | C_COMMAND =>
    simp only [hty] at h
    cases hg : generateCInstruction cmd.destination cmd.computation cmd.jump
        binary_instruction_init with
    | none => simp [hg] at h
    | some b =>
      simp only [hg, Option.some.injEq] at h
      subst h
      exact Or.inl ⟨rfl, rfl⟩
  | L_COMMAND =>
    simp only [hty, Option.some.injEq] at h
    subst h
    exact Or.inl ⟨rfl, rfl⟩
  | NONE_COMMAND =>
    simp only [hty, Option.some.injEq] at h
    subst h
    exact Or.inl ⟨rfl, rfl⟩

/-- An iteration that allocates a variable does not fail behind the call of
`SymbolTable_addEntry`: when the call succeeds the address is below 32766 and
the encoder accepts it.  So the table of an iteration that returns -1 is the
table before the iteration. -/
theorem generateCommand_variable (s : PassTwo) (symbol : String)
    (h : ¬ (SymbolTable_addEntry s.symbol_table symbol s.next_variable_address).1 < 0) :
    generateAInstruction (sprintf_ld s.next_variable_address) binary_instruction_init
      ≠ none := by
  have ha : (s.next_variable_address : Int) < 32766 := by
    by_contra hn
    rw [SymbolTable_addEntry_reject _ _ _ hn] at h
    simp at h
  have hn : s.next_variable_address ≤ 32767 := by omega
  rw [generateAInstruction_sprintf _ hn _ binary_instruction_init_length]
  simp

/-- The table of pass 2, by induction on the commands, whatever the loop
returns: the entries at the start are kept, and behind them stand the targets
of address instructions for which there was no entry, each name once. -/
theorem generateCodeLoop_table :
    ∀ (cmds : List ParsedCommand) (s : PassTwo),
      ∃ ext, (generateCodeLoop cmds s).2.symbol_table.values = s.symbol_table.values ++ ext ∧
        (ext.map StructTuple.symbol).Nodup ∧
        (∀ e ∈ ext, ∀ t ∈ s.symbol_table.values, t.symbol ≠ e.symbol) ∧
        (∀ e ∈ ext, ∃ cmd ∈ cmds, cmd.type = A_COMMAND ∧ cmd.symbol = some e.symbol) ∧
        (∀ e ∈ ext, (s.next_variable_address : Int) ≤ e.address ∧ e.address < 32766)
  | [], s => ⟨[], by simp [generateCodeLoop], by simp, by simp, by simp, by simp⟩
  | cmd :: rest, s => by
    unfold generateCodeLoop
    cases hg : generateCommand s cmd with
    | none => exact ⟨[], by simp, by simp, by simp, by simp, by simp⟩
    | some s1 =>
      simp only
      obtain ⟨ext, h1, h2, h3, h4, h5⟩ := generateCodeLoop_table rest s1
      rcases generateCommand_table s s1 cmd hg with ⟨ht, hnv⟩ |
        ⟨capacity, symbol, hty, hsym, _, hnew, hlt, ht, hnv⟩
      · rw [ht] at h1 h3
        rw [hnv] at h5
        refine ⟨ext, h1, h2, h3, ?_, h5⟩
        intro e he
        obtain ⟨c, hc, hc'⟩ := h4 e he
        exact ⟨c, List.mem_cons_of_mem _ hc, hc'⟩
      · rw [ht] at h1 h3
        simp only at h1 h3
        refine ⟨⟨symbol, s.next_variable_address⟩ :: ext, by rw [h1]; simp, ?_, ?_, ?_, ?_⟩
        · rw [List.map_cons, List.nodup_cons]
          refine ⟨?_, h2⟩
          intro hmem
          obtain ⟨e0, he0, hs0⟩ := List.mem_map.mp hmem
          exact h3 e0 he0 ⟨symbol, s.next_variable_address⟩ (by simp) hs0.symm
        · intro e he t ht'
          rcases List.mem_cons.mp he with rfl | he
          · exact hnew t ht'
          · exact h3 e he t (by simp [ht'])
        · intro e he
          rcases List.mem_cons.mp he with rfl | he
          · exact ⟨cmd, List.mem_cons_self _ _, hty, hsym⟩
          · obtain ⟨c, hc, hc'⟩ := h4 e he
            exact ⟨c, List.mem_cons_of_mem _ hc, hc'⟩
        · intro e he
          rcases List.mem_cons.mp he with rfl | he
          · exact ⟨le_refl _, by simp only; omega⟩
          · have := h5 e he
            rw [hnv] at this
            exact ⟨by omega, this.2⟩

/-- C32. Pass 2 only appends to the symbol table.  For every command array and
every table at the start, whether `generateCode` returns -1 or runs through
all commands, the table
afterwards is the table at the start followed by new entries: every entry of
the start keeps its name, its address and its position, and every new entry
is the target of an address instruction for which the table had no entry,
each name once, with a variable address from 16 on. -/
theorem generateCode_appends (symbol_table : SymbolTable) (command_array : CommandArray) :
    ∃ ext,
      (generateCode symbol_table command_array).2.symbol_table.values
        = symbol_table.values ++ ext ∧
      (∀ i : Nat, i < symbol_table.size →
        (generateCode symbol_table command_array).2.symbol_table.values.get? i
          = symbol_table.values.get? i) ∧
      (ext.map StructTuple.symbol).Nodup ∧
      (∀ e ∈ ext, ∀ t ∈ symbol_table.values, t.symbol ≠ e.symbol) ∧
      (∀ e ∈ ext, ∃ cmd ∈ command_array.commands,
        cmd.type = A_COMMAND ∧ cmd.symbol = some e.symbol) ∧
      (∀ e ∈ ext, 16 ≤ e.address ∧ e.address < 32766) := by
  obtain ⟨ext, h1, h2, h3, h4, h5⟩ :=
    generateCodeLoop_table command_array.commands ⟨symbol_table, 16, []⟩
  refine ⟨ext, h1, ?_, h2, h3, h4, h5⟩
  intro i hi
  unfold generateCode
  rw [h1]
  simp only [List.get?_eq_getElem?]
  exact List.getElem?_append_left hi

/-! ## The token that `strtok` returns is not empty -/

theorem drop_takeWhile_length (p : Char → Bool) :
    ∀ l : List Char, l.drop (l.takeWhile p).length = l.dropWhile p
  | [] => rfl
  | c :: r => by
    cases hc : p c with
    | true => simp [List.takeWhile_cons, List.dropWhile_cons, hc, drop_takeWhile_length p r]
    | false => simp [List.takeWhile_cons, List.dropWhile_cons, hc]

theorem at_eq_headD_drop : ∀ (buf : Buffer) (i : Nat), buf.at i = (buf.drop i).headD NUL
  | [], i => by simp [Buffer.at]
  | c :: r, 0 => rfl
  | c :: r, i + 1 => by
    have ih := at_eq_headD_drop r i
    simp [Buffer.at] at ih ⊢

theorem cstrAt_ne_empty (buf : Buffer) (t : Nat) (c : Char) (rest : List Char)
    (h : buf.drop t = c :: rest) (hc : c ≠ NUL) : cstrAt buf t ≠ "" := by
  unfold cstrAt
  rw [h]
  have hp : (c != NUL) = true := by simpa using hc
  simp only [List.takeWhile_cons, hp, if_true]
  intro heq
  have := congrArg String.toList heq
  simp at this

theorem drop_set_succ (x : Char) :
    ∀ (l : List Char) (i k : Nat) (c : Char) (r : List Char), l.drop i = c :: r →
      (l.set (i + (k + 1)) x).drop i = c :: r.set k x
  | [], i, k, c, r, h => by simp at h
  | a :: l, 0, k, c, r, h => by
    simp only [List.drop_zero, List.cons.injEq] at h
    obtain ⟨rfl, rfl⟩ := h
    simp
  | a :: l, i + 1, k, c, r, h => by
    have ih := drop_set_succ x l i k c r (by simpa using h)
    have e : i + 1 + (k + 1) = (i + (k + 1)) + 1 := by omega
    rw [e]
    simpa using ih

/-- Whenever `strtok` returns a token, the token is not empty: it starts with a
character that is neither the terminator nor a delimiter. -/
theorem strtok_token_nonempty (buf : Buffer) (s : Nat) (delim : List Char) (t : Nat)
    (buf' : Buffer) (s' : Nat) (h : strtok buf s delim = (some t, buf', s')) :
    cstrAt buf' t ≠ "" := by
  unfold strtok at h
  simp only at h
  have key : ¬ buf.at (s + ((buf.drop s).takeWhile
        (fun c => c != NUL && decide (c ∈ delim))).length) = NUL →
      ∃ c rest, buf.drop (s + ((buf.drop s).takeWhile
        (fun c => c != NUL && decide (c ∈ delim))).length) = c :: rest ∧ c ≠ NUL ∧
        c ∉ delim := by
    intro h1
    have hdrop : buf.drop (s + ((buf.drop s).takeWhile
        (fun c => c != NUL && decide (c ∈ delim))).length)
        = (buf.drop s).dropWhile (fun c => c != NUL && decide (c ∈ delim)) := by
      rw [← List.drop_drop]
      exact drop_takeWhile_length _ _
    rw [at_eq_headD_drop, hdrop] at h1
    cases hD : (buf.drop s).dropWhile (fun c => c != NUL && decide (c ∈ delim)) with
    | nil => simp [hD] at h1
    | cons c rest =>
      have hc : c ≠ NUL := by simpa [hD] using h1
      have hp1 := List.head_dropWhile_not (fun c => c != NUL && decide (c ∈ delim))
        (buf.drop s) (by rw [hD]; simp)
      simp only [hD, List.head_cons] at hp1
      refine ⟨c, rest, by rw [hdrop, hD], hc, ?_⟩
      intro hmem
      simp [hc, hmem] at hp1
  split_ifs at h with h1 h2
  · cases h
  · obtain ⟨c, rest, hdrop, hc, _⟩ := key h1
    simp only [Prod.mk.injEq, Option.some.injEq] at h
    obtain ⟨ht, hb, _⟩ := h
    subst ht
    subst hb
    exact cstrAt_ne_empty _ _ c rest hdrop hc
  · obtain ⟨c, rest, hdrop, hc, hnd⟩ := key h1
    simp only [Prod.mk.injEq, Option.some.injEq] at h
    obtain ⟨ht, hb, _⟩ := h
    subst ht
    subst hb
    have hp2 : (c != NUL && !decide (c ∈ delim)) = true := by simp [hc, hnd]
    rw [hdrop]
    simp only [List.takeWhile_cons, hp2, if_true, List.length_cons]
    exact cstrAt_ne_empty _ _ c _ (drop_set_succ NUL buf _ _ c rest hdrop) hc

/-- The first token of a string: `strtok` skips the leading delimiters and
returns the characters up to the next delimiter; it returns `NULL` exactly when
the string holds delimiters only. -/
theorem strtok_first (l delim : List Char) (hnul : NUL ∉ l) :
    (l.dropWhile (fun c => decide (c ∈ delim)) = [] →
      strtok (l ++ [NUL]) 0 delim = (none, l ++ [NUL], l.length)) ∧
    (l.dropWhile (fun c => decide (c ∈ delim)) ≠ [] →
      ∃ buf' s',
        strtok (l ++ [NUL]) 0 delim
          = (some (l.takeWhile (fun c => decide (c ∈ delim))).length, buf', s') ∧
        cstrAt buf' (l.takeWhile (fun c => decide (c ∈ delim))).length
          = String.mk ((l.dropWhile (fun c => decide (c ∈ delim))).takeWhile
              (fun c => !decide (c ∈ delim))) ∧
        (l.dropWhile (fun c => decide (c ∈ delim))).takeWhile
          (fun c => !decide (c ∈ delim)) ≠ []) := by
  have hl := @List.takeWhile_append_dropWhile _ (fun c => decide (c ∈ delim)) l
  have hskip : ∀ c ∈ l.takeWhile (fun c => decide (c ∈ delim)), c ≠ NUL ∧ c ∈ delim := by
    intro c hc
    refine ⟨fun h => hnul (h ▸ ((List.takeWhile_sublist _).subset hc)), ?_⟩
    have := List.mem_takeWhile_imp hc
    simpa using this
  constructor
  · intro hd
    rw [hd, List.append_nil] at hl
    have h := strtok_none [] (l.takeWhile (fun c => decide (c ∈ delim))) [] delim hskip
    rw [hl] at h
    simpa using h
  · intro hd
    obtain ⟨c, r, hcr⟩ := List.exists_cons_of_ne_nil hd
    have hpc := List.head_dropWhile_not (fun c => decide (c ∈ delim)) l (by rw [hcr]; simp)
    simp only [hcr, List.head_cons] at hpc
    have hrest := @List.takeWhile_append_dropWhile _ (fun c => !decide (c ∈ delim)) (c :: r)
    have hsub : ∀ x ∈ c :: r, x ∈ l := by
      intro x hx
      rw [← hl, hcr]
      exact List.mem_append_right _ hx
    have htok : ∀ x ∈ (c :: r).takeWhile (fun c => !decide (c ∈ delim)),
        x ≠ NUL ∧ x ∉ delim := by
      intro x hx
      refine ⟨fun h => hnul (h ▸ hsub x ((List.takeWhile_sublist _).subset hx)), ?_⟩
      have := List.mem_takeWhile_imp hx
      simpa using this
    have hne : (c :: r).takeWhile (fun c => !decide (c ∈ delim)) ≠ [] := by
      simp [List.takeWhile_cons, hpc]
    rw [hcr]
    cases hdr : (c :: r).dropWhile (fun c => !decide (c ∈ delim)) with
    | nil =>
      rw [hdr, List.append_nil] at hrest
      have h := strtok_some [] (l.takeWhile (fun c => decide (c ∈ delim)))
        ((c :: r).takeWhile (fun c => !decide (c ∈ delim))) NUL [] delim hskip htok hne
        (Or.inl rfl)
      have hc := cstrAt_token (l.takeWhile (fun c => decide (c ∈ delim)))
        ((c :: r).takeWhile (fun c => !decide (c ∈ delim))) [] (fun x hx => (htok x hx).1)
      have hbuf : l ++ [NUL] = l.takeWhile (fun c => decide (c ∈ delim)) ++
          ((c :: r).takeWhile (fun c => !decide (c ∈ delim)) ++ [NUL]) := by
        rw [hrest, ← List.append_assoc, ← hcr, hl]
      simp only [List.nil_append, List.length_nil, Nat.zero_add] at h
      rw [hbuf]
      exact ⟨_, _, h, hc, hne⟩
    | cons y r2 =>
      rw [hdr] at hrest
      have hy := List.head_dropWhile_not (fun c => !decide (c ∈ delim)) (c :: r)
        (by rw [hdr]; simp)
      simp only [hdr, List.head_cons] at hy
      have hy' : y ∈ delim := by simpa using hy
      have h := strtok_some [] (l.takeWhile (fun c => decide (c ∈ delim)))
        ((c :: r).takeWhile (fun c => !decide (c ∈ delim))) y (r2 ++ [NUL]) delim hskip htok
        hne (Or.inr hy')
      have hc := cstrAt_token (l.takeWhile (fun c => decide (c ∈ delim)))
        ((c :: r).takeWhile (fun c => !decide (c ∈ delim))) (r2 ++ [NUL])
        (fun x hx => (htok x hx).1)
      have hbuf : l ++ [NUL] = l.takeWhile (fun c => decide (c ∈ delim)) ++
          ((c :: r).takeWhile (fun c => !decide (c ∈ delim)) ++ y :: (r2 ++ [NUL])) := by
        have e : (c :: r).takeWhile (fun c => !decide (c ∈ delim)) ++ y :: (r2 ++ [NUL])
            = ((c :: r).takeWhile (fun c => !decide (c ∈ delim)) ++ y :: r2) ++ [NUL] := by
          simp
        rw [e, hrest, ← List.append_assoc, ← hcr, hl]
      simp only [List.nil_append, List.length_nil, Nat.zero_add] at h
      rw [hbuf]
      exact ⟨_, _, h, hc, hne⟩

/-- The symbol of an accepted address or label command is not empty. -/
theorem parseCommandFields_symbol_nonempty (command : String) (code : Int)
    (cur : ParsedCommand) (h : parseCommandFields command = Res.ret code cur)
    (hty : cur.type = A_COMMAND ∨ cur.type = L_COMMAND) (hcode : code = 0) :
    ∃ symbol, cur = ⟨some symbol, none, none, none, cur.type⟩ ∧ symbol ≠ "" := by
  have htype := (parseCommandFields_ret _ _ _ h).1
  unfold parseCommandFields at h
  rw [← htype] at h
  rcases hty with hty | hty
  · simp only [hty, ParsedCommand_free] at h
    cases hs : strtok (command.toList ++ [NUL]) 0 ['@'] with
    | mk tok r =>
      obtain ⟨buf', s'⟩ := r
      cases tok with
      | none =>
        simp only [hs, Res.ret.injEq] at h
        omega
      | some t =>
        simp only [hs, Res.ret.injEq] at h
        obtain ⟨_, hcur⟩ := h
        refine ⟨cstrAt buf' t, ?_, strtok_token_nonempty _ _ _ _ _ _ hs⟩
        rw [← hcur]
  · simp only [hty, ParsedCommand_free] at h
    cases hs : strtok (command.toList ++ [NUL]) 0 ['(', ')'] with
    | mk tok r =>
      obtain ⟨buf', s'⟩ := r
      cases tok with
      | none =>
        simp only [hs] at h
        cases h
      | some t =>
        simp only [hs, Res.ret.injEq] at h
        obtain ⟨_, hcur⟩ := h
        refine ⟨cstrAt buf' t, ?_, strtok_token_nonempty _ _ _ _ _ _ hs⟩
        rw [← hcur]

/-- The label branch of the parser on a line that is classified as a label
declaration: the name is the first run of characters that are not parentheses;
when the line holds parentheses only there is no token, and the `NULL` token is
copied. -/
theorem parseCommandFields_label_line (command : String)
    (hty : findCommandType command = L_COMMAND) (hnul : NUL ∉ command.toList) :
    ((∀ c ∈ command.toList, c = '(' ∨ c = ')') → parseCommandFields command = Res.undefined) ∧
    (¬ (∀ c ∈ command.toList, c = '(' ∨ c = ')') →
      (command.toList.dropWhile (fun c => decide (c ∈ ['(', ')']))).takeWhile
          (fun c => !decide (c ∈ ['(', ')'])) ≠ [] ∧
      parseCommandFields command
        = Res.ret 0 ⟨some ⟨(command.toList.dropWhile (fun c => decide (c ∈ ['(', ')']))).takeWhile
            (fun c => !decide (c ∈ ['(', ')']))⟩, none, none, none, L_COMMAND⟩) := by
  obtain ⟨h1, h2⟩ := strtok_first command.toList ['(', ')'] hnul
  have hall : command.toList.dropWhile (fun c => decide (c ∈ ['(', ')'])) = [] ↔
      ∀ c ∈ command.toList, c = '(' ∨ c = ')' := by
    rw [List.dropWhile_eq_nil_iff]
    simp
  constructor
  · intro h
    have hs := h1 (hall.mpr h)
    unfold parseCommandFields
    simp only [hty, hs]
  · intro h
    obtain ⟨buf', s', hs, hc, hne⟩ := h2 (fun hd => h (hall.mp hd))
    refine ⟨hne, ?_⟩
    unfold parseCommandFields
    simp only [hty, hs, hc, ParsedCommand_free]

/-! ## C34: label lines of parentheses only -/

/-- C34 (the code at the failing input). The lines `()` and `())` are
classified as label declarations, `strtok` finds no token in them, and the
label branch copies the `NULL` token with `strdup`, which is undefined; `main`
on the one-line program `()` runs into it.  A line classified as a label
declaration has no token exactly when it holds parentheses only; whenever the
label branch returns, the name is not empty. -/
theorem parseCommandFields_label_no_token :
    findCommandType "()" = L_COMMAND ∧ findCommandType "())" = L_COMMAND ∧
    (strtok ("()".toList ++ [NUL]) 0 ['(', ')']).1 = none ∧
    (strtok ("())".toList ++ [NUL]) 0 ['(', ')']).1 = none ∧
    parseCommandFields "()" = Res.undefined ∧ parseCommandFields "())" = Res.undefined ∧
    Parser_parseCommand (Parser_create ⟨[], false⟩) "()" = Res.undefined ∧
    (∀ indeterminate : Int, main indeterminate ["()\n"] = some Res.undefined) ∧
    (∀ command : String, findCommandType command = L_COMMAND → NUL ∉ command.toList →
      (parseCommandFields command = Res.undefined ↔
        ∀ c ∈ command.toList, c = '(' ∨ c = ')')) ∧
    (∀ (command : String) (code : Int) (cur : ParsedCommand),
      parseCommandFields command = Res.ret code cur → cur.type = L_COMMAND →
      code = 0 ∧ ∃ name, cur.symbol = some name ∧ name ≠ "") := by
  refine ⟨by decide, by decide, by decide, by decide, by decide, by decide, by decide,
    fun v => ?_, ?_, ?_⟩
  · rw [main_sign]
    split_ifs
    · set_option maxRecDepth 4096 in decide
    · set_option maxRecDepth 4096 in decide
  · intro command hty hnul
    obtain ⟨h1, h2⟩ := parseCommandFields_label_line command hty hnul
    constructor
    · intro hu
      by_contra hn
      rw [(h2 hn).2] at hu
      cases hu
    · exact h1
  · intro command code cur h hty
    have hcode : code = 0 := by
      have htype := (parseCommandFields_ret _ _ _ h).1
      unfold parseCommandFields at h
      rw [← htype, hty] at h
      simp only at h
      split at h
      · cases h
      · simp only [Res.ret.injEq] at h
        exact h.1.symm
    obtain ⟨symbol, hcur, hne⟩ := parseCommandFields_symbol_nonempty command code cur h
      (Or.inr hty) hcode
    refine ⟨hcode, symbol, ?_, hne⟩
    rw [hcur]

/-! ## C33: address instructions whose target is a mnemonic -/

/-- Of the mnemonics other than the empty one, `isNum` accepts `0` and `1` only. -/
theorem isNum_of_mnemonic (m : String) (hm : isMneumonic m = 1) (hne : m ≠ "") :
    isNum m = 1 ↔ m = "0" ∨ m = "1" := by
  have key : ∀ x ∈ COMPUTATION_MNEUMONICS ++ DESTINATION_MNEUMONICS ++ JUMP_MNEUMONICS,
      x ≠ "" → (isNum x = 1 ↔ x = "0" ∨ x = "1") := by decide
  refine key m ?_ hne
  unfold isMneumonic at hm
  simp only [List.mem_append]
  split_ifs at hm with h1 h2 h3
  · exact Or.inl (Or.inl h1)
  · exact Or.inl (Or.inr h2)
  · exact Or.inr h3
  · simp at hm

/-- When the iteration of one of the commands fails in every state, the loop
of `generateCode` returns -1. -/
theorem generateCodeLoop_abort (cmd : ParsedCommand)
    (hfail : ∀ s : PassTwo, generateCommand s cmd = none) :
    ∀ (cmds : List ParsedCommand) (s : PassTwo), cmd ∈ cmds →
      (generateCodeLoop cmds s).1 = some (-1)
  | [], _, h => by simp at h
  | c :: rest, s, h => by
    unfold generateCodeLoop
    cases hg : generateCommand s c with
    | none => rfl
    | some s1 =>
      simp only
      rcases List.mem_cons.mp h with rfl | hm
      · rw [hfail s] at hg
        cases hg
      · exact generateCodeLoop_abort cmd hfail rest s1 hm

/-- The instructions that a successful pass 1 stores are the accepted lines. -/
theorem parse_of_mem_commands (lines : List String) (st : SymbolTable) (capacity : Nat)
    (s1 : PassOne) (hst : 0 < st.size)
    (h : parseCommands (Parser_create ⟨lines, false⟩) st ⟨capacity, []⟩ = some (Res.ret 0 s1))
    (cmd : ParsedCommand) (hmem : cmd ∈ s1.command_array.commands) :
    ∃ l ∈ lines, parseCommandFields (strtrim l) = Res.ret 0 cmd := by
  have hne : st.values ≠ [] := List.length_pos.mp hst
  obtain ⟨hc, _, _, _⟩ := parseCommandsLoop_spec _ _ _ _ rfl hne h
  simp only [Parser_create, List.nil_append] at hc
  rw [hc] at hmem
  unfold instructionCommands at hmem
  obtain ⟨l, hl, hf⟩ := List.mem_filterMap.mp hmem
  exact ⟨l, (List.mem_filter.mp hl).1, parse_of_lineFields l cmd hf⟩

/-- C33. Let pass 1 succeed, and let the command array hold an address
instruction whose target is a mnemonic (`isMneumonic` returns 1).  The target
is not empty, and in every state of pass 2 the iteration hands the target to
`generateAInstruction` and does nothing else: the symbol table is neither read
nor changed, whatever labels it holds.  The iteration succeeds exactly for the
targets `0` and `1`, with the records of the addresses 0 and 1; for every other
mnemonic it fails, `generateCode` returns -1 and `main` returns -1. -/
theorem mnemonic_target (lines : List String) (s1 : PassOne)
    (h : parseCommands (Parser_create ⟨lines, false⟩) ⟨151, predefinedEntries⟩ ⟨128, []⟩
      = some (Res.ret 0 s1))
    (cmd : ParsedCommand) (hmem : cmd ∈ s1.command_array.commands) (symbol : String)
    (hty : cmd.type = A_COMMAND) (hsym : cmd.symbol = some symbol)
    (hm : isMneumonic symbol = 1) :
    symbol ≠ "" ∧
    (∀ s : PassTwo,
      generateCommand s cmd
        = (generateAInstruction symbol binary_instruction_init).map
            (fun b => writeInstruction b s) ∧
      (symbol = "0" → generateCommand s cmd
        = some { s with output_file := s.output_file ++ ["0000000000000000\n"] }) ∧
      (symbol = "1" → generateCommand s cmd
        = some { s with output_file := s.output_file ++ ["0000000000000001\n"] }) ∧
      (symbol ≠ "0" → symbol ≠ "1" → generateCommand s cmd = none)) ∧
    (symbol ≠ "0" → symbol ≠ "1" →
      (generateCode s1.symbol_table s1.command_array).1 = some (-1) ∧
      ∀ indeterminate : Int, main indeterminate lines
        = some (Res.ret (-1) (generateCode s1.symbol_table s1.command_array).2.output_file)) := by
  have hne : symbol ≠ "" := by
    obtain ⟨l, _, hp⟩ := parse_of_mem_commands lines ⟨151, predefinedEntries⟩ 128 s1
      (by decide) h cmd hmem
    obtain ⟨sym, hcur, hsne⟩ := parseCommandFields_symbol_nonempty _ 0 cmd hp (Or.inl hty) rfl
    rw [hcur] at hsym
    simp only [Option.some.injEq] at hsym
    rw [← hsym]
    exact hsne
  have hgen : ∀ s : PassTwo, generateCommand s cmd
      = (generateAInstruction symbol binary_instruction_init).map
          (fun b => writeInstruction b s) := by
    intro s
    unfold generateCommand
    simp only [hty, hsym, hm, if_true]
    cases generateAInstruction symbol binary_instruction_init <;> rfl
  have hnone : symbol ≠ "0" → symbol ≠ "1" →
      generateAInstruction symbol binary_instruction_init = none := by
    intro h0 h1
    have hnum : ¬ isNum symbol = 1 := fun hn =>
      ((isNum_of_mnemonic symbol hm hne).mp hn).elim h0 h1
    simp [generateAInstruction, numToBinary, hnum]
  refine ⟨hne, ?_, ?_⟩
  · intro s
    refine ⟨hgen s, ?_, ?_, ?_⟩
    · intro h0
      have hg : generateAInstruction "0" binary_instruction_init
          = some ("0000000000000000".toList ++ [NUL, NUL]) := by decide
      have hr : record ("0000000000000000".toList ++ [NUL, NUL]) = "0000000000000000\n" := by
        decide
      rw [hgen s, h0, hg, Option.map_some', writeInstruction, hr]
    · intro h1
      have hg : generateAInstruction "1" binary_instruction_init
          = some ("0000000000000001".toList ++ [NUL, NUL]) := by decide
      have hr : record ("0000000000000001".toList ++ [NUL, NUL]) = "0000000000000001\n" := by
        decide
      rw [hgen s, h1, hg, Option.map_some', writeInstruction, hr]
    · intro h0 h1
      rw [hgen s, hnone h0 h1]
      rfl
  · intro h0 h1
    have hfail : ∀ s : PassTwo, generateCommand s cmd = none := by
      intro s
      rw [hgen s, hnone h0 h1]
      rfl
    have hcode : (generateCode s1.symbol_table s1.command_array).1 = some (-1) :=
      generateCodeLoop_abort cmd hfail _ _ hmem
    refine ⟨hcode, fun v => ?_⟩
    have hca : CommandArray_create 128 = some ⟨128, []⟩ := by decide
    have hst : SymbolTable_create 128 = some ⟨151, predefinedEntries⟩ := by decide
    unfold main
    simp only [hca, hst, h, hcode]
    simp

/-- Witness for C33: in `(D) / @D` the target `D` is a mnemonic and a declared
label, and the translation aborts; in `(1) / @1` the label `1` is bound to 0
and the record is that of the address 1. -/
theorem mnemonic_target_witness :
    (∀ indeterminate : Int, main indeterminate ["(D)\n", "@D\n"] = some (Res.ret (-1) [])) ∧
    (∀ indeterminate : Int, main indeterminate ["(1)\n", "@1\n"]
      = some (Res.ret (if indeterminate < 0 then -1 else 0) ["0000000000000001\n"])) ∧
    (∀ indeterminate : Int, main indeterminate ["@0\n", "@JMP\n"]
      = some (Res.ret (-1) ["0000000000000000\n"])) ∧
    (∀ indeterminate : Int, main indeterminate ["@-1\n"] = some (Res.ret (-1) [])) ∧
    (∀ indeterminate : Int, main indeterminate ["@MD\n"] = some (Res.ret (-1) [])) ∧
    ("D" ≠ "" ∧
      (generateCode (⟨151, predefinedEntries ++ [⟨"D", 0⟩]⟩ : SymbolTable)
          ⟨128, [⟨some "D", none, none, none, A_COMMAND⟩]⟩).1 = some (-1)) :=
  have w := mnemonic_target ["(D)\n", "@D\n"]
    ⟨⟨⟨[], true⟩, ⟨some "D", none, none, none, A_COMMAND⟩⟩,
     ⟨151, predefinedEntries ++ [⟨"D", 0⟩]⟩,
     ⟨128, [⟨some "D", none, none, none, A_COMMAND⟩]⟩⟩
    (by decide) ⟨some "D", none, none, none, A_COMMAND⟩ (by simp) "D" rfl rfl (by decide)
  ⟨fun v => by
      rw [main_sign]
      split_ifs
      · set_option maxRecDepth 4096 in decide
      · set_option maxRecDepth 4096 in decide,
    fun v => by
      rw [main_sign]
      split_ifs
      · set_option maxRecDepth 4096 in decide
      · set_option maxRecDepth 4096 in decide,
    fun v => by
      rw [main_sign]
      split_ifs
      · set_option maxRecDepth 4096 in decide
      · set_option maxRecDepth 4096 in decide,
    fun v => by
      rw [main_sign]
      split_ifs
      · set_option maxRecDepth 4096 in decide
      · set_option maxRecDepth 4096 in decide,
    fun v => by
      rw [main_sign]
      split_ifs
      · set_option maxRecDepth 4096 in decide
      · set_option maxRecDepth 4096 in decide,
    w.1, (w.2.2 (by decide) (by decide)).1⟩

/-! ## C9: one record per instruction, in input order -/

/-- C9 (the code at the failing input). The one-line program `@5` is translated
without an error, and its one record is that of the address 16, where the
encoder gives `0000000000000101` for the target `5`: the record is not the
encoding of the instruction (the defect of C4).  Number and order of the
records are as claimed: whenever pass 1 succeeds and pass 2 runs through, the
output has one record for each address and compute instruction, the i-th
record being the one that the iteration on the i-th instruction writes; `main`
returns with this output. -/
theorem main_emits_instructions :
    (∀ indeterminate : Int, main indeterminate ["@5\n"]
      = some (Res.ret (if indeterminate < 0 then -1 else 0) ["0000000000010000\n"])) ∧
    instructionCommands ["@5\n"] = [⟨some "5", none, none, none, A_COMMAND⟩] ∧
    (generateAInstruction "5" binary_instruction_init).map record
      = some "0000000000000101\n" ∧
    "0000000000010000\n" ≠ "0000000000000101\n" ∧
    (∀ (lines : List String) (s1 : PassOne) (s2 : PassTwo),
      parseCommands (Parser_create ⟨lines, false⟩) ⟨151, predefinedEntries⟩ ⟨128, []⟩
        = some (Res.ret 0 s1) →
      generateCode s1.symbol_table s1.command_array = (none, s2) →
      s2.output_file.length = instructionCount lines ∧
      List.Forall₂ (Emits s2.symbol_table) (instructionCommands lines) s2.output_file ∧
      ∀ indeterminate : Int, main indeterminate lines
        = some (Res.ret (if indeterminate < 0 then -1 else 0) s2.output_file)) := by
  refine ⟨fun v => ?_, by decide, by decide, by decide, ?_⟩
  · rw [main_sign]
    split_ifs
    · set_option maxRecDepth 4096 in decide
    · set_option maxRecDepth 4096 in decide
  · intro lines s1 s2 hp hg
    have hne : (⟨151, predefinedEntries⟩ : SymbolTable).values ≠ [] := by decide
    obtain ⟨hc1, hc2, ⟨ext1, hext1⟩, _⟩ := parseCommandsLoop_spec _ _ _ _ rfl hne hp
    simp only [Parser_create, List.nil_append] at hc1 hc2 hext1
    have hne1 : s1.symbol_table.values ≠ [] := by
      rw [hext1]
      simp [hne]
    have hg' : generateCodeLoop s1.command_array.commands ⟨s1.symbol_table, 16, []⟩
        = (none, s2) := hg
    obtain ⟨out1, ext, ho, _, hall⟩ := generateCodeLoop_spec _ _ _ hne1 hg'
    simp only [List.nil_append] at ho
    rw [← ho, hc1] at hall
    refine ⟨by rw [← hall.length_eq, hc2], hall, fun v => ?_⟩
    have hca : CommandArray_create 128 = some ⟨128, []⟩ := by decide
    have hst : SymbolTable_create 128 = some ⟨151, predefinedEntries⟩ := by decide
    unfold main
    simp only [hca, hst, hp, lt_self_iff_false, if_false, hg, Option.getD_none]
    split_ifs
    · rfl
    · rfl

/-! ## C8: references to labels -/

end HackAssembler
